import Mathlib

/-!
# Verification of the chromehistorytree visit-graph reconstruction engine

This development shallowly embeds the tree-synthesis core of `src/history.js`:
the direct-link builder `buildHistoryTree`, the URL-aggregated builder
`buildAggregatedTree` (with `edmondsMaximumArborescence` and the greedy
cycle-breaking fallback `greedyResolve`), the enhanced builder `buildBetaTree`
with its signal-detector cascade, and the duplicate collapser
`removeDuplicateNodes` / `isSameNode`.

Modelling conventions:
* JavaScript numbers holding timestamps are embedded as `Int` (all timestamp
  arithmetic in the source is exact integer arithmetic on ms values).
* JavaScript numbers holding heuristic scores/confidences are embedded as `ℚ`;
  every float is a rational and the source only ever compares and
  adds/multiplies these values, so rational arithmetic covers every behaviour
  the floating-point program can exhibit at the inputs considered here.  The
  one exception is `_computeEdgeScore`, which uses `Math.log`/`Math.exp`; the
  aggregated builder is therefore parameterised by that edge-score function
  (`score`), and every theorem about it holds for an arbitrary score function,
  hence in particular for the one the program computes.
* JavaScript `Map`s are embedded as association lists (preserving insertion
  order, which JS `Map` iteration exposes) or as finitely-supported functions
  when only lookups matter.
* The JS objects built by the tree builders form a heap graph (`children`
  arrays of object references, objects identified by their unique key).  We
  embed that graph as `children : String → List String` plus a payload map,
  and materialise the returned forest by bounded unfolding (`buildTree`): the
  unfolding succeeding is exactly the acyclicity of the returned structure.
-/

set_option linter.unusedVariables false

namespace CHT

/-! ## Stable sorting, as `Array.prototype.sort` with a comparator

Modern JS `sort` is stable.  `sortJS prec l` sorts `l` so that `a` comes
before `b` whenever `prec a b` (the comparator returned a negative number),
and elements the comparator ties keep their original relative order. -/

def insJS (prec : α → α → Bool) (x : α) : List α → List α
  | [] => [x]
  | y :: ys => if prec y x then y :: insJS prec x ys else x :: y :: ys

def sortJS (prec : α → α → Bool) : List α → List α
  | [] => []
  | x :: xs => insJS prec x (sortJS prec xs)

theorem insJS_perm (prec : α → α → Bool) (x : α) (l : List α) :
    (insJS prec x l).Perm (x :: l) := by
  induction l with
  | nil => simp [insJS]
  | cons y ys ih =>
      by_cases h : prec y x = true
      · simp only [insJS, h, if_pos]
        exact ((ih.cons y).trans (List.Perm.swap x y ys))
      · simp [insJS, h]

theorem sortJS_perm (prec : α → α → Bool) (l : List α) :
    (sortJS prec l).Perm l := by
  induction l with
  | nil => simp [sortJS]
  | cons x xs ih =>
      exact (insJS_perm prec x (sortJS prec xs)).trans (ih.cons x)

theorem mem_sortJS (prec : α → α → Bool) (l : List α) (a : α) :
    a ∈ sortJS prec l ↔ a ∈ l :=
  (sortJS_perm prec l).mem_iff

theorem count_sortJS [DecidableEq α] (prec : α → α → Bool) (l : List α) (a : α) :
    (sortJS prec l).count a = l.count a :=
  (sortJS_perm prec l).count_eq a

theorem length_sortJS (prec : α → α → Bool) (l : List α) :
    (sortJS prec l).length = l.length :=
  (sortJS_perm prec l).length_eq

/-- Order produced by `sortJS`: `b` never strictly precedes an element placed
before it. -/
def SortedJS (prec : α → α → Bool) (l : List α) : Prop :=
  l.Pairwise (fun a b => ¬ prec b a = true)

theorem insJS_pairwise (prec : α → α → Bool)
    (hneg : ∀ a b c, ¬ prec b a = true → ¬ prec c b = true → ¬ prec c a = true)
    (hasymm : ∀ a b, prec a b = true → ¬ prec b a = true)
    (x : α) (l : List α) (hl : SortedJS prec l) :
    SortedJS prec (insJS prec x l) := by
  induction l with
  | nil => simp [insJS, SortedJS]
  | cons y ys ih =>
      rcases List.pairwise_cons.mp hl with ⟨hy, hys⟩
      by_cases h : prec y x = true
      · simp only [insJS, h, if_pos]
        refine List.pairwise_cons.mpr ⟨?_, ih hys⟩
        intro z hz
        rcases List.mem_cons.mp ((insJS_perm prec x ys).mem_iff.mp hz) with hz | hz
        · rw [hz]; exact hasymm y x h
        · exact hy z hz
      · simp only [insJS, h, if_neg]
        refine List.pairwise_cons.mpr ⟨?_, hl⟩
        intro z hz
        rcases List.mem_cons.mp hz with hz | hz
        · subst hz; exact h
        · exact hneg x y z h (hy z hz)

theorem sortJS_pairwise (prec : α → α → Bool)
    (hneg : ∀ a b c, ¬ prec b a = true → ¬ prec c b = true → ¬ prec c a = true)
    (hasymm : ∀ a b, prec a b = true → ¬ prec b a = true)
    (l : List α) : SortedJS prec (sortJS prec l) := by
  induction l with
  | nil => simp [sortJS, SortedJS]
  | cons x xs ih => exact insJS_pairwise prec hneg hasymm x (sortJS prec xs) ih

theorem insJS_of_forall (prec : α → α → Bool) (x : α) (l : List α)
    (h : ∀ y ∈ l, ¬ prec y x = true) : insJS prec x l = x :: l := by
  cases l with
  | nil => rfl
  | cons y ys =>
      have : ¬ prec y x = true := h y (by simp)
      simp [insJS, this]

/-- A stable sort leaves an already-sorted list unchanged. -/
theorem sortJS_of_sorted (prec : α → α → Bool) (l : List α)
    (hl : SortedJS prec l) : sortJS prec l = l := by
  induction l with
  | nil => rfl
  | cons x xs ih =>
      rcases List.pairwise_cons.mp hl with ⟨hx, hxs⟩
      rw [sortJS, ih hxs, insJS_of_forall]
      exact hx

/-! ## Core data types -/

/-- A visit record as collected by `buildHistoryTree` from
`chrome.history.getVisits` (lines 762-770): `visitId`, `url`, `title`
(defaulted to the url), `visitTime` (ms), `referringVisitId` (`null` when the
chrome value is falsy), `transition`, and the favicon url. -/
structure Visit where
  visitId : String
  url : String
  title : String
  visitTime : Int
  referringVisitId : Option String
  transition : String
  favicon : String
deriving DecidableEq, Repr

/-- Payload of one output tree node.  The three builders produce JS objects
with slightly different field sets (aggregated nodes have `visitCount` but no
`visitId`/`transition`; visit nodes have no `visitCount`); we use one record
with the unused fields defaulted, which the claims never distinguish. -/
structure NodeData where
  visitId : String := ""
  url : String
  title : String
  visitTime : Int
  referringVisitId : Option String := none
  transition : String := ""
  favicon : String
  visitCount : Nat := 0
deriving DecidableEq, Repr

def Visit.toData (v : Visit) : NodeData :=
  { visitId := v.visitId, url := v.url, title := v.title,
    visitTime := v.visitTime, referringVisitId := v.referringVisitId,
    transition := v.transition, favicon := v.favicon }

/-- A materialised output tree node: the payload together with the ordered
children list. -/
inductive TNode where
  | node (data : NodeData) (children : List TNode)

mutual

def TNode.decEq : (a b : TNode) → Decidable (a = b)
  | .node d cs, .node e ds =>
    if hd : d = e then
      match TNode.decEqList cs ds with
      | isFalse h => isFalse (by intro he; cases he; exact h rfl)
      | isTrue hc => isTrue (by rw [hd, hc])
    else isFalse (by intro he; cases he; exact hd rfl)

def TNode.decEqList : (as bs : List TNode) → Decidable (as = bs)
  | [], [] => isTrue rfl
  | [], _ :: _ => isFalse (by simp)
  | _ :: _, [] => isFalse (by simp)
  | a :: as, b :: bs =>
    match TNode.decEq a b with
    | isFalse h => isFalse (by intro he; injection he; contradiction)
    | isTrue ha =>
      match TNode.decEqList as bs with
      | isFalse h => isFalse (by intro he; injection he; contradiction)
      | isTrue hs => isTrue (by rw [ha, hs])

end

instance : DecidableEq TNode := TNode.decEq

instance : DecidableEq (List TNode) := TNode.decEqList

def TNode.data : TNode → NodeData
  | .node d _ => d

def TNode.children : TNode → List TNode
  | .node _ cs => cs

def TNode.size : TNode → Nat
  | .node _ cs => 1 + (cs.attach.map (fun c => TNode.size c.val)).sum
decreasing_by
  have := c.property
  have h := List.sizeOf_lt_of_mem this
  simp only [TNode.node.sizeOf_spec]
  omega

theorem TNode.size_def (d : NodeData) (cs : List TNode) :
    TNode.size (.node d cs) = 1 + (cs.map TNode.size).sum := by
  rw [TNode.size]
  congr 1
  rw [List.attach_map_coe]

theorem TNode.size_pos (t : TNode) : 0 < t.size := by
  cases t with
  | node d cs => rw [TNode.size_def]; omega

def forestSize (f : List TNode) : Nat := (f.map TNode.size).sum

/-! ## Materialising an object graph as a forest

The JS builders produce a heap of node objects (identified by a unique string
key) whose `children` arrays hold object references.  We embed the heap as
`payload : String → Option NodeData` plus `children : String → List String`
and materialise the structure reachable from the root keys by bounded
unfolding.  `buildTree` succeeding with fuel `N + 1` (`N` = number of keys) is
exactly the statement that the reachable structure is a forest of bounded
depth: a cycle reachable from a root would exhaust any amount of fuel. -/

def collectSome : List (Option α) → Option (List α)
  | [] => some []
  | none :: _ => none
  | some a :: rest => (collectSome rest).map (a :: ·)

theorem collectSome_eq_some_iff (l : List (Option α)) (r : List α) :
    collectSome l = some r ↔ l = r.map some := by
  induction l generalizing r with
  | nil => cases r <;> simp [collectSome]
  | cons o rest ih =>
      cases o with
      | none => cases r <;> simp [collectSome]
      | some a =>
          cases r with
          | nil =>
              simp only [collectSome, Option.map_eq_some', List.map_nil]
              constructor
              · rintro ⟨l', _, h⟩; cases h
              · intro h; cases h
          | cons b bs =>
              simp only [collectSome, Option.map_eq_some', List.map_cons,
                List.cons.injEq]
              constructor
              · rintro ⟨l', hl', rfl, rfl⟩
                exact ⟨rfl, (ih _).mp hl'⟩
              · rintro ⟨hab, hrest⟩
                exact ⟨bs, (ih bs).mpr hrest, by injection hab, rfl⟩

theorem collectSome_isSome_of (l : List (Option α))
    (h : ∀ x ∈ l, x.isSome) : (collectSome l).isSome := by
  induction l with
  | nil => simp [collectSome]
  | cons o rest ih =>
      cases o with
      | none => exact absurd (h none (by simp)) (by simp)
      | some a =>
          simp only [collectSome, Option.isSome_map']
          exact ih (fun x hx => h x (by simp [hx]))

def buildTree (payload : String → Option NodeData) (children : String → List String) :
    Nat → String → Option TNode
  | 0, _ => none
  | fuel+1, k =>
    match payload k with
    | none => none
    | some d =>
      (collectSome ((children k).map (buildTree payload children fuel))).map
        (fun cs => TNode.node d cs)

def buildForest (payload : String → Option NodeData) (children : String → List String)
    (fuel : Nat) (roots : List String) : Option (List TNode) :=
  collectSome (roots.map (buildTree payload children fuel))

/-! ### Parent-pointer chains -/

/-- Distance to a root along parent pointers, computed with fuel:
`some d` means following `parent` from `k` hits a parentless key after
exactly `d` steps. -/
def distTo (parent : String → Option String) : Nat → String → Option Nat
  | 0, _ => none
  | fuel+1, k =>
    match parent k with
    | none => some 0
    | some p => (distTo parent fuel p).map (· + 1)

/-- `j`-fold application of the parent pointer. -/
def pIter (parent : String → Option String) : Nat → String → Option String
  | 0, k => some k
  | j+1, k => (parent k).bind (pIter parent j)

theorem pIter_succ_back (parent : String → Option String) (j : Nat) (k : String) :
    pIter parent (j+1) k = (pIter parent j k).bind parent := by
  induction j generalizing k with
  | zero => cases h : parent k <;> simp [pIter, h]
  | succ j ih =>
      show (parent k).bind (pIter parent (j+1)) =
        ((parent k).bind (pIter parent j)).bind parent
      cases h : parent k with
      | none => rfl
      | some p => simpa using ih p

theorem pIter_none_succ (parent : String → Option String) (j : Nat) (k : String)
    (h : pIter parent j k = none) : pIter parent (j+1) k = none := by
  rw [pIter_succ_back, h]; rfl

theorem distTo_mono (parent : String → Option String) :
    ∀ f f' : Nat, f ≤ f' → ∀ (k : String) (d : Nat),
      distTo parent f k = some d → distTo parent f' k = some d := by
  intro f
  induction f with
  | zero => intro f' _ k d h; simp [distTo] at h
  | succ f ih =>
      intro f' hle k d h
      obtain ⟨g, rfl⟩ : ∃ g, f' = g + 1 := ⟨f' - 1, by omega⟩
      cases hp : parent k with
      | none => simp only [distTo, hp] at h ⊢; exact h
      | some p =>
          simp only [distTo, hp, Option.map_eq_some'] at h ⊢
          obtain ⟨dp, hdp, rfl⟩ := h
          exact ⟨dp, ih g (by omega) p dp hdp, rfl⟩

theorem distTo_lt_fuel (parent : String → Option String) (f : Nat) (k : String) (d : Nat)
    (h : distTo parent f k = some d) : d < f := by
  induction f generalizing k d with
  | zero => simp [distTo] at h
  | succ f ih =>
      cases hp : parent k with
      | none =>
          simp only [distTo, hp] at h
          have h0 : (0 : Nat) = d := by injection h
          omega
      | some p =>
          simp only [distTo, hp, Option.map_eq_some'] at h
          obtain ⟨dp, hdp, rfl⟩ := h
          have := ih p dp hdp
          omega

/-- Along a chain of length `d`, step `j` lands on a key at distance `d - j`. -/
theorem chain_step (parent : String → Option String) (f : Nat) (k : String) (d : Nat)
    (h : distTo parent f k = some d) :
    ∀ j ≤ d, ∃ x, pIter parent j k = some x ∧ distTo parent f x = some (d - j) := by
  intro j
  induction j with
  | zero => intro _; exact ⟨k, rfl, by simpa using h⟩
  | succ j ih =>
      intro hj
      obtain ⟨x, hx, hdx⟩ := ih (by omega)
      have hdxpos : 1 ≤ d - j := by omega
      obtain ⟨f', rfl⟩ : ∃ g, f = g + 1 := by
        cases f with
        | zero => simp [distTo] at h
        | succ g => exact ⟨g, rfl⟩
      cases hp : parent x with
      | none =>
          simp only [distTo, hp] at hdx
          have : (0 : Nat) = d - j := by injection hdx
          omega
      | some p =>
          simp only [distTo, hp, Option.map_eq_some'] at hdx
          obtain ⟨dp, hdp, hdq⟩ := hdx
          refine ⟨p, ?_, ?_⟩
          · rw [pIter_succ_back, hx]; simpa using hp
          · have : dp = d - (j+1) := by omega
            rw [← this]
            exact distTo_mono parent f' (f'+1) (by omega) p dp hdp

theorem chain_beyond (parent : String → Option String) (f : Nat) (k : String) (d : Nat)
    (h : distTo parent f k = some d) : ∀ j, d < j → pIter parent j k = none := by
  intro j hj
  obtain ⟨e, he, hde⟩ := chain_step parent f k d h d (le_refl d)
  have hpe : parent e = none := by
    cases f with
    | zero => simp [distTo] at h
    | succ f' =>
        cases hp : parent e with
        | none => rfl
        | some p => simp [distTo, hp, Nat.sub_self] at hde
  have base : pIter parent (d+1) k = none := by
    rw [pIter_succ_back, he]
    simpa using hpe
  obtain ⟨m, rfl⟩ : ∃ m, j = (d + 1) + m := ⟨j - (d+1), by omega⟩
  clear hj
  induction m with
  | zero => exact base
  | succ m ih => exact pIter_none_succ parent _ k ih

/-- Distinct chain positions land on distinct keys. -/
theorem chain_inj (parent : String → Option String) (f : Nat) (k : String) (d : Nat)
    (h : distTo parent f k = some d) :
    ∀ i ≤ d, ∀ j ≤ d, ∀ x, pIter parent i k = some x → pIter parent j k = some x → i = j := by
  intro i hi j hj x hxi hxj
  obtain ⟨xi, hxi', hdi⟩ := chain_step parent f k d h i hi
  obtain ⟨xj, hxj', hdj⟩ := chain_step parent f k d h j hj
  rw [hxi'] at hxi; rw [hxj'] at hxj
  cases hxi; cases hxj
  rw [hdi] at hdj
  have : d - i = d - j := by injection hdj
  omega

/-- Tight fuel: a successful distance computation needs only `d + 1` fuel. -/
theorem distTo_tight (parent : String → Option String) (f : Nat) (k : String) (d : Nat)
    (h : distTo parent f k = some d) : distTo parent (d+1) k = some d := by
  induction f generalizing k d with
  | zero => simp [distTo] at h
  | succ f ih =>
      cases hp : parent k with
      | none =>
          simp only [distTo, hp] at h
          have h0 : (0 : Nat) = d := by injection h
          subst h0; simp [distTo, hp]
      | some p =>
          simp only [distTo, hp, Option.map_eq_some'] at h
          obtain ⟨dp, hdp, rfl⟩ := h
          simp only [distTo, hp, Option.map_eq_some']
          exact ⟨dp, ih p dp hdp, rfl⟩

theorem parent_ne_none_of_dist_pos (parent : String → Option String) (f : Nat)
    (k : String) (d : Nat) (h : distTo parent f k = some d) (hd : 1 ≤ d) :
    ∃ p, parent k = some p := by
  cases f with
  | zero => simp [distTo] at h
  | succ f =>
      cases hp : parent k with
      | none =>
          simp only [distTo, hp] at h
          have h0 : (0 : Nat) = d := by injection h
          omega
      | some p => exact ⟨p, rfl⟩

theorem pIter_mem_keys (parent : String → Option String) (keys : List String)
    (hpv : ∀ x p, parent x = some p → p ∈ keys) (v : String) (hv : v ∈ keys) :
    ∀ j x, pIter parent j v = some x → x ∈ keys := by
  intro j
  induction j with
  | zero => intro x hx; cases hx; exact hv
  | succ j ih =>
      intro x hx
      rw [pIter_succ_back] at hx
      obtain ⟨y, hy, hyx⟩ := Option.bind_eq_some.mp hx
      exact hpv y x hyx

theorem length_lt_of_sublist_of_mem {s t : List α} (h : s.Sublist t) (a : α) :
    a ∈ t → a ∉ s → s.length < t.length := by
  induction h with
  | slnil => intro hat _; cases hat
  | @cons l₁ l₂ b h ih =>
      intro hat has
      rcases List.mem_cons.mp hat with rfl | hat'
      · simpa using Nat.lt_succ_of_le h.length_le
      · simpa using Nat.lt_succ_of_lt (ih hat' has)
  | @cons₂ l₁ l₂ b h ih =>
      intro hat has
      have hab : a ≠ b := fun hab => has (hab ▸ List.mem_cons_self b l₁)
      have hat' : a ∈ l₂ := by
        rcases List.mem_cons.mp hat with rfl | hat' <;> [exact absurd rfl hab; exact hat']
      have has' : a ∉ l₁ := fun h' => has (List.mem_cons_of_mem b h')
      simpa using Nat.succ_lt_succ (ih hat' has')

/-- A successful parent-chain stays inside `keys` (after its first step), so
its length is at most the number of keys. -/
theorem distTo_le_card (parent : String → Option String) (keys : List String)
    (hkeys : keys.Nodup) (hpv : ∀ x p, parent x = some p → p ∈ keys)
    (f : Nat) (k : String) (d : Nat) (h : distTo parent f k = some d) :
    d ≤ keys.length := by
  classical
  set g : Nat → String := fun j => (pIter parent (j+1) k).getD "" with hg
  have hsome : ∀ j < d, ∃ x, pIter parent (j+1) k = some x ∧ x ∈ keys := by
    intro j hj
    obtain ⟨x, hx, hdx⟩ := chain_step parent f k d h (j+1) (by omega)
    refine ⟨x, hx, ?_⟩
    rw [pIter_succ_back] at hx
    obtain ⟨y, hy, hyx⟩ := Option.bind_eq_some.mp hx
    exact hpv y x hyx
  have hmap : ((List.range d).map g).Nodup := by
    refine List.Nodup.map_on ?_ (List.nodup_range d)
    intro i hi j hj hij
    rw [List.mem_range] at hi hj
    obtain ⟨xi, hxi, _⟩ := hsome i hi
    obtain ⟨xj, hxj, _⟩ := hsome j hj
    rw [hg] at hij
    simp only [hxi, hxj, Option.getD_some] at hij
    subst hij
    have := chain_inj parent f k d h (i+1) (by omega) (j+1) (by omega) xi hxi hxj
    omega
  have hsub : ((List.range d).map g) ⊆ keys := by
    intro x hx
    obtain ⟨j, hj, rfl⟩ := List.mem_map.mp hx
    rw [List.mem_range] at hj
    obtain ⟨y, hy, hyk⟩ := hsome j hj
    rw [hg]
    simpa [hy] using hyk
  have := List.Subperm.length_le (List.Nodup.subperm hmap hsub)
  simpa using this

/-- Bounded unfolding of the heap graph succeeds whenever every parent chain
from the reachable keys terminates: the materialised structure is a genuine
forest. -/
theorem buildTree_isSome
    (payload : String → Option NodeData) (children : String → List String)
    (parent : String → Option String) (keys : List String)
    (hkeys : keys.Nodup)
    (hpay : ∀ k ∈ keys, (payload k).isSome)
    (hchild : ∀ p, ∀ c ∈ children p, c ∈ keys ∧ parent c = some p)
    (hpv : ∀ x p, parent x = some p → p ∈ keys) :
    ∀ (fuel : Nat) (k : String) (dk : Nat),
      distTo parent (keys.length + 1) k = some dk → k ∈ keys →
      keys.length + 1 ≤ fuel + dk →
      (buildTree payload children fuel k).isSome := by
  intro fuel
  induction fuel with
  | zero =>
      intro k dk hd hk hb
      have := distTo_le_card parent keys hkeys hpv _ k dk hd
      omega
  | succ fuel ih =>
      intro k dk hd hk hb
      obtain ⟨d, hdsome⟩ := Option.isSome_iff_exists.mp (hpay k hk)
      simp only [buildTree, hdsome]
      rw [Option.isSome_map']
      refine collectSome_isSome_of _ ?_
      intro x hx
      obtain ⟨c, hc, rfl⟩ := List.mem_map.mp hx
      obtain ⟨hck, hcp⟩ := hchild k c hc
      have hdk1 : distTo parent (dk + 1) k = some dk := distTo_tight parent _ k dk hd
      have hdc' : distTo parent (dk + 2) c = some (dk + 1) := by
        simp only [distTo, hcp, Option.map_eq_some']
        exact ⟨dk, hdk1, rfl⟩
      have hdcb : dk + 1 ≤ keys.length :=
        distTo_le_card parent keys hkeys hpv _ c (dk+1) hdc'
      have hdc : distTo parent (keys.length + 1) c = some (dk + 1) :=
        distTo_mono parent (dk+2) (keys.length+1) (by omega) c (dk+1) hdc'
      exact ih c (dk+1) hdc hck (by omega)

/-! ### Counting key occurrences in a materialised forest -/

/-- Number of nodes in `t` whose `keyFn`-field equals `v`. -/
def countKey (keyFn : NodeData → String) (v : String) : TNode → Nat
  | .node d cs =>
      (if keyFn d = v then 1 else 0) +
        (cs.attach.map (fun c => countKey keyFn v c.val)).sum
decreasing_by
  have := c.property
  have h := List.sizeOf_lt_of_mem this
  simp only [TNode.node.sizeOf_spec]
  omega

theorem countKey_def (keyFn : NodeData → String) (v : String) (d : NodeData)
    (cs : List TNode) :
    countKey keyFn v (.node d cs) =
      (if keyFn d = v then 1 else 0) + (cs.map (countKey keyFn v)).sum := by
  rw [countKey]
  congr 1
  rw [List.attach_map_coe]

def forestCountKey (keyFn : NodeData → String) (v : String) (f : List TNode) : Nat :=
  (f.map (countKey keyFn v)).sum

theorem map_eq_map_some_forall {f : α → Option β} :
    ∀ {l : List α} {r : List β}, l.map f = r.map some →
      List.Forall₂ (fun a b => f a = some b) l r := by
  intro l
  induction l with
  | nil =>
      intro r h
      cases r with
      | nil => exact List.Forall₂.nil
      | cons b bs => simp at h
  | cons a as ih =>
      intro r h
      cases r with
      | nil => simp at h
      | cons b bs =>
          simp only [List.map_cons, List.cons.injEq] at h
          exact List.Forall₂.cons h.1 (ih h.2)

theorem sum_map_ite_eq_count [DecidableEq α] (l : List α) (c : α) :
    (l.map (fun x => if x = c then 1 else 0)).sum = l.count c := by
  induction l with
  | nil => simp
  | cons x xs ih =>
      simp only [List.map_cons, List.sum_cons, List.count_cons, ih]
      by_cases h : x = c <;> simp [h] <;> omega

/-- Sums agree along a `Forall₂` relation when the relation forces the values
to agree. -/
theorem sum_map_forall₂ {R : α → β → Prop} {l : List α} {r : List β}
    (h : List.Forall₂ R l r) (g : β → Nat) (f : α → Nat)
    (hval : ∀ a b, a ∈ l → R a b → g b = f a) :
    (r.map g).sum = (l.map f).sum := by
  induction h with
  | nil => rfl
  | @cons a b as bs hab htail ih =>
      simp only [List.map_cons, List.sum_cons]
      rw [hval a b (by simp) hab, ih]
      intro a' b' ha' hab'
      exact hval a' b' (by simp [ha']) hab'

/-- Core counting lemma: in the tree materialised from key `k`, the key `v`
occurs in exactly one node when `k` lies on `v`'s parent chain, and in none
otherwise. -/
theorem countKey_buildTree
    (payload : String → Option NodeData) (children : String → List String)
    (parent : String → Option String) (keys : List String) (keyFn : NodeData → String)
    (hkeys : keys.Nodup)
    (hkey : ∀ k ∈ keys, ∀ d, payload k = some d → keyFn d = k)
    (hchild : ∀ p, ∀ c ∈ children p, c ∈ keys ∧ parent c = some p)
    (hcc : ∀ p c, c ∈ keys → parent c = some p → (children p).count c = 1)
    (hpv : ∀ x p, parent x = some p → p ∈ keys)
    (v : String) (hv : v ∈ keys) (dv : Nat)
    (hdv : distTo parent (keys.length + 1) v = some dv) :
    ∀ (fuel : Nat) (k : String) (t : TNode), k ∈ keys →
      buildTree payload children fuel k = some t →
      ((∃ j, pIter parent j v = some k) → countKey keyFn v t = 1) ∧
      ((¬ ∃ j, pIter parent j v = some k) → countKey keyFn v t = 0) := by
  intro fuel
  induction fuel with
  | zero => intro k t hk ht; simp [buildTree] at ht
  | succ fuel ih =>
      intro k t hk ht
      have hchain_le : ∀ j x, pIter parent j v = some x → j ≤ dv := by
        intro j x hx
        by_contra hlt
        rw [chain_beyond parent _ v dv hdv j (by omega)] at hx
        cases hx
      cases hpd : payload k with
      | none => simp [buildTree, hpd] at ht
      | some d =>
          simp only [buildTree, hpd, Option.map_eq_some'] at ht
          obtain ⟨cs, hcs, rfl⟩ := ht
          have hfa :
              List.Forall₂ (fun c tc => buildTree payload children fuel c = some tc)
                (children k) cs :=
            map_eq_map_some_forall ((collectSome_eq_some_iff _ _).mp hcs)
          have hkd : keyFn d = k := hkey k hk d hpd
          rw [countKey_def]
          constructor
          · rintro ⟨j, hj⟩
            rcases Nat.eq_zero_or_pos j with rfl | hjpos
            · -- k = v : the node itself is the occurrence, no child repeats it
              have hvk : v = k := by injection hj
              have hsum : (cs.map (countKey keyFn v)).sum =
                  ((children k).map (fun _ => 0)).sum := by
                refine sum_map_forall₂ hfa _ _ ?_
                intro c tc hc hctc
                obtain ⟨hck, hcp⟩ := hchild k c hc
                refine ((ih c tc hck hctc).2 ?_)
                rintro ⟨jc, hjc⟩
                have hjc1 : pIter parent (jc+1) v = some k := by
                  rw [pIter_succ_back, hjc]
                  simpa using hcp
                have h0 : pIter parent 0 v = some k := by rw [← hvk]; rfl
                have := chain_inj parent (keys.length+1) v dv hdv (jc+1)
                  (hchain_le _ _ hjc1) 0 (by omega) k hjc1 h0
                omega
              rw [hsum]
              simp [hkd, hvk]
            · -- k strictly above v on the chain: exactly one child continues it
              obtain ⟨c₀, hc₀, hc₀p⟩ : ∃ c₀, pIter parent (j-1) v = some c₀ ∧
                  parent c₀ = some k := by
                have hstep : pIter parent ((j-1)+1) v = some k := by
                  have hj1 : (j-1)+1 = j := by omega
                  rw [hj1]; exact hj
                rw [pIter_succ_back] at hstep
                obtain ⟨y, hy, hyx⟩ := Option.bind_eq_some.mp hstep
                exact ⟨y, hy, hyx⟩
              have hc₀keys : c₀ ∈ keys :=
                pIter_mem_keys parent keys hpv v hv (j-1) c₀ hc₀
              have hkv : keyFn d ≠ v := by
                rw [hkd]
                intro hkeq
                have h0 : pIter parent 0 v = some k := by rw [hkeq]; rfl
                have := chain_inj parent (keys.length+1) v dv hdv j
                  (hchain_le _ _ hj) 0 (by omega) k hj h0
                omega
              have hsum : (cs.map (countKey keyFn v)).sum =
                  ((children k).map (fun c => if c = c₀ then 1 else 0)).sum := by
                refine sum_map_forall₂ hfa _ _ ?_
                intro c tc hc hctc
                obtain ⟨hck, hcp⟩ := hchild k c hc
                by_cases hcc₀ : c = c₀
                · subst hcc₀
                  simp only [if_pos rfl]
                  exact (ih c tc hck hctc).1 ⟨j-1, hc₀⟩
                · simp only [if_neg hcc₀]
                  refine (ih c tc hck hctc).2 ?_
                  rintro ⟨jc, hjc⟩
                  have hjc1 : pIter parent (jc+1) v = some k := by
                    rw [pIter_succ_back, hjc]
                    simpa using hcp
                  have := chain_inj parent (keys.length+1) v dv hdv (jc+1)
                    (hchain_le _ _ hjc1) j (hchain_le _ _ hj) k hjc1 hj
                  have hjcj : jc = j - 1 := by omega
                  rw [hjcj, hc₀] at hjc
                  have hc₀c : c₀ = c := by injection hjc
                  exact hcc₀ hc₀c.symm
              rw [hsum, sum_map_ite_eq_count, hcc k c₀ hc₀keys hc₀p]
              simp [hkv]
          · rintro hno
            have hkv : keyFn d ≠ v := by
              rw [hkd]
              intro hkeq
              exact hno ⟨0, by rw [hkeq]; rfl⟩
            have hsum : (cs.map (countKey keyFn v)).sum =
                ((children k).map (fun _ => 0)).sum := by
              refine sum_map_forall₂ hfa _ _ ?_
              intro c tc hc hctc
              obtain ⟨hck, hcp⟩ := hchild k c hc
              refine (ih c tc hck hctc).2 ?_
              rintro ⟨jc, hjc⟩
              refine hno ⟨jc + 1, ?_⟩
              rw [pIter_succ_back, hjc]
              simpa using hcp
            rw [hsum]
            simp [hkv]

/-- At distance 0 the parent pointer is absent. -/
theorem parent_none_of_dist_zero (parent : String → Option String) (f : Nat)
    (k : String) (h : distTo parent f k = some 0) : parent k = none := by
  cases f with
  | zero => simp [distTo] at h
  | succ f =>
      cases hp : parent k with
      | none => rfl
      | some p =>
          simp only [distTo, hp, Option.map_eq_some'] at h
          obtain ⟨dp, _, hdp⟩ := h
          omega

/-- Materialising every root succeeds when all forward chains terminate. -/
theorem buildForest_isSome
    (payload : String → Option NodeData) (children : String → List String)
    (parent : String → Option String) (keys roots : List String)
    (hkeys : keys.Nodup)
    (hpay : ∀ k ∈ keys, (payload k).isSome)
    (hchild : ∀ p, ∀ c ∈ children p, c ∈ keys ∧ parent c = some p)
    (hpv : ∀ x p, parent x = some p → p ∈ keys)
    (hroots : ∀ r ∈ roots, r ∈ keys ∧ parent r = none) :
    (buildForest payload children (keys.length + 1) roots).isSome := by
  refine collectSome_isSome_of _ ?_
  intro x hx
  obtain ⟨r, hr, rfl⟩ := List.mem_map.mp hx
  obtain ⟨hrk, hrp⟩ := hroots r hr
  have hd : distTo parent (keys.length + 1) r = some 0 := by
    have h1 : distTo parent 1 r = some 0 := by simp [distTo, hrp]
    exact distTo_mono parent 1 _ (by omega) r 0 h1
  exact buildTree_isSome payload children parent keys hkeys hpay hchild hpv _ r 0 hd
    hrk (by omega)

/-- Spanning: each key whose parent chain terminates occurs in exactly one node
of the materialised forest. -/
theorem forestCountKey_eq_one
    (payload : String → Option NodeData) (children : String → List String)
    (parent : String → Option String) (keys roots : List String)
    (keyFn : NodeData → String)
    (hkeys : keys.Nodup)
    (hkey : ∀ k ∈ keys, ∀ d, payload k = some d → keyFn d = k)
    (hchild : ∀ p, ∀ c ∈ children p, c ∈ keys ∧ parent c = some p)
    (hcc : ∀ p c, c ∈ keys → parent c = some p → (children p).count c = 1)
    (hpv : ∀ x p, parent x = some p → p ∈ keys)
    (hroots : ∀ r ∈ roots, r ∈ keys ∧ parent r = none)
    (hroots_count : ∀ r ∈ keys, parent r = none → roots.count r = 1)
    (v : String) (hv : v ∈ keys) (dv : Nat)
    (hdv : distTo parent (keys.length + 1) v = some dv)
    (fuel : Nat) (F : List TNode)
    (hF : buildForest payload children fuel roots = some F) :
    forestCountKey keyFn v F = 1 := by
  obtain ⟨e, he, hde⟩ := chain_step parent _ v dv hdv dv (le_refl dv)
  have hde0 : distTo parent (keys.length + 1) e = some 0 := by simpa using hde
  have hpe : parent e = none := parent_none_of_dist_zero parent _ e hde0
  have hek : e ∈ keys := pIter_mem_keys parent keys hpv v hv dv e he
  have hfa : List.Forall₂ (fun r t => buildTree payload children fuel r = some t)
      roots F :=
    map_eq_map_some_forall ((collectSome_eq_some_iff _ _).mp hF)
  have hsum : (F.map (countKey keyFn v)).sum =
      (roots.map (fun r => if r = e then 1 else 0)).sum := by
    refine sum_map_forall₂ hfa _ _ ?_
    intro r t hr hrt
    obtain ⟨hrk, hrp⟩ := hroots r hr
    by_cases hre : r = e
    · subst hre
      simp only [if_pos rfl]
      exact (countKey_buildTree payload children parent keys keyFn hkeys hkey hchild
        hcc hpv v hv dv hdv fuel r t hrk hrt).1 ⟨dv, he⟩
    · simp only [if_neg hre]
      refine (countKey_buildTree payload children parent keys keyFn hkeys hkey hchild
        hcc hpv v hv dv hdv fuel r t hrk hrt).2 ?_
      rintro ⟨j, hj⟩
      have hjle : j ≤ dv := by
        by_contra hlt
        rw [chain_beyond parent _ v dv hdv j (by omega)] at hj
        cases hj
      rcases Nat.lt_or_ge j dv with hjlt | hjge
      · obtain ⟨x, hx, hdx⟩ := chain_step parent _ v dv hdv j hjle
        rw [hj] at hx
        have hxr : x = r := by
          have hrx : r = x := by injection hx
          exact hrx.symm
        subst hxr
        obtain ⟨p, hp⟩ := parent_ne_none_of_dist_pos parent _ x _ hdx (by omega)
        rw [hrp] at hp
        cases hp
      · have hjdv : j = dv := by omega
        rw [hjdv, he] at hj
        have her : e = r := by injection hj
        exact hre her.symm
  rw [forestCountKey, hsum, sum_map_ite_eq_count]
  exact hroots_count e hek hpe

/-! ## Duplicate collapser (`isSameNode`, `removeDuplicateNodes`, lines 1959-2023) -/

/-- `isSameNode` (lines 2003-2023): duplicate when the urls match and, unless
either title is "empty" (JS falsy, or equal to its own url), the titles match
too. -/
def isSameNode (n1 n2 : NodeData) : Bool :=
  let title1 := if n1.title = n1.url then "" else n1.title
  let title2 := if n2.title = n2.url then "" else n2.title
  if n1.url ≠ n2.url then false
  else if title1 = "" ∨ title2 = "" then true
  else title1 = title2

/-- Comparator of the final children sort in `processNode` (line 1985) and of
the chronological sorts: `b.visitTime - a.visitTime`, newest first. -/
def nodeTimeDesc (a b : TNode) : Bool := b.data.visitTime < a.data.visitTime

/-- `processNode` inside `removeDuplicateNodes` (lines 1962-1991): process the
children bottom-up, splice out children that duplicate this node (hoisting
their own children), and re-sort the merged list newest-first. -/
def processNode : TNode → TNode
  | .node d cs =>
    let processed := cs.attach.map (fun c => processNode c.val)
    let uniq := processed.filter (fun c => !isSameNode d c.data)
    let dups := processed.filter (fun c => isSameNode d c.data)
    .node d (sortJS nodeTimeDesc (uniq ++ dups.flatMap TNode.children))
decreasing_by
  have := c.property
  have h := List.sizeOf_lt_of_mem this
  simp only [TNode.node.sizeOf_spec]
  omega

theorem processNode_def (d : NodeData) (cs : List TNode) :
    processNode (.node d cs) =
      .node d (sortJS nodeTimeDesc
        (((cs.map processNode).filter (fun c => !isSameNode d c.data)) ++
         ((cs.map processNode).filter (fun c => isSameNode d c.data)).flatMap
            TNode.children)) := by
  rw [processNode]
  congr 2 <;> rw [List.attach_map_coe]

/-- `removeDuplicateNodes` (lines 1959-2000). -/
def removeDuplicateNodes (nodes : List TNode) : List TNode := nodes.map processNode

/-! ## Direct-link builder `buildHistoryTree` (lines 741-862)

The builder's fetch phase is the excluded data source; the embedding starts
from the collected `allVisits` array (line 781 onward).  JS `Map` keyed by
`visitId` with unique ids (the data-model invariant `visitId unique within a
run`, which every theorem below assumes as `Nodup`) iterates in insertion
order, i.e. in the sorted order the visits were inserted. -/

def byTimeDescV (a b : Visit) : Bool := b.visitTime < a.visitTime

/-- Line 781: `this.allVisits.sort((a, b) => b.visitTime - a.visitTime)`. -/
def chronSorted (allVisits : List Visit) : List Visit := sortJS byTimeDescV allVisits

def lookupVisit (vs : List Visit) (id : String) : Option Visit :=
  vs.find? (fun v => v.visitId == id)

def visitIds (vs : List Visit) : List String := vs.map (·.visitId)

def timeOf (vs : List Visit) (id : String) : Int :=
  ((lookupVisit vs id).map (·.visitTime)).getD 0

/-- Mutable traversal state of the builder: children edges (by visit id, in
push order), the `processedVisits` set, and the `roots` array. -/
structure ChronState where
  children : String → List String
  processed : List String
  roots : List String

def pushChild (ch : String → List String) (p c : String) : String → List String :=
  fun k => if k = p then ch k ++ [c] else ch k

def hasVisit (vs : List Visit) (r : String) : Bool := vs.any (fun p => p.visitId == r)

/-- First pass (lines 793-800): attach each visit with a resolvable
`referringVisitId` under that referrer and mark it processed. -/
def refStep (vs : List Visit) (st : ChronState) (v : Visit) : ChronState :=
  match v.referringVisitId with
  | some r =>
      if hasVisit vs r then
        { st with children := pushChild st.children r v.visitId,
                  processed := st.processed ++ [v.visitId] }
      else st
  | none => st

def refPass (vs : List Visit) : ChronState :=
  vs.foldl (refStep vs) ⟨fun _ => [], [], []⟩

/-- Lines 803-805: visits whose referrer is absent or unresolvable. -/
def orphanVisits (vs : List Visit) : List Visit :=
  vs.filter (fun v =>
    match v.referringVisitId with
    | none => true
    | some r => !hasVisit vs r)

/-- Lines 811-816: candidate inferred parents of an orphan — any other visit
strictly within the preceding five minutes, provided the orphan's own
transition is `typed`, `auto_bookmark` or `generated`. -/
def potentialParents (vs : List Visit) (orphan : Visit) : List Visit :=
  vs.filter (fun p =>
    (!(p.visitId == orphan.visitId)) &&
    (decide (orphan.visitTime - 5 * 60 * 1000 < p.visitTime)) &&
    (decide (p.visitTime < orphan.visitTime)) &&
    ((orphan.transition == "typed") || (orphan.transition == "auto_bookmark") ||
      (orphan.transition == "generated")))

/-- Second pass body (lines 807-828): attach the orphan under the candidate
with the latest `visitTime` (ties broken by map order, JS sort being stable),
or push it to `roots`. -/
def orphanStep (vs : List Visit) (st : ChronState) (orphan : Visit) : ChronState :=
  if orphan.visitId ∈ st.processed then st
  else
    match sortJS byTimeDescV (potentialParents vs orphan) with
    | [] => { st with roots := st.roots ++ [orphan.visitId] }
    | best :: _ =>
        { st with children := pushChild st.children best.visitId orphan.visitId,
                  processed := st.processed ++ [orphan.visitId] }

def chronState (vs : List Visit) : ChronState :=
  (orphanVisits vs).foldl (orphanStep vs) (refPass vs)

/-- Line 847: sort the root list newest-first. -/
def idTimeDesc (vs : List Visit) (a b : String) : Bool := timeOf vs b < timeOf vs a

def chronRoots (vs : List Visit) : List String :=
  sortJS (idTimeDesc vs) (chronState vs).roots

/-- Lines 850-856 (`sortChildren`): every children list sorted newest-first.
The JS recursion visits exactly the nodes reachable from the roots; sorting is
a per-node operation, so applying it to every key agrees with the source on
the materialised forest. -/
def chronChildren (vs : List Visit) : String → List String :=
  fun k => sortJS (idTimeDesc vs) ((chronState vs).children k)

def chronPayload (vs : List Visit) (id : String) : Option NodeData :=
  (lookupVisit vs id).map Visit.toData

/-- The forest built by `buildHistoryTree` up to (but not including) the
`removeDuplicateNodes` call at line 859, materialised from the heap graph. -/
def buildHistoryForestPre (allVisits : List Visit) : Option (List TNode) :=
  let vs := chronSorted allVisits
  buildForest (chronPayload vs) (chronChildren vs) (vs.length + 1) (chronRoots vs)

/-- `buildHistoryTree` (lines 741-862): the cleaned forest actually returned. -/
def buildHistoryTree (allVisits : List Visit) : Option (List TNode) :=
  (buildHistoryForestPre allVisits).map removeDuplicateNodes

/-! ### The resolved parent of each visit, as a standalone function -/

/-- The inferred parent of an orphan: head of the time-sorted candidate list. -/
def chronOrphanParent (vs : List Visit) (v : Visit) : Option String :=
  match sortJS byTimeDescV (potentialParents vs v) with
  | [] => none
  | best :: _ => some best.visitId

/-- The parent the two passes of `buildHistoryTree` assign to each visit id. -/
def chronParent (vs : List Visit) (id : String) : Option String :=
  match lookupVisit vs id with
  | none => none
  | some v =>
      match v.referringVisitId with
      | some r => if hasVisit vs r then some r else chronOrphanParent vs v
      | none => chronOrphanParent vs v

/-! ### Invariants of the two passes -/

theorem nodup_count_eq_one {α : Type} [DecidableEq α] {l : List α} (h : l.Nodup)
    {a : α} (ha : a ∈ l) : l.count a = 1 := by
  have h1 := List.nodup_iff_count_le_one.mp h a
  have h2 := List.count_pos_iff.mpr ha
  omega

/-- Whether the first pass attaches `v` under `p`. -/
def refTo (vs : List Visit) (v : Visit) (p : String) : Bool :=
  match v.referringVisitId with
  | some r => hasVisit vs r && (r == p)
  | none => false

/-- Whether the first pass processes `v` at all. -/
def refResolvable (vs : List Visit) (v : Visit) : Bool :=
  match v.referringVisitId with
  | some r => hasVisit vs r
  | none => false

theorem refFold_spec (vs : List Visit) :
    ∀ (l : List Visit) (st : ChronState),
      (∀ p, (l.foldl (refStep vs) st).children p =
        st.children p ++ (l.filter (fun v => refTo vs v p)).map (·.visitId)) ∧
      (l.foldl (refStep vs) st).processed =
        st.processed ++ (l.filter (refResolvable vs)).map (·.visitId) ∧
      (l.foldl (refStep vs) st).roots = st.roots := by
  intro l
  induction l with
  | nil => intro st; simp
  | cons v l ih =>
      intro st
      simp only [List.foldl_cons]
      obtain ⟨ihc, ihp, ihr⟩ := ih (refStep vs st v)
      refine ⟨?_, ?_, ?_⟩
      · intro p
        rw [ihc p]
        cases hv : v.referringVisitId with
        | none => simp [refStep, hv, refTo]
        | some r =>
            by_cases hres : hasVisit vs r = true
            · by_cases hrp : r = p
              · subst hrp
                simp [refStep, hv, hres, refTo, pushChild]
              · simp only [refStep, hv, hres, if_true]
                simp only [pushChild]
                rw [if_neg (by exact fun h => hrp h.symm)]
                simp [refTo, hv, hres, hrp]
            · simp [refStep, hv, hres, refTo]
      · rw [ihp]
        cases hv : v.referringVisitId with
        | none => simp [refStep, hv, refResolvable]
        | some r =>
            by_cases hres : hasVisit vs r = true
            · simp [refStep, hv, hres, refResolvable]
            · simp [refStep, hv, hres, refResolvable]
      · rw [ihr]
        cases hv : v.referringVisitId with
        | none => simp [refStep, hv]
        | some r =>
            by_cases hres : hasVisit vs r = true <;> simp [refStep, hv, hres]

theorem orphanFold_spec (vs : List Visit) :
    ∀ (l : List Visit) (st : ChronState),
      (∀ o ∈ l, o.visitId ∉ st.processed) →
      (l.map (·.visitId)).Nodup →
      (∀ p, (l.foldl (orphanStep vs) st).children p =
        st.children p ++
          (l.filter (fun o => chronOrphanParent vs o == some p)).map (·.visitId)) ∧
      (l.foldl (orphanStep vs) st).processed =
        st.processed ++
          (l.filter (fun o => (chronOrphanParent vs o).isSome)).map (·.visitId) ∧
      (l.foldl (orphanStep vs) st).roots =
        st.roots ++
          (l.filter (fun o => (chronOrphanParent vs o) == none)).map (·.visitId) := by
  intro l
  induction l with
  | nil => intro st _ _; simp
  | cons o l ih =>
      intro st hproc hnodup
      simp only [List.foldl_cons]
      have homem : o.visitId ∉ st.processed := hproc o (by simp)
      simp only [List.map_cons, List.nodup_cons] at hnodup
      cases hsort : sortJS byTimeDescV (potentialParents vs o) with
      | nil =>
          have hop : chronOrphanParent vs o = none := by
            simp [chronOrphanParent, hsort]
          have hstep : orphanStep vs st o = { st with roots := st.roots ++ [o.visitId] } := by
            simp [orphanStep, homem, hsort]
          rw [hstep]
          obtain ⟨ihc, ihp, ihr⟩ := ih { st with roots := st.roots ++ [o.visitId] }
            (fun o' ho' => hproc o' (by simp [ho'])) hnodup.2
          refine ⟨?_, ?_, ?_⟩
          · intro p
            rw [ihc p]
            simp [hop]
          · rw [ihp]
            simp [hop]
          · rw [ihr]
            simp [hop]
      | cons best rest =>
          have hop : chronOrphanParent vs o = some best.visitId := by
            simp [chronOrphanParent, hsort]
          have hstep : orphanStep vs st o =
              { st with children := pushChild st.children best.visitId o.visitId,
                        processed := st.processed ++ [o.visitId] } := by
            simp [orphanStep, homem, hsort]
          rw [hstep]
          have hside : ∀ o' ∈ l, o'.visitId ∉ (st.processed ++ [o.visitId]) := by
            intro o' ho'
            simp only [List.mem_append, List.mem_singleton]
            rintro (h | h)
            · exact hproc o' (by simp [ho']) h
            · exact hnodup.1 (h ▸ List.mem_map_of_mem (·.visitId) ho')
          obtain ⟨ihc, ihp, ihr⟩ := ih
            { st with children := pushChild st.children best.visitId o.visitId,
                      processed := st.processed ++ [o.visitId] } hside hnodup.2
          refine ⟨?_, ?_, ?_⟩
          · intro p
            rw [ihc p]
            simp only [pushChild]
            by_cases hbp : best.visitId = p
            · subst hbp
              simp [hop, List.filter_cons]
            · rw [if_neg (by exact fun h => hbp h.symm)]
              have : (chronOrphanParent vs o == some p) = false := by
                simp [hop, hbp]
              simp [List.filter_cons, this]
          · rw [ihp]
            simp [hop]
          · rw [ihr]
            simp [hop]

/-- Parent chains that strictly decrease a measure always terminate. -/
theorem distTo_isSome_of_time (parent : String → Option String) (keys : List String)
    (time : String → Int)
    (h : ∀ k ∈ keys, ∀ p, parent k = some p → p ∈ keys ∧ time p < time k) :
    ∀ k ∈ keys, (distTo parent (keys.length + 1) k).isSome := by
  have H : ∀ n, ∀ k ∈ keys,
      (keys.filter (fun j => decide (time j < time k))).length ≤ n →
      (distTo parent (n+1) k).isSome := by
    intro n
    induction n with
    | zero =>
        intro k hk hlen
        cases hp : parent k with
        | none => simp [distTo, hp]
        | some p =>
            obtain ⟨hpk, hpt⟩ := h k hk p hp
            have hmem : p ∈ keys.filter (fun j => decide (time j < time k)) :=
              List.mem_filter.mpr ⟨hpk, by simpa using hpt⟩
            have h0 : keys.filter (fun j => decide (time j < time k)) = [] :=
              List.length_eq_zero.mp (by omega)
            rw [h0] at hmem
            cases hmem
    | succ n ih =>
        intro k hk hlen
        cases hp : parent k with
        | none => simp [distTo, hp]
        | some p =>
            obtain ⟨hpk, hpt⟩ := h k hk p hp
            have hsubl : List.Sublist
                (keys.filter (fun j => decide (time j < time p)))
                (keys.filter (fun j => decide (time j < time k))) := by
              refine List.monotone_filter_right keys ?_
              intro a ha
              simp only [decide_eq_true_eq] at ha ⊢
              omega
            have hlt : (keys.filter (fun j => decide (time j < time p))).length <
                (keys.filter (fun j => decide (time j < time k))).length := by
              refine length_lt_of_sublist_of_mem hsubl p ?_ ?_
              · exact List.mem_filter.mpr ⟨hpk, by simpa using hpt⟩
              · intro hmem
                have := (List.mem_filter.mp hmem).2
                simp at this
            have hpd := ih p hpk (by omega)
            obtain ⟨dp, hdp⟩ := Option.isSome_iff_exists.mp hpd
            have : distTo parent (n+1+1) k = some (dp + 1) := by
              simp only [distTo, hp, Option.map_eq_some']
              exact ⟨dp, hdp, rfl⟩
            simp [this]
  intro k hk
  have h1 := H keys.length k hk (List.length_filter_le _ keys)
  obtain ⟨d, hd⟩ := Option.isSome_iff_exists.mp h1
  simp [hd]

/-! ### Characterisation of the direct-link builder state -/

theorem visit_id_inj {vs : List Visit} (h : (visitIds vs).Nodup) :
    ∀ v ∈ vs, ∀ w ∈ vs, v.visitId = w.visitId → v = w := by
  intro v hv w hw hvw
  exact List.inj_on_of_nodup_map h hv hw hvw

theorem lookupVisit_eq_some {vs : List Visit} {id : String} {v : Visit}
    (h : lookupVisit vs id = some v) : v ∈ vs ∧ v.visitId = id := by
  refine ⟨List.mem_of_find?_eq_some h, ?_⟩
  have := List.find?_some h
  simpa using this

theorem lookupVisit_isSome {vs : List Visit} {id : String} (h : id ∈ visitIds vs) :
    ∃ v, lookupVisit vs id = some v := by
  obtain ⟨v, hv, rfl⟩ := List.mem_map.mp h
  cases hfind : lookupVisit vs v.visitId with
  | some w => exact ⟨w, rfl⟩
  | none =>
      have := List.find?_eq_none.mp hfind v hv
      simp at this

theorem lookup_self {vs : List Visit} (h : (visitIds vs).Nodup) {v : Visit}
    (hv : v ∈ vs) : lookupVisit vs v.visitId = some v := by
  cases hfind : lookupVisit vs v.visitId with
  | none =>
      have := List.find?_eq_none.mp hfind v hv
      simp at this
  | some w =>
      obtain ⟨hw, hwid⟩ := lookupVisit_eq_some hfind
      rw [visit_id_inj h w hw v hv hwid]

theorem mem_visitIds {vs : List Visit} {v : Visit} (hv : v ∈ vs) :
    v.visitId ∈ visitIds vs := List.mem_map_of_mem (·.visitId) hv

theorem refPass_children (vs : List Visit) (p : String) :
    (refPass vs).children p = (vs.filter (fun v => refTo vs v p)).map (·.visitId) := by
  have := (refFold_spec vs vs ⟨fun _ => [], [], []⟩).1 p
  simpa [refPass] using this

theorem refPass_processed (vs : List Visit) :
    (refPass vs).processed = (vs.filter (refResolvable vs)).map (·.visitId) := by
  have := (refFold_spec vs vs ⟨fun _ => [], [], []⟩).2.1
  simpa [refPass] using this

theorem refPass_roots (vs : List Visit) : (refPass vs).roots = [] := by
  have := (refFold_spec vs vs ⟨fun _ => [], [], []⟩).2.2
  simpa [refPass] using this

theorem orphan_not_processed (vs : List Visit) (h : (visitIds vs).Nodup) :
    ∀ o ∈ orphanVisits vs, o.visitId ∉ (refPass vs).processed := by
  intro o ho hmem
  rw [refPass_processed] at hmem
  obtain ⟨w, hwmem, hwid⟩ := List.mem_map.mp hmem
  obtain ⟨hwvs, hwres⟩ := List.mem_filter.mp hwmem
  obtain ⟨hovs, hopred⟩ := List.mem_filter.mp ho
  have hwo : w = o := visit_id_inj h w hwvs o hovs hwid
  subst hwo
  cases hr : w.referringVisitId with
  | none => simp [refResolvable, hr] at hwres
  | some r =>
      simp only [refResolvable, hr] at hwres
      simp only [hr] at hopred
      rw [hwres] at hopred
      simp at hopred

theorem orphan_ids_nodup (vs : List Visit) (h : (visitIds vs).Nodup) :
    ((orphanVisits vs).map (·.visitId)).Nodup :=
  List.Nodup.sublist (List.Sublist.map _ (List.filter_sublist vs)) h

theorem chronState_children (vs : List Visit) (h : (visitIds vs).Nodup) (p : String) :
    (chronState vs).children p =
      (vs.filter (fun v => refTo vs v p)).map (·.visitId) ++
      ((orphanVisits vs).filter
        (fun o => chronOrphanParent vs o == some p)).map (·.visitId) := by
  obtain ⟨ihc, _, _⟩ := orphanFold_spec vs (orphanVisits vs) (refPass vs)
    (orphan_not_processed vs h) (orphan_ids_nodup vs h)
  rw [chronState, ihc p, refPass_children]

theorem chronState_roots (vs : List Visit) (h : (visitIds vs).Nodup) :
    (chronState vs).roots =
      ((orphanVisits vs).filter
        (fun o => chronOrphanParent vs o == none)).map (·.visitId) := by
  obtain ⟨_, _, ihr⟩ := orphanFold_spec vs (orphanVisits vs) (refPass vs)
    (orphan_not_processed vs h) (orphan_ids_nodup vs h)
  rw [chronState, ihr, refPass_roots]
  simp

theorem count_filter_map_id (vs : List Visit) (h : (visitIds vs).Nodup)
    (f : Visit → Bool) (c : String) :
    ((vs.filter f).map (·.visitId)).count c =
      if ∃ v ∈ vs, f v = true ∧ v.visitId = c then 1 else 0 := by
  have hnd : ((vs.filter f).map (·.visitId)).Nodup :=
    List.Nodup.sublist (List.Sublist.map _ (List.filter_sublist vs)) h
  by_cases hex : ∃ v ∈ vs, f v = true ∧ v.visitId = c
  · rw [if_pos hex]
    obtain ⟨v, hv, hfv, rfl⟩ := hex
    exact nodup_count_eq_one hnd (List.mem_map_of_mem _ (List.mem_filter.mpr ⟨hv, hfv⟩))
  · rw [if_neg hex, List.count_eq_zero]
    intro hmem
    obtain ⟨v, hvmem, hvid⟩ := List.mem_map.mp hmem
    obtain ⟨hv, hf⟩ := List.mem_filter.mp hvmem
    exact hex ⟨v, hv, hf, hvid⟩

theorem exists_id_iff (vs : List Visit) (h : (visitIds vs).Nodup) (f : Visit → Bool)
    {v : Visit} (hv : v ∈ vs) :
    (∃ w ∈ vs, f w = true ∧ w.visitId = v.visitId) ↔ f v = true := by
  constructor
  · rintro ⟨w, hw, hfw, hwid⟩
    rwa [visit_id_inj h w hw v hv hwid] at hfw
  · intro hf
    exact ⟨v, hv, hf, rfl⟩

theorem orphan_sub (vs : List Visit) : ∀ o ∈ orphanVisits vs, o ∈ vs := by
  intro o ho
  exact (List.mem_filter.mp ho).1

theorem exists_orphan_id_iff (vs : List Visit) (h : (visitIds vs).Nodup)
    (f : Visit → Bool) {v : Visit} (hv : v ∈ vs) :
    (∃ o ∈ orphanVisits vs, f o = true ∧ o.visitId = v.visitId) ↔
      (v ∈ orphanVisits vs ∧ f v = true) := by
  constructor
  · rintro ⟨o, ho, hfo, hoid⟩
    have hov := visit_id_inj h o (orphan_sub vs o ho) v hv hoid
    subst hov
    exact ⟨ho, hfo⟩
  · rintro ⟨hvo, hf⟩
    exact ⟨v, hvo, hf, rfl⟩

/-- Whether a visit is among the orphans, by its record shape. -/
theorem mem_orphanVisits_iff (vs : List Visit) {v : Visit} (hv : v ∈ vs) :
    v ∈ orphanVisits vs ↔ refResolvable vs v = false := by
  rw [orphanVisits, List.mem_filter]
  cases hr : v.referringVisitId with
  | none => simp [hv, refResolvable, hr]
  | some r => simp [hv, refResolvable, hr]

/-- The children lists of the direct-link builder contain each key exactly when
`chronParent` designates that parent, and then exactly once. -/
theorem chronChildren_count (vs : List Visit) (h : (visitIds vs).Nodup) (p c : String) :
    ((chronChildren vs) p).count c =
      if c ∈ visitIds vs ∧ chronParent vs c = some p then 1 else 0 := by
  rw [chronChildren, count_sortJS, chronState_children vs h p, List.count_append,
    count_filter_map_id vs h _ c,
    count_filter_map_id (orphanVisits vs) (orphan_ids_nodup vs h) _ c]
  by_cases hc : c ∈ visitIds vs
  · obtain ⟨v, hvvs, hvc⟩ := List.mem_map.mp hc
    subst hvc
    have hlook : lookupVisit vs v.visitId = some v := lookup_self h hvvs
    rw [if_congr (exists_id_iff vs h _ hvvs) rfl rfl,
      if_congr (exists_orphan_id_iff vs h
        (fun o => chronOrphanParent vs o == some p) hvvs) rfl rfl]
    cases hr : v.referringVisitId with
    | some r =>
        by_cases hres : hasVisit vs r = true
        · have hcp : chronParent vs v.visitId = some r := by
            simp [chronParent, hlook, hr, hres]
          have hnotorph : v ∉ orphanVisits vs := by
            rw [mem_orphanVisits_iff vs hvvs]
            simp [refResolvable, hr, hres]
          have hB : ¬(v ∈ orphanVisits vs ∧
              (chronOrphanParent vs v == some p) = true) :=
            fun hcon => hnotorph hcon.1
          rw [if_neg hB]
          by_cases hrp : r = p
          · subst hrp
            have hA : refTo vs v r = true := by simp [refTo, hr, hres]
            have hC : v.visitId ∈ visitIds vs ∧ chronParent vs v.visitId = some r :=
              ⟨mem_visitIds hvvs, hcp⟩
            rw [if_pos hA, if_pos hC]
          · have hA : ¬ refTo vs v p = true := by simp [refTo, hr, hres, hrp]
            have hC : ¬(v.visitId ∈ visitIds vs ∧
                chronParent vs v.visitId = some p) := by
              rintro ⟨-, hcp'⟩
              rw [hcp] at hcp'
              exact hrp (by injection hcp')
            rw [if_neg hA, if_neg hC]
        · have hres' : hasVisit vs r = false := by simpa using hres
          have hcp : chronParent vs v.visitId = chronOrphanParent vs v := by
            simp [chronParent, hlook, hr, hres']
          have horph : v ∈ orphanVisits vs := by
            rw [mem_orphanVisits_iff vs hvvs]
            simp [refResolvable, hr, hres']
          have hA : ¬ refTo vs v p = true := by simp [refTo, hr, hres']
          rw [if_neg hA]
          by_cases hop : chronOrphanParent vs v = some p
          · have hB : v ∈ orphanVisits vs ∧
                (chronOrphanParent vs v == some p) = true := ⟨horph, by simp [hop]⟩
            have hC : v.visitId ∈ visitIds vs ∧ chronParent vs v.visitId = some p :=
              ⟨mem_visitIds hvvs, by rw [hcp, hop]⟩
            rw [if_pos hB, if_pos hC]
          · have hB : ¬(v ∈ orphanVisits vs ∧
                (chronOrphanParent vs v == some p) = true) := by
              rintro ⟨-, hbeq⟩
              exact hop (by simpa using hbeq)
            have hC : ¬(v.visitId ∈ visitIds vs ∧
                chronParent vs v.visitId = some p) := by
              rintro ⟨-, hcp'⟩
              rw [hcp] at hcp'
              exact hop hcp'
            rw [if_neg hB, if_neg hC]
    | none =>
        have hcp : chronParent vs v.visitId = chronOrphanParent vs v := by
          simp [chronParent, hlook, hr]
        have horph : v ∈ orphanVisits vs := by
          rw [mem_orphanVisits_iff vs hvvs]
          simp [refResolvable, hr]
        have hA : ¬ refTo vs v p = true := by simp [refTo, hr]
        rw [if_neg hA]
        by_cases hop : chronOrphanParent vs v = some p
        · have hB : v ∈ orphanVisits vs ∧
              (chronOrphanParent vs v == some p) = true := ⟨horph, by simp [hop]⟩
          have hC : v.visitId ∈ visitIds vs ∧ chronParent vs v.visitId = some p :=
            ⟨mem_visitIds hvvs, by rw [hcp, hop]⟩
          rw [if_pos hB, if_pos hC]
        · have hB : ¬(v ∈ orphanVisits vs ∧
              (chronOrphanParent vs v == some p) = true) := by
            rintro ⟨-, hbeq⟩
            exact hop (by simpa using hbeq)
          have hC : ¬(v.visitId ∈ visitIds vs ∧
              chronParent vs v.visitId = some p) := by
            rintro ⟨-, hcp'⟩
            rw [hcp] at hcp'
            exact hop hcp'
          rw [if_neg hB, if_neg hC]
  · have hA : ¬(∃ w ∈ vs, refTo vs w p = true ∧ w.visitId = c) := by
      rintro ⟨w, hw, -, rfl⟩
      exact hc (mem_visitIds hw)
    have hB : ¬(∃ o ∈ orphanVisits vs,
        (chronOrphanParent vs o == some p) = true ∧ o.visitId = c) := by
      rintro ⟨o, ho, -, rfl⟩
      exact hc (mem_visitIds (orphan_sub vs o ho))
    have hC : ¬(c ∈ visitIds vs ∧ chronParent vs c = some p) :=
      fun hcon => hc hcon.1
    rw [if_neg hA, if_neg hB, if_neg hC]

theorem chronRoots_count (vs : List Visit) (h : (visitIds vs).Nodup) (c : String) :
    (chronRoots vs).count c =
      if c ∈ visitIds vs ∧ chronParent vs c = none then 1 else 0 := by
  rw [chronRoots, count_sortJS, chronState_roots vs h,
    count_filter_map_id (orphanVisits vs) (orphan_ids_nodup vs h) _ c]
  by_cases hc : c ∈ visitIds vs
  · obtain ⟨v, hvvs, hvc⟩ := List.mem_map.mp hc
    subst hvc
    have hlook : lookupVisit vs v.visitId = some v := lookup_self h hvvs
    rw [if_congr (exists_orphan_id_iff vs h
      (fun o => chronOrphanParent vs o == none) hvvs) rfl rfl]
    cases hr : v.referringVisitId with
    | some r =>
        by_cases hres : hasVisit vs r = true
        · have hcp : chronParent vs v.visitId = some r := by
            simp [chronParent, hlook, hr, hres]
          have hnotorph : v ∉ orphanVisits vs := by
            rw [mem_orphanVisits_iff vs hvvs]
            simp [refResolvable, hr, hres]
          have hB : ¬(v ∈ orphanVisits vs ∧
              (chronOrphanParent vs v == none) = true) := fun hcon => hnotorph hcon.1
          have hC : ¬(v.visitId ∈ visitIds vs ∧ chronParent vs v.visitId = none) := by
            rintro ⟨-, hcp'⟩
            rw [hcp] at hcp'
            cases hcp'
          rw [if_neg hB, if_neg hC]
        · have hres' : hasVisit vs r = false := by simpa using hres
          have hcp : chronParent vs v.visitId = chronOrphanParent vs v := by
            simp [chronParent, hlook, hr, hres']
          have horph : v ∈ orphanVisits vs := by
            rw [mem_orphanVisits_iff vs hvvs]
            simp [refResolvable, hr, hres']
          by_cases hop : chronOrphanParent vs v = none
          · have hB : v ∈ orphanVisits vs ∧
                (chronOrphanParent vs v == none) = true := ⟨horph, by simp [hop]⟩
            have hC : v.visitId ∈ visitIds vs ∧ chronParent vs v.visitId = none :=
              ⟨mem_visitIds hvvs, by rw [hcp, hop]⟩
            rw [if_pos hB, if_pos hC]
          · have hB : ¬(v ∈ orphanVisits vs ∧
                (chronOrphanParent vs v == none) = true) := by
              rintro ⟨-, hbeq⟩
              exact hop (by simpa using hbeq)
            have hC : ¬(v.visitId ∈ visitIds vs ∧
                chronParent vs v.visitId = none) := by
              rintro ⟨-, hcp'⟩
              rw [hcp] at hcp'
              exact hop hcp'
            rw [if_neg hB, if_neg hC]
    | none =>
        have hcp : chronParent vs v.visitId = chronOrphanParent vs v := by
          simp [chronParent, hlook, hr]
        have horph : v ∈ orphanVisits vs := by
          rw [mem_orphanVisits_iff vs hvvs]
          simp [refResolvable, hr]
        by_cases hop : chronOrphanParent vs v = none
        · have hB : v ∈ orphanVisits vs ∧
              (chronOrphanParent vs v == none) = true := ⟨horph, by simp [hop]⟩
          have hC : v.visitId ∈ visitIds vs ∧ chronParent vs v.visitId = none :=
            ⟨mem_visitIds hvvs, by rw [hcp, hop]⟩
          rw [if_pos hB, if_pos hC]
        · have hB : ¬(v ∈ orphanVisits vs ∧
              (chronOrphanParent vs v == none) = true) := by
            rintro ⟨-, hbeq⟩
            exact hop (by simpa using hbeq)
          have hC : ¬(v.visitId ∈ visitIds vs ∧
              chronParent vs v.visitId = none) := by
            rintro ⟨-, hcp'⟩
            rw [hcp] at hcp'
            exact hop hcp'
          rw [if_neg hB, if_neg hC]
  · have hB : ¬(∃ o ∈ orphanVisits vs,
        (chronOrphanParent vs o == none) = true ∧ o.visitId = c) := by
      rintro ⟨o, ho, -, rfl⟩
      exact hc (mem_visitIds (orphan_sub vs o ho))
    have hC : ¬(c ∈ visitIds vs ∧ chronParent vs c = none) := fun hcon => hc hcon.1
    rw [if_neg hB, if_neg hC]

theorem chronChildren_mem (vs : List Visit) (h : (visitIds vs).Nodup) (p c : String)
    (hmem : c ∈ chronChildren vs p) : c ∈ visitIds vs ∧ chronParent vs c = some p := by
  have := chronChildren_count vs h p c
  have hpos := List.count_pos_iff.mpr hmem
  by_cases hcon : c ∈ visitIds vs ∧ chronParent vs c = some p
  · exact hcon
  · rw [if_neg hcon] at this
    omega

theorem chronRoots_mem (vs : List Visit) (h : (visitIds vs).Nodup) (r : String)
    (hmem : r ∈ chronRoots vs) : r ∈ visitIds vs ∧ chronParent vs r = none := by
  have := chronRoots_count vs h r
  have hpos := List.count_pos_iff.mpr hmem
  by_cases hcon : r ∈ visitIds vs ∧ chronParent vs r = none
  · exact hcon
  · rw [if_neg hcon] at this
    omega

theorem hasVisit_iff (vs : List Visit) (r : String) :
    hasVisit vs r = true ↔ r ∈ visitIds vs := by
  simp only [hasVisit, List.any_eq_true, beq_iff_eq, visitIds, List.mem_map]

/-- The inferred orphan parent is a candidate with maximal `visitTime`. -/
theorem chronOrphanParent_spec (vs : List Visit) (v : Visit) (q : String)
    (h : chronOrphanParent vs v = some q) :
    ∃ b ∈ potentialParents vs v, b.visitId = q ∧
      ∀ x ∈ potentialParents vs v, x.visitTime ≤ b.visitTime := by
  cases hsort : sortJS byTimeDescV (potentialParents vs v) with
  | nil => simp [chronOrphanParent, hsort] at h
  | cons b rest =>
      have hq : b.visitId = q := by
        simp only [chronOrphanParent, hsort] at h
        injection h
      have hbmem : b ∈ potentialParents vs v := by
        rw [← mem_sortJS byTimeDescV, hsort]
        simp
      refine ⟨b, hbmem, hq, ?_⟩
      intro x hx
      have hsorted := sortJS_pairwise byTimeDescV
        (by
          intro a b' c'
          simp only [byTimeDescV, decide_eq_true_eq]
          intro h1 h2
          omega)
        (by
          intro a b'
          simp only [byTimeDescV, decide_eq_true_eq]
          intro h1
          omega)
        (potentialParents vs v)
      rw [hsort] at hsorted
      have hxmem : x ∈ b :: rest := by
        rw [← hsort]
        exact (mem_sortJS byTimeDescV (potentialParents vs v) x).mpr hx
      rcases List.mem_cons.mp hxmem with rfl | hxr
      · exact le_refl _
      · have hhead := (List.pairwise_cons.mp hsorted).1 x hxr
        simp only [byTimeDescV, decide_eq_true_eq] at hhead
        omega

theorem mem_potentialParents (vs : List Visit) (v : Visit) {p : Visit}
    (h : p ∈ potentialParents vs v) :
    p ∈ vs ∧ p.visitId ≠ v.visitId ∧
      v.visitTime - 5 * 60 * 1000 < p.visitTime ∧ p.visitTime < v.visitTime ∧
      (v.transition = "typed" ∨ v.transition = "auto_bookmark" ∨
        v.transition = "generated") := by
  obtain ⟨hmem, hcond⟩ := List.mem_filter.mp h
  simp only [Bool.and_eq_true, Bool.or_eq_true, beq_iff_eq, bne_iff_ne,
    decide_eq_true_eq, Bool.not_eq_true'] at hcond
  obtain ⟨⟨⟨hid, h1⟩, h2⟩, h3⟩ := hcond
  refine ⟨hmem, by simpa using hid, h1, h2, by tauto⟩

theorem chronParent_mem (vs : List Visit) (c p : String)
    (h : chronParent vs c = some p) : p ∈ visitIds vs := by
  cases hlook : lookupVisit vs c with
  | none => simp [chronParent, hlook] at h
  | some v =>
      have horph : ∀ (hop : chronOrphanParent vs v = some p), p ∈ visitIds vs := by
        intro hop
        obtain ⟨b, hb, rfl, -⟩ := chronOrphanParent_spec vs v p hop
        exact mem_visitIds (mem_potentialParents vs v hb).1
      cases hr : v.referringVisitId with
      | none =>
          refine horph ?_
          simpa [chronParent, hlook, hr] using h
      | some r =>
          by_cases hres : hasVisit vs r = true
          · have hrp : some r = some p := by
              simpa [chronParent, hlook, hr, hres] using h
            have : r = p := by injection hrp
            subst this
            exact (hasVisit_iff vs r).mp hres
          · have hres' : hasVisit vs r = false := by simpa using hres
            refine horph ?_
            simpa [chronParent, hlook, hr, hres'] using h

theorem timeOf_lookup {vs : List Visit} {c : String} {v : Visit}
    (h : lookupVisit vs c = some v) : timeOf vs c = v.visitTime := by
  simp [timeOf, h]

theorem chronParent_time_lt (vs : List Visit) (hnd : (visitIds vs).Nodup)
    (href : ∀ v ∈ vs, ∀ r, v.referringVisitId = some r →
      ∀ w ∈ vs, w.visitId = r → w.visitTime < v.visitTime)
    (c p : String) (h : chronParent vs c = some p) :
    timeOf vs p < timeOf vs c := by
  cases hlook : lookupVisit vs c with
  | none => simp [chronParent, hlook] at h
  | some v =>
      obtain ⟨hvvs, hvid⟩ := lookupVisit_eq_some hlook
      have htc : timeOf vs c = v.visitTime := timeOf_lookup hlook
      have horph : ∀ (hop : chronOrphanParent vs v = some p),
          timeOf vs p < timeOf vs c := by
        intro hop
        obtain ⟨b, hb, rfl, -⟩ := chronOrphanParent_spec vs v p hop
        obtain ⟨hbvs, -, -, hblt, -⟩ := mem_potentialParents vs v hb
        rw [timeOf_lookup (lookup_self hnd hbvs), htc]
        exact hblt
      cases hr : v.referringVisitId with
      | none =>
          refine horph ?_
          simpa [chronParent, hlook, hr] using h
      | some r =>
          by_cases hres : hasVisit vs r = true
          · have hrp' : some r = some p := by
              simpa [chronParent, hlook, hr, hres] using h
            have hrp : r = p := by injection hrp'
            subst hrp
            obtain ⟨w, hw⟩ := lookupVisit_isSome ((hasVisit_iff vs r).mp hres)
            obtain ⟨hwvs, hwid⟩ := lookupVisit_eq_some hw
            rw [timeOf_lookup hw, htc]
            exact href v hvvs r hr w hwvs hwid
          · have hres' : hasVisit vs r = false := by simpa using hres
            refine horph ?_
            simpa [chronParent, hlook, hr, hres'] using h

theorem chron_dist (vs : List Visit) (hnd : (visitIds vs).Nodup)
    (href : ∀ v ∈ vs, ∀ r, v.referringVisitId = some r →
      ∀ w ∈ vs, w.visitId = r → w.visitTime < v.visitTime) :
    ∀ k ∈ visitIds vs,
      (distTo (chronParent vs) ((visitIds vs).length + 1) k).isSome := by
  refine distTo_isSome_of_time (chronParent vs) (visitIds vs) (timeOf vs) ?_
  intro k hk p hp
  exact ⟨chronParent_mem vs k p hp, chronParent_time_lt vs hnd href k p hp⟩

theorem chronPayload_isSome (vs : List Visit) (k : String) (hk : k ∈ visitIds vs) :
    (chronPayload vs k).isSome := by
  obtain ⟨v, hv⟩ := lookupVisit_isSome hk
  simp [chronPayload, hv]

theorem chronPayload_key (vs : List Visit) (k : String) (d : NodeData)
    (h : chronPayload vs k = some d) : d.visitId = k := by
  simp only [chronPayload, Option.map_eq_some'] at h
  obtain ⟨v, hv, rfl⟩ := h
  exact (lookupVisit_eq_some hv).2

/-- Acyclicity of the direct-link builder: the heap graph it builds always
materialises into finite trees (uniqueness of visit ids is the only
assumption). -/
theorem chron_pre_isSome (vs : List Visit) (hnd : (visitIds vs).Nodup) :
    (buildForest (chronPayload vs) (chronChildren vs) (vs.length + 1)
      (chronRoots vs)).isSome := by
  have hlen : vs.length = (visitIds vs).length := (List.length_map _ _).symm
  rw [hlen]
  refine buildForest_isSome (chronPayload vs) (chronChildren vs) (chronParent vs)
    (visitIds vs) (chronRoots vs) hnd ?_ ?_ ?_ ?_
  · exact fun k hk => chronPayload_isSome vs k hk
  · exact fun p c hc => chronChildren_mem vs hnd p c hc
  · intro x p hx
    exact chronParent_mem vs x p hx
  · exact fun r hr => chronRoots_mem vs hnd r hr

/-! ## Theory of the duplicate collapser -/

theorem sum_map_flatMap (l : List α) (g : α → List β) (f : β → Nat) :
    ((l.flatMap g).map f).sum = (l.map (fun x => ((g x).map f).sum)).sum := by
  rw [List.map_flatMap, List.flatMap, List.sum_flatten, List.map_map]
  rfl

theorem filter_not_append_perm (p : α → Bool) (l : List α) :
    (l.filter (fun a => !p a) ++ l.filter p).Perm l := by
  have h := List.filter_append_perm (fun a => !p a) l
  simpa using h

/-- Custom induction principle for `TNode` (children before node). -/
theorem TNode.inducn {motive : TNode → Prop}
    (h : ∀ d cs, (∀ c ∈ cs, motive c) → motive (.node d cs)) : ∀ t, motive t := by
  intro t
  generalize hn : sizeOf t = n
  induction n using Nat.strong_induction_on generalizing t with
  | _ n ih =>
      cases t with
      | node d cs =>
          subst hn
          refine h d cs ?_
          intro c hc
          have hlt := List.sizeOf_lt_of_mem hc
          exact ih (sizeOf c) (by simp only [TNode.node.sizeOf_spec]; omega) c rfl

theorem sum_children_size (t : TNode) :
    ((t.children.map TNode.size).sum) = t.size - 1 := by
  cases t with
  | node d cs => rw [TNode.size_def]; simp [TNode.children]

/-- A sum of pointwise-bounded lists where the totals agree is pointwise
equal. -/
theorem sum_le_pointwise {f g : α → Nat} :
    ∀ l : List α, (∀ x ∈ l, f x ≤ g x) →
      (l.map g).sum ≤ (l.map f).sum → ∀ x ∈ l, g x = f x := by
  intro l
  induction l with
  | nil => intro _ _ x hx; cases hx
  | cons a as ih =>
      intro hle hsum x hx
      have h1 : f a ≤ g a := hle a (by simp)
      have h2 : (as.map f).sum ≤ (as.map g).sum :=
        List.sum_le_sum (fun x hx => hle x (by simp [hx]))
      simp only [List.map_cons, List.sum_cons] at hsum
      rcases List.mem_cons.mp hx with rfl | hx'
      · omega
      · refine ih (fun y hy => hle y (by simp [hy])) (by omega) x hx'

theorem size_processNode_le : ∀ t : TNode, (processNode t).size ≤ t.size := by
  refine TNode.inducn ?_
  intro d cs ih
  rw [processNode_def, TNode.size_def, TNode.size_def]
  have hperm : ((sortJS nodeTimeDesc
      (((cs.map processNode).filter (fun c => !isSameNode d c.data)) ++
       ((cs.map processNode).filter (fun c => isSameNode d c.data)).flatMap
          TNode.children)).map TNode.size).sum =
      ((((cs.map processNode).filter (fun c => !isSameNode d c.data)).map
          TNode.size).sum +
       ((((cs.map processNode).filter (fun c => isSameNode d c.data)).flatMap
          TNode.children).map TNode.size).sum) := by
    rw [((sortJS_perm nodeTimeDesc _).map TNode.size).sum_eq]
    rw [List.map_append, List.sum_append]
  rw [hperm]
  have hkids : ((((cs.map processNode).filter (fun c => isSameNode d c.data)).flatMap
      TNode.children).map TNode.size).sum ≤
      (((cs.map processNode).filter (fun c => isSameNode d c.data)).map
        TNode.size).sum := by
    rw [sum_map_flatMap]
    refine List.sum_le_sum ?_
    intro dc hdc
    rw [sum_children_size]
    omega
  have hsplit : ((((cs.map processNode).filter (fun c => !isSameNode d c.data)).map
        TNode.size).sum +
      (((cs.map processNode).filter (fun c => isSameNode d c.data)).map
        TNode.size).sum) = ((cs.map processNode).map TNode.size).sum := by
    rw [← List.sum_append, ← List.map_append]
    refine (List.Perm.map TNode.size ?_).sum_eq
    exact filter_not_append_perm (fun c => isSameNode d (TNode.data c)) (cs.map processNode)
  have hrec : ((cs.map processNode).map TNode.size).sum ≤ (cs.map TNode.size).sum := by
    rw [List.map_map]
    refine List.sum_le_sum ?_
    intro c hc
    exact ih c hc
  omega

theorem size_eq_one_add (t : TNode) :
    t.size = 1 + (t.children.map TNode.size).sum := by
  cases t with
  | node d cs => rw [TNode.size_def]; rfl

theorem sum_map_one_add (l : List α) (f : α → Nat) :
    (l.map (fun x => 1 + f x)).sum = l.length + (l.map f).sum := by
  induction l with
  | nil => simp
  | cons a as ih => simp only [List.map_cons, List.sum_cons, List.length_cons, ih]; omega

/-- Comparator facts for the newest-first node sort. -/
theorem nodeTimeDesc_neg : ∀ a b c : TNode, ¬ nodeTimeDesc b a = true →
    ¬ nodeTimeDesc c b = true → ¬ nodeTimeDesc c a = true := by
  intro a b c h1 h2
  simp only [nodeTimeDesc, decide_eq_true_eq] at h1 h2 ⊢
  omega

theorem nodeTimeDesc_asymm : ∀ a b : TNode, nodeTimeDesc a b = true →
    ¬ nodeTimeDesc b a = true := by
  intro a b h
  simp only [nodeTimeDesc, decide_eq_true_eq] at h ⊢
  omega

/-- Recursively sorted: every children list, at every level, is newest-first. -/
inductive RecSorted : TNode → Prop where
  | node (d : NodeData) (cs : List TNode) (hs : SortedJS nodeTimeDesc cs)
      (hc : ∀ c ∈ cs, RecSorted c) : RecSorted (.node d cs)

theorem RecSorted.sorted_children {t : TNode} (h : RecSorted t) :
    SortedJS nodeTimeDesc t.children := by
  cases h with
  | node d cs hs hc => exact hs

theorem RecSorted.child {t : TNode} (h : RecSorted t) :
    ∀ c ∈ t.children, RecSorted c := by
  cases h with
  | node d cs hs hc => exact hc

/-- Every output of `processNode` is recursively sorted. -/
theorem processNode_recSorted : ∀ t, RecSorted (processNode t) := by
  refine TNode.inducn ?_
  intro d cs ih
  rw [processNode_def]
  refine RecSorted.node d _ (sortJS_pairwise nodeTimeDesc nodeTimeDesc_neg
    nodeTimeDesc_asymm _) ?_
  intro c' hc'
  have hmem := (mem_sortJS nodeTimeDesc _ c').mp hc'
  rcases List.mem_append.mp hmem with hu | hk
  · obtain ⟨c, hc, rfl⟩ := List.mem_map.mp (List.mem_of_mem_filter hu)
    exact ih c hc
  · obtain ⟨dc, hdc, hcdc⟩ := List.mem_flatMap.mp hk
    obtain ⟨c, hc, rfl⟩ := List.mem_map.mp (List.mem_of_mem_filter hdc)
    exact (ih c hc).child c' hcdc

/-- Sizes after one collapse pass, decomposed. -/
theorem size_processNode_eq (d : NodeData) (cs : List TNode) :
    (processNode (.node d cs)).size +
      ((cs.map processNode).filter (fun c => isSameNode d c.data)).length =
    1 + ((cs.map processNode).map TNode.size).sum := by
  rw [processNode_def, TNode.size_def]
  rw [((sortJS_perm nodeTimeDesc _).map TNode.size).sum_eq, List.map_append,
    List.sum_append]
  rw [sum_map_flatMap]
  have hD : ((((cs.map processNode).filter (fun c => isSameNode d c.data)).map
        (fun dc => ((dc.children.map TNode.size)).sum)).sum +
      ((cs.map processNode).filter (fun c => isSameNode d c.data)).length) =
      (((cs.map processNode).filter (fun c => isSameNode d c.data)).map
        TNode.size).sum := by
    have hcongr : (((cs.map processNode).filter (fun c => isSameNode d c.data)).map
        TNode.size) = (((cs.map processNode).filter (fun c => isSameNode d c.data)).map
        (fun dc => 1 + ((dc.children.map TNode.size)).sum)) := by
      refine List.map_congr_left ?_
      intro dc _
      exact size_eq_one_add dc
    rw [hcongr, sum_map_one_add]
    omega
  have hsplit : ((((cs.map processNode).filter (fun c => !isSameNode d c.data)).map
        TNode.size).sum +
      (((cs.map processNode).filter (fun c => isSameNode d c.data)).map
        TNode.size).sum) = ((cs.map processNode).map TNode.size).sum := by
    rw [← List.sum_append, ← List.map_append]
    refine (List.Perm.map TNode.size ?_).sum_eq
    exact filter_not_append_perm (fun c => isSameNode d (TNode.data c)) (cs.map processNode)
  omega

/-- If a pass removed nothing (size preserved) and the input was recursively
sorted, the pass is the identity. -/
theorem processNode_eq_of_size :
    ∀ t, RecSorted t → (processNode t).size = t.size → processNode t = t := by
  refine TNode.inducn ?_
  intro d cs ih hsorted heq
  have hsz := size_processNode_eq d cs
  have hle : ∀ c ∈ cs, (processNode c).size ≤ c.size :=
    fun c _ => size_processNode_le c
  have hsum_le : ((cs.map processNode).map TNode.size).sum ≤
      (cs.map TNode.size).sum := by
    rw [List.map_map]
    exact List.sum_le_sum (fun c hc => hle c hc)
  rw [TNode.size_def] at heq
  have hDlen : ((cs.map processNode).filter (fun c => isSameNode d c.data)).length = 0 ∧
      ((cs.map processNode).map TNode.size).sum = (cs.map TNode.size).sum := by
    constructor <;> omega
  have hcomp : ((cs.map processNode).map TNode.size) =
      cs.map (fun c => (processNode c).size) := by
    rw [List.map_map]
    rfl
  have hpointwise : ∀ c ∈ cs, TNode.size c = TNode.size (processNode c) := by
    refine sum_le_pointwise cs hle ?_
    rw [← hcomp]
    omega
  have hmapeq : cs.map processNode = cs := by
    have : ∀ c ∈ cs, processNode c = c := by
      intro c hc
      exact ih c hc ((hsorted.child c hc)) (hpointwise c hc).symm
    rw [List.map_congr_left this]
    simp
  rw [processNode_def, hmapeq]
  have hDnil : cs.filter (fun c => isSameNode d c.data) = [] := by
    have := hDlen.1
    rw [hmapeq] at this
    exact List.length_eq_zero.mp this
  have hUall : cs.filter (fun c => !isSameNode d c.data) = cs := by
    refine List.filter_eq_self.mpr ?_
    intro c hc
    have := List.filter_eq_nil.mp hDnil c hc
    simpa using this
  rw [hDnil, hUall]
  simp only [List.flatMap_nil, List.append_nil]
  rw [sortJS_of_sorted nodeTimeDesc cs hsorted.sorted_children]

/-- One pass never duplicates a key: node-count per key only shrinks. -/
theorem countKey_processNode_le (keyFn : NodeData → String) (v : String) :
    ∀ t, countKey keyFn v (processNode t) ≤ countKey keyFn v t := by
  refine TNode.inducn ?_
  intro d cs ih
  rw [processNode_def, countKey_def, countKey_def]
  have hperm : ((sortJS nodeTimeDesc
      (((cs.map processNode).filter (fun c => !isSameNode d c.data)) ++
       ((cs.map processNode).filter (fun c => isSameNode d c.data)).flatMap
          TNode.children)).map (countKey keyFn v)).sum =
      ((((cs.map processNode).filter (fun c => !isSameNode d c.data)).map
          (countKey keyFn v)).sum +
       ((((cs.map processNode).filter (fun c => isSameNode d c.data)).flatMap
          TNode.children).map (countKey keyFn v)).sum) := by
    rw [((sortJS_perm nodeTimeDesc _).map (countKey keyFn v)).sum_eq,
      List.map_append, List.sum_append]
  rw [hperm]
  have hkids : ((((cs.map processNode).filter (fun c => isSameNode d c.data)).flatMap
      TNode.children).map (countKey keyFn v)).sum ≤
      (((cs.map processNode).filter (fun c => isSameNode d c.data)).map
        (countKey keyFn v)).sum := by
    rw [sum_map_flatMap]
    refine List.sum_le_sum ?_
    intro dc hdc
    cases dc with
    | node d' cs' =>
        rw [countKey_def]
        simp [TNode.children]
  have hsplit : ((((cs.map processNode).filter (fun c => !isSameNode d c.data)).map
        (countKey keyFn v)).sum +
      (((cs.map processNode).filter (fun c => isSameNode d c.data)).map
        (countKey keyFn v)).sum) = ((cs.map processNode).map (countKey keyFn v)).sum := by
    rw [← List.sum_append, ← List.map_append]
    refine (List.Perm.map (countKey keyFn v) ?_).sum_eq
    exact filter_not_append_perm (fun c => isSameNode d (TNode.data c)) (cs.map processNode)
  have hrec : ((cs.map processNode).map (countKey keyFn v)).sum ≤
      (cs.map (countKey keyFn v)).sum := by
    rw [List.map_map]
    exact List.sum_le_sum (fun c hc => ih c hc)
  omega

def RecSortedF (F : List TNode) : Prop := ∀ t ∈ F, RecSorted t

theorem removeDuplicateNodes_recSortedF (F : List TNode) :
    RecSortedF (removeDuplicateNodes F) := by
  intro t ht
  obtain ⟨s, -, rfl⟩ := List.mem_map.mp ht
  exact processNode_recSorted s

theorem forestSize_removeDuplicateNodes_le (F : List TNode) :
    forestSize (removeDuplicateNodes F) ≤ forestSize F := by
  rw [forestSize, forestSize, removeDuplicateNodes, List.map_map]
  exact List.sum_le_sum (fun t _ => size_processNode_le t)

theorem removeDuplicateNodes_eq_of_size (F : List TNode) (h : RecSortedF F)
    (heq : forestSize (removeDuplicateNodes F) = forestSize F) :
    removeDuplicateNodes F = F := by
  have hle : ∀ t ∈ F, (processNode t).size ≤ t.size := fun t _ => size_processNode_le t
  have hpt : ∀ t ∈ F, TNode.size t = TNode.size (processNode t) := by
    refine sum_le_pointwise F hle ?_
    rw [forestSize, forestSize, removeDuplicateNodes, List.map_map] at heq
    have hcomp : F.map (TNode.size ∘ processNode) =
        F.map (fun t => (processNode t).size) := rfl
    rw [hcomp] at heq
    omega
  have : ∀ t ∈ F, processNode t = t := by
    intro t ht
    exact processNode_eq_of_size t (h t ht) (hpt t ht).symm
  rw [removeDuplicateNodes, List.map_congr_left this]
  simp

theorem forestCountKey_removeDuplicateNodes_le (keyFn : NodeData → String)
    (v : String) (F : List TNode) :
    forestCountKey keyFn v (removeDuplicateNodes F) ≤ forestCountKey keyFn v F := by
  rw [forestCountKey, forestCountKey, removeDuplicateNodes, List.map_map]
  exact List.sum_le_sum (fun t _ => countKey_processNode_le keyFn v t)

theorem collapse_iter_helper :
    ∀ (n : Nat) (G : List TNode), RecSortedF G → forestSize G ≤ n →
      removeDuplicateNodes^[n+1] G = removeDuplicateNodes^[n] G := by
  intro n
  induction n with
  | zero =>
      intro G hG hsz
      have hnil : G = [] := by
        cases G with
        | nil => rfl
        | cons t ts =>
            have := TNode.size_pos t
            simp only [forestSize, List.map_cons, List.sum_cons] at hsz
            omega
      subst hnil
      simp [removeDuplicateNodes]
  | succ n ih =>
      intro G hG hsz
      by_cases hfix : removeDuplicateNodes G = G
      · rw [Function.iterate_fixed hfix, Function.iterate_fixed hfix]
      · have hlt : forestSize (removeDuplicateNodes G) < forestSize G := by
          have hle := forestSize_removeDuplicateNodes_le G
          rcases Nat.lt_or_ge (forestSize (removeDuplicateNodes G)) (forestSize G) with
            h | h
          · exact h
          · exact absurd (removeDuplicateNodes_eq_of_size G hG (by omega)) hfix
        have := ih (removeDuplicateNodes G) (removeDuplicateNodes_recSortedF G)
          (by omega)
        rw [Function.iterate_succ_apply removeDuplicateNodes (n+1) G,
          Function.iterate_succ_apply removeDuplicateNodes n G]
        exact this

/-- Although a single collapse pass is not idempotent, iterating it reaches a
fixed point within `forestSize F + 1` passes. -/
theorem removeDuplicateNodes_iter_fixed (F : List TNode) :
    removeDuplicateNodes (removeDuplicateNodes^[forestSize F + 1] F) =
      removeDuplicateNodes^[forestSize F + 1] F := by
  have h := collapse_iter_helper (forestSize F) (removeDuplicateNodes F)
    (removeDuplicateNodes_recSortedF F)
    (by
      have := forestSize_removeDuplicateNodes_le F
      omega)
  rw [Function.iterate_succ_apply removeDuplicateNodes (forestSize F) F] at *
  rw [← Function.iterate_succ_apply' removeDuplicateNodes (forestSize F)
    (removeDuplicateNodes F)]
  rw [h]

/-! ## Greedy cycle-breaking fallback `greedyResolve` (lines 501-570)

Scores are embedded as `ℚ` (every JS float is a rational; only comparisons
and copies happen here).  The sentinel `-Infinity` produced when
`findIndex` misses (line 554) is modelled as `none` in `Option ℚ`, and the
initial `Infinity` by the empty accumulator.  A JS `Map` is a function into
`Option`; a *falsy* stored value (empty string) and a missing key both make
`parentMap.get(cur) || VIRTUAL_ROOT` yield the virtual root, which
`jsOrRoot` reproduces. -/

def VIRTUAL_ROOT : String := "__ROOT__"

/-- An entry of `incomingMap`: `{from, to, score, meta:{count, firstTime,
lastTime}, inferred}`.  `src` models the `from` field (a Lean keyword). -/
structure IncEdge where
  src : String
  tgt : String
  score : ℚ
  count : Nat
  firstTime : Int
  lastTime : Int
  inferred : Bool
deriving DecidableEq, Repr

def upd (f : String → Option α) (k : String) (v : α) : String → Option α :=
  fun x => if x = k then some v else f x

/-- `parentMap.get(cur) || VIRTUAL_ROOT` (line 528). -/
def jsOrRoot (v : Option String) : String :=
  match v with
  | none => VIRTUAL_ROOT
  | some s => if s = "" then VIRTUAL_ROOT else s

def gStep (pc : String → Option String) (cur : String) : String := jsOrRoot (pc cur)

structure GreedyState where
  pc : String → Option String
  ci : String → Option Nat

/-- Lines 507-515: initial choice, best (first) incoming edge or the root. -/
def greedyInit (nodes : List String) (inc : String → List IncEdge) : GreedyState :=
  nodes.foldl
    (fun st node =>
      match inc node with
      | [] => { st with pc := upd st.pc node VIRTUAL_ROOT }
      | e :: _ => { pc := upd st.pc node e.src, ci := upd st.ci node 0 })
    ⟨fun _ => none, fun _ => none⟩

/-- Cycle extraction (lines 531-537): walk the stack from the top down to the
first occurrence of the re-visited key, then reverse. -/
def collectDown : List String → String → List String
  | [], _ => []
  | x :: rest, tgt => if x = tgt then [x] else x :: collectDown rest tgt

def extractCycle (stack : List String) (tgt : String) : List String :=
  (collectDown stack.reverse tgt).reverse

/-- The inner while loop of `detectCycle` (lines 524-539), with explicit fuel
(shown below to be sufficient).  Returns the detected cycle (if any) and the
updated `visited` set. -/
def gwalk (pc : String → Option String) :
    Nat → List String → List String → String →
      Option (Option (List String) × List String)
  | 0, _, _, _ => none
  | fuel+1, visited, stack, cur =>
    if cur = VIRTUAL_ROOT ∨ cur ∈ visited then some (none, visited)
    else if gStep pc cur ∈ stack ++ [cur] then
      some (some (extractCycle (stack ++ [cur]) (gStep pc cur)), visited ++ [cur])
    else gwalk pc fuel (visited ++ [cur]) (stack ++ [cur]) (gStep pc cur)

/-- The outer loop of `detectCycle` (lines 518-542). -/
def detectCycleGo (pc : String → Option String) (fuel : Nat) :
    List String → List String → Option (Option (List String))
  | [], _ => some none
  | start :: rest, visited =>
    if start ∈ visited then detectCycleGo pc fuel rest visited
    else
      match gwalk pc fuel visited [] start with
      | none => none
      | some (some cyc, _) => some (some cyc)
      | some (none, visited') => detectCycleGo pc fuel rest visited'

def detectCycle (nodes : List String) (pc : String → Option String) :
    Option (Option (List String)) :=
  detectCycleGo pc (nodes.length + 2) nodes []

/-- `sc < weakest.score` with `-Infinity` as `none` (line 555). -/
def ltOptQ (a b : Option ℚ) : Bool :=
  match a, b with
  | none, none => false
  | none, some _ => true
  | some _, none => false
  | some x, some y => decide (x < y)

/-- Lines 548-556: pick the cycle member whose chosen edge has the lowest
score; members whose parent is unset, falsy, or the virtual root are skipped. -/
def weakestFold (inc : String → List IncEdge) (pc : String → Option String) :
    List String → Option (String × Option ℚ) → Option (String × Option ℚ)
  | [], acc => acc
  | child :: rest, acc =>
      match pc child with
      | none => weakestFold inc pc rest acc
      | some parent =>
          if parent = "" ∨ parent = VIRTUAL_ROOT then weakestFold inc pc rest acc
          else
            let sc : Option ℚ :=
              match (inc child).find? (fun e => e.src == parent) with
              | some e => some e.score
              | none => none
            let better : Bool :=
              match acc with
              | none => true
              | some (_, accSc) => ltOptQ sc accSc
            weakestFold inc pc rest (if better then some (child, sc) else acc)

/-- Lines 558-566: advance the weakest member to its next candidate edge, or
to the virtual root when its candidate list is exhausted. -/
def gAdvance (inc : String → List IncEdge) (st : GreedyState) (w : String) :
    GreedyState :=
  if h : (st.ci w).getD 0 + 1 < (inc w).length then
    { pc := upd st.pc w ((inc w).get ⟨(st.ci w).getD 0 + 1, h⟩).src,
      ci := upd st.ci w ((st.ci w).getD 0 + 1) }
  else
    { st with pc := upd st.pc w VIRTUAL_ROOT }

/-- The `while (cycle)` loop (lines 545-568), with fuel (shown sufficient). -/
def greedyLoop (nodes : List String) (inc : String → List IncEdge) :
    Nat → GreedyState → GreedyState
  | 0, st => st
  | fuel+1, st =>
      match detectCycle nodes st.pc with
      | none => st
      | some none => st
      | some (some cyc) =>
          match weakestFold inc st.pc cyc none with
          | none => st
          | some (w, _) => greedyLoop nodes inc fuel (gAdvance inc st w)

/-- Decreasing measure of the loop: remaining candidate supply of the nodes
still attached below the root. -/
def gPhi (inc : String → List IncEdge) (st : GreedyState) (n : String) : Nat :=
  match st.pc n with
  | none => 0
  | some s => if s = "" ∨ s = VIRTUAL_ROOT then 0
      else (inc n).length + 1 - (st.ci n).getD 0

def gMeasure (nodes : List String) (inc : String → List IncEdge)
    (st : GreedyState) : Nat :=
  (nodes.dedup.map (gPhi inc st)).sum

def greedyFuel (nodes : List String) (inc : String → List IncEdge) : Nat :=
  gMeasure nodes inc (greedyInit nodes inc) + 1

/-- `greedyResolve` (lines 502-570): the resulting ParentMap. -/
def greedyResolve (nodes : List String) (inc : String → List IncEdge) :
    String → Option String :=
  (greedyLoop nodes inc (greedyFuel nodes inc) (greedyInit nodes inc)).pc

/-! ### Termination of the greedy loop -/

theorem sum_lt_of_single {l : List α} (hl : l.Nodup) {x : α} (hx : x ∈ l)
    (f g : α → Nat) (hothers : ∀ y ∈ l, y ≠ x → g y = f y) (hxlt : g x < f x) :
    (l.map g).sum < (l.map f).sum := by
  induction l with
  | nil => cases hx
  | cons a as ih =>
      simp only [List.map_cons, List.sum_cons]
      rcases List.mem_cons.mp hx with rfl | hx'
      · have heach : ∀ y ∈ as, g y = f y := by
          intro y hy
          refine hothers y (by simp [hy]) ?_
          rintro rfl
          exact (List.nodup_cons.mp hl).1 hy
        have hrest : (as.map g).sum = (as.map f).sum := by
          rw [List.map_congr_left heach]
        omega
      · have ha : g a = f a := hothers a (by simp)
          (fun hax => (List.nodup_cons.mp hl).1 (hax ▸ hx'))
        have := ih (List.nodup_cons.mp hl).2 hx'
          (fun y hy hne => hothers y (by simp [hy]) hne)
        omega

def Supp (nodes : List String) (st : GreedyState) : Prop :=
  ∀ x, (st.pc x).isSome ↔ x ∈ nodes

theorem greedyInit_fold_pc (inc : String → List IncEdge) :
    ∀ (l : List String) (st : GreedyState) (x : String),
      ((l.foldl
        (fun st node =>
          match inc node with
          | [] => { st with pc := upd st.pc node VIRTUAL_ROOT }
          | e :: _ => { pc := upd st.pc node e.src, ci := upd st.ci node 0 })
        st).pc x).isSome ↔ ((st.pc x).isSome ∨ x ∈ l) := by
  intro l
  induction l with
  | nil => intro st x; simp
  | cons n rest ih =>
      intro st x
      simp only [List.foldl_cons]
      cases hn : inc n with
      | nil =>
          rw [ih]
          by_cases hx : x = n <;> simp [upd, hx]
      | cons e es =>
          rw [ih]
          by_cases hx : x = n <;> simp [upd, hx]

theorem greedyInit_supp (nodes : List String) (inc : String → List IncEdge) :
    Supp nodes (greedyInit nodes inc) := by
  intro x
  rw [greedyInit, greedyInit_fold_pc inc nodes _ x]
  simp

/-- The node returned by the weakest-edge scan has a real (non-root, truthy)
parent choice. -/
theorem weakestFold_spec (inc : String → List IncEdge) (pc : String → Option String) :
    ∀ (l : List String) (acc : Option (String × Option ℚ)) (w : String) (sc : Option ℚ),
      weakestFold inc pc l acc = some (w, sc) →
      (∃ s, pc w = some s ∧ s ≠ "" ∧ s ≠ VIRTUAL_ROOT) ∨ acc = some (w, sc) := by
  intro l
  induction l with
  | nil =>
      intro acc w sc h
      right
      simpa [weakestFold] using h
  | cons child rest ih =>
      intro acc w sc h
      cases hp : pc child with
      | none =>
          have h' : weakestFold inc pc rest acc = some (w, sc) := by
            simpa only [weakestFold, hp] using h
          exact ih acc w sc h'
      | some parent =>
          by_cases hroot : parent = "" ∨ parent = VIRTUAL_ROOT
          · have h' : weakestFold inc pc rest acc = some (w, sc) := by
              simpa only [weakestFold, hp, if_pos hroot] using h
            exact ih acc w sc h'
          · simp only [weakestFold, hp, if_neg hroot] at h
            push_neg at hroot
            rcases ih _ w sc h with hgood | hacc
            · exact Or.inl hgood
            · split at hacc
              · left
                rw [Option.some.injEq, Prod.mk.injEq] at hacc
                obtain ⟨rfl, -⟩ := hacc
                exact ⟨parent, hp, hroot.1, hroot.2⟩
              · exact Or.inr hacc

/-- Candidate-index sanity: the stored index never exceeds the candidate
list's length. -/
def CIok (inc : String → List IncEdge) (st : GreedyState) : Prop :=
  ∀ n, (st.ci n).getD 0 ≤ (inc n).length

/-- The fold step of `greedyInit`, as a named function for proof purposes
(definitionally equal to the lambda in `greedyInit`). -/
def gIstep (inc : String → List IncEdge) (st : GreedyState) (node : String) :
    GreedyState :=
  match inc node with
  | [] => { st with pc := upd st.pc node VIRTUAL_ROOT }
  | e :: _ => { pc := upd st.pc node e.src, ci := upd st.ci node 0 }

theorem gIstep_ci (inc : String → List IncEdge) (st : GreedyState)
    (node : String) (h : ∀ y, (st.ci y).getD 0 = 0) (y : String) :
    ((gIstep inc st node).ci y).getD 0 = 0 := by
  unfold gIstep
  cases hn : inc node with
  | nil => exact h y
  | cons e es =>
      by_cases hy : y = node <;> simp [upd, hy, h y]

theorem foldl_gIstep_ci (inc : String → List IncEdge) :
    ∀ (l : List String) (st : GreedyState),
      (∀ y, (st.ci y).getD 0 = 0) →
      ∀ x, ((l.foldl (gIstep inc) st).ci x).getD 0 = 0 := by
  intro l
  induction l with
  | nil => intro st h x; exact h x
  | cons n rest ih =>
      intro st h x
      rw [List.foldl_cons]
      exact ih (gIstep inc st n) (gIstep_ci inc st n h) x

theorem greedyInit_ciok (nodes : List String) (inc : String → List IncEdge) :
    CIok inc (greedyInit nodes inc) := by
  intro n
  have h0 : ((greedyInit nodes inc).ci n).getD 0 = 0 :=
    foldl_gIstep_ci inc nodes ⟨fun _ => none, fun _ => none⟩ (fun _ => rfl) n
  rw [h0]
  exact Nat.zero_le _

theorem upd_self (f : String → Option α) (k : String) (v : α) :
    upd f k v k = some v := by
  simp [upd]

theorem upd_other (f : String → Option α) (k : String) (v : α) (x : String)
    (h : x ≠ k) : upd f k v x = f x := by
  simp [upd, h]

theorem gPhi_gAdvance_self (inc : String → List IncEdge) (st : GreedyState)
    (w parent : String) (hp : st.pc w = some parent) (h1 : parent ≠ "")
    (h2 : parent ≠ VIRTUAL_ROOT) (hc : CIok inc st) :
    gPhi inc (gAdvance inc st w) w < gPhi inc st w := by
  have hci := hc w
  have hold : gPhi inc st w = (inc w).length + 1 - (st.ci w).getD 0 := by
    simp only [gPhi, hp]
    rw [if_neg (not_or.mpr ⟨h1, h2⟩)]
  rw [hold]
  unfold gAdvance
  split
  · rename_i h
    by_cases hroot : (((inc w).get ⟨(st.ci w).getD 0 + 1, h⟩).src = "" ∨
        ((inc w).get ⟨(st.ci w).getD 0 + 1, h⟩).src = VIRTUAL_ROOT)
    · simp only [gPhi, upd_self, Option.getD_some]
      rw [if_pos hroot]
      omega
    · simp only [gPhi, upd_self, Option.getD_some]
      rw [if_neg hroot]
      omega
  · rename_i h
    simp [gPhi, upd_self]
    omega

theorem gPhi_gAdvance_ne (inc : String → List IncEdge) (st : GreedyState)
    (w y : String) (hy : y ≠ w) :
    gPhi inc (gAdvance inc st w) y = gPhi inc st y := by
  unfold gAdvance
  split <;> simp [gPhi, upd, hy]

theorem gMeasure_gAdvance_lt (nodes : List String) (inc : String → List IncEdge)
    (st : GreedyState) (w parent : String) (hw : w ∈ nodes)
    (hp : st.pc w = some parent) (h1 : parent ≠ "") (h2 : parent ≠ VIRTUAL_ROOT)
    (hc : CIok inc st) :
    gMeasure nodes inc (gAdvance inc st w) < gMeasure nodes inc st :=
  sum_lt_of_single (List.nodup_dedup nodes) (List.mem_dedup.mpr hw)
    (gPhi inc st) (gPhi inc (gAdvance inc st w))
    (fun y _ hne => gPhi_gAdvance_ne inc st w y hne)
    (gPhi_gAdvance_self inc st w parent hp h1 h2 hc)

theorem supp_gAdvance (nodes : List String) (inc : String → List IncEdge)
    (st : GreedyState) (w : String) (hS : Supp nodes st)
    (hw : (st.pc w).isSome) : Supp nodes (gAdvance inc st w) := by
  intro x
  by_cases hx : x = w
  · subst hx
    constructor
    · intro _; exact (hS x).mp hw
    · intro _
      unfold gAdvance
      split <;> simp [upd]
  · unfold gAdvance
    rw [← hS x]
    split <;> simp [upd, hx]

theorem ciok_gAdvance (inc : String → List IncEdge) (st : GreedyState)
    (w : String) (hc : CIok inc st) : CIok inc (gAdvance inc st w) := by
  intro n
  unfold gAdvance
  split
  · rename_i h
    by_cases hn : n = w
    · subst hn
      simp only [upd_self, Option.getD_some]
      omega
    · simp only [upd_other _ _ _ _ hn]
      exact hc n
  · exact hc n

/-- Running the loop with any amount of fuel past the measure bound gives the
same state: the `while (cycle)` loop terminates. -/
theorem greedyLoop_fuel_indep (nodes : List String) (inc : String → List IncEdge) :
    ∀ (f₁ : Nat) (st : GreedyState) (f₂ : Nat),
      Supp nodes st → CIok inc st →
      gMeasure nodes inc st < f₁ → gMeasure nodes inc st < f₂ →
      greedyLoop nodes inc f₁ st = greedyLoop nodes inc f₂ st := by
  intro f₁
  induction f₁ with
  | zero => intro st f₂ _ _ h1 _; omega
  | succ k ih =>
      intro st f₂ hS hC h1 h2
      obtain ⟨m, rfl⟩ : ∃ m, f₂ = m + 1 := ⟨f₂ - 1, by omega⟩
      rcases hd : detectCycle nodes st.pc with _ | (_ | cyc)
      · simp only [greedyLoop, hd]
      · simp only [greedyLoop, hd]
      · rcases hw : weakestFold inc st.pc cyc none with _ | ⟨w, sc⟩
        · simp only [greedyLoop, hd, hw]
        · rcases weakestFold_spec inc st.pc cyc none w sc hw with
            ⟨parent, hp, hp1, hp2⟩ | habs
          · have hwn : w ∈ nodes := (hS w).mp (by simp [hp])
            have hlt := gMeasure_gAdvance_lt nodes inc st w parent hwn
              hp hp1 hp2 hC
            have hrec := ih (gAdvance inc st w) m
              (supp_gAdvance nodes inc st w hS (by simp [hp]))
              (ciok_gAdvance inc st w hC) (by omega) (by omega)
            simp only [greedyLoop, hd, hw]
            exact hrec
          · cases habs

theorem greedyLoop_supp_ciok (nodes : List String) (inc : String → List IncEdge) :
    ∀ (fuel : Nat) (st : GreedyState), Supp nodes st → CIok inc st →
      Supp nodes (greedyLoop nodes inc fuel st) ∧
        CIok inc (greedyLoop nodes inc fuel st) := by
  intro fuel
  induction fuel with
  | zero => intro st hS hC; exact ⟨hS, hC⟩
  | succ k ih =>
      intro st hS hC
      rcases hd : detectCycle nodes st.pc with _ | (_ | cyc)
      · simp only [greedyLoop, hd]; exact ⟨hS, hC⟩
      · simp only [greedyLoop, hd]; exact ⟨hS, hC⟩
      · rcases hw : weakestFold inc st.pc cyc none with _ | ⟨w, sc⟩
        · simp only [greedyLoop, hd, hw]; exact ⟨hS, hC⟩
        · rcases weakestFold_spec inc st.pc cyc none w sc hw with
            ⟨parent, hp, hp1, hp2⟩ | habs
          · have hrec := ih (gAdvance inc st w)
              (supp_gAdvance nodes inc st w hS (by simp [hp]))
              (ciok_gAdvance inc st w hC)
            simp only [greedyLoop, hd, hw]
            exact hrec
          · cases habs

/-- **C8**: the cycle-breaking loop of `greedyResolve` terminates.  Running
the embedded loop with any fuel at or above `greedyFuel` (one more than the
initial decreasing measure, which bounds the number of iterations) produces
the same ParentMap as `greedyResolve` itself: every break strictly shrinks
the measure, so the loop stabilises after at most `greedyFuel` iterations. -/
theorem C8_greedyResolve_terminates (nodes : List String)
    (inc : String → List IncEdge) (fuel : Nat)
    (h : greedyFuel nodes inc ≤ fuel) :
    (greedyLoop nodes inc fuel (greedyInit nodes inc)).pc =
      greedyResolve nodes inc := by
  rw [greedyResolve]
  have := greedyLoop_fuel_indep nodes inc fuel (greedyInit nodes inc)
    (greedyFuel nodes inc) (greedyInit_supp nodes inc) (greedyInit_ciok nodes inc)
    (by rw [greedyFuel] at h; omega) (by rw [greedyFuel]; omega)
  rw [this]

theorem C8_greedyResolve_terminates_witness :
    greedyFuel ["a"] (fun _ => []) ≤ 5 ∧
      (greedyLoop ["a"] (fun _ => []) 5 (greedyInit ["a"] (fun _ => []))).pc =
        greedyResolve ["a"] (fun _ => []) :=
  ⟨by decide, C8_greedyResolve_terminates ["a"] (fun _ => []) 5 (by decide)⟩

/-! ### Acyclicity and spanning of the greedy resolver -/

theorem length_filter_mono (p q : α → Bool) (h : ∀ x, q x = true → p x = true) :
    ∀ l : List α, (l.filter q).length ≤ (l.filter p).length := by
  intro l
  induction l with
  | nil => simp
  | cons a t ih =>
      rw [List.filter_cons, List.filter_cons]
      cases hq : q a
      · rw [if_neg (by simp [hq])]
        cases hp : p a
        · rw [if_neg (by simp [hp])]
          exact ih
        · rw [if_pos (by simp [hp])]
          exact le_trans ih (by simp)
      · rw [if_pos (by simp [hq]), if_pos (by simp [h a hq])]
        simpa using ih

theorem length_filter_lt (p q : α → Bool) (h : ∀ x, q x = true → p x = true)
    (c : α) : ∀ l : List α, c ∈ l → p c = true → q c = false →
    (l.filter q).length < (l.filter p).length := by
  intro l
  induction l with
  | nil => intro hc; cases hc
  | cons a t ih =>
      intro hc hpc hqc
      rw [List.filter_cons, List.filter_cons]
      rcases List.mem_cons.mp hc with rfl | hct
      · rw [if_neg (by simp [hqc]), if_pos (by simp [hpc])]
        have := length_filter_mono p q h t
        simp only [List.length_cons]
        omega
      · cases hq : q a
        · cases hp : p a
          · rw [if_neg (by simp [hq]), if_neg (by simp [hp])]
            exact ih hct hpc hqc
          · rw [if_neg (by simp [hq]), if_pos (by simp [hp])]
            have := ih hct hpc hqc
            simp only [List.length_cons]
            omega
        · rw [if_pos (by simp [hq]), if_pos (by simp [h a hq])]
          have := ih hct hpc hqc
          simp only [List.length_cons]
          omega

/-- The fuel given to the inner walk of `detectCycle` is sufficient: each
step either terminates or permanently visits a fresh node. -/
theorem gwalk_isSome (nodes : List String) (pc : String → Option String)
    (hS : ∀ x, (pc x).isSome ↔ x ∈ nodes) :
    ∀ (fuel : Nat) (visited stack : List String) (cur : String),
      (nodes.dedup.filter (fun x => decide (x ∉ visited))).length + 2 ≤ fuel →
      (gwalk pc fuel visited stack cur).isSome := by
  intro fuel
  induction fuel with
  | zero => intro visited stack cur h; omega
  | succ f ih =>
      intro visited stack cur h
      rw [gwalk]
      by_cases hg : cur = VIRTUAL_ROOT ∨ cur ∈ visited
      · rw [if_pos hg]; simp
      · rw [if_neg hg]
        push_neg at hg
        by_cases hns : gStep pc cur ∈ stack ++ [cur]
        · rw [if_pos hns]; simp
        · rw [if_neg hns]
          by_cases hcn : cur ∈ nodes
          · refine ih (visited ++ [cur]) (stack ++ [cur]) (gStep pc cur) ?_
            have hdec := length_filter_lt
              (fun x => decide (x ∉ visited))
              (fun x => decide (x ∉ visited ++ [cur]))
              (fun x hx => by
                rw [decide_eq_true_iff] at hx ⊢
                exact fun h' => hx (List.mem_append_left _ h'))
              cur nodes.dedup (List.mem_dedup.mpr hcn)
              (by rw [decide_eq_true_iff]; exact hg.2)
              (by rw [decide_eq_false_iff_not]; simp)
            omega
          · have hpc : pc cur = none := by
              cases hcur : pc cur with
              | none => rfl
              | some s => exact absurd ((hS cur).mp (by simp [hcur])) hcn
            have hnext : gStep pc cur = VIRTUAL_ROOT := by
              simp [gStep, hpc, jsOrRoot]
            obtain ⟨f', rfl⟩ : ∃ f', f = f' + 1 := ⟨f - 1, by omega⟩
            rw [hnext, gwalk, if_pos (Or.inl rfl)]
            simp

theorem detectCycleGo_isSome (nodes : List String) (pc : String → Option String)
    (hS : ∀ x, (pc x).isSome ↔ x ∈ nodes) :
    ∀ (starts visited : List String),
      (detectCycleGo pc (nodes.length + 2) starts visited).isSome := by
  intro starts
  induction starts with
  | nil => intro visited; simp [detectCycleGo]
  | cons a rest ih =>
      intro visited
      simp only [detectCycleGo]
      by_cases hv : a ∈ visited
      · rw [if_pos hv]; exact ih visited
      · rw [if_neg hv]
        have hw : (gwalk pc (nodes.length + 2) visited [] a).isSome := by
          apply gwalk_isSome nodes pc hS
          have h1 : (nodes.dedup.filter (fun x => decide (x ∉ visited))).length ≤
              nodes.dedup.length := List.length_filter_le _ _
          have h2 : nodes.dedup.length ≤ nodes.length :=
            List.Sublist.length_le (List.dedup_sublist nodes)
          omega
        rcases hgw : gwalk pc (nodes.length + 2) visited [] a with _ | ⟨r, vis⟩
        · rw [hgw] at hw; simp at hw
        · cases r with
          | none => simp only [hgw]; exact ih vis
          | some cyc => simp only [hgw]; simp

theorem mem_collectDown_head (x : String) (rest : List String) (tgt : String) :
    x ∈ collectDown (x :: rest) tgt := by
  rw [collectDown]
  split <;> simp

theorem cur_mem_extractCycle (stack : List String) (cur tgt : String) :
    cur ∈ extractCycle (stack ++ [cur]) tgt := by
  rw [extractCycle, List.reverse_append]
  simp only [List.reverse_cons, List.reverse_nil, List.nil_append,
    List.cons_append, List.mem_reverse]
  exact mem_collectDown_head cur _ tgt

/-- Any cycle reported by the walk contains a member whose chosen parent is a
real (truthy, non-root) key: the stack never contains the virtual root, and
the member at the top of the stack points into the stack. -/
theorem gwalk_cycle_progress (pc : String → Option String) :
    ∀ (fuel : Nat) (visited stack : List String) (cur : String)
      (cyc vis : List String),
      VIRTUAL_ROOT ∉ stack →
      gwalk pc fuel visited stack cur = some (some cyc, vis) →
      ∃ c ∈ cyc, ∃ p, pc c = some p ∧ p ≠ "" ∧ p ≠ VIRTUAL_ROOT := by
  intro fuel
  induction fuel with
  | zero => intro _ _ _ _ _ _ h; simp [gwalk] at h
  | succ f ih =>
      intro visited stack cur cyc vis hroot h
      rw [gwalk] at h
      by_cases hg : cur = VIRTUAL_ROOT ∨ cur ∈ visited
      · rw [if_pos hg] at h; simp at h
      · rw [if_neg hg] at h
        push_neg at hg
        by_cases hns : gStep pc cur ∈ stack ++ [cur]
        · rw [if_pos hns] at h
          simp only [Option.some.injEq, Prod.mk.injEq] at h
          obtain ⟨hcyc, -⟩ := h
          refine ⟨cur, ?_, ?_⟩
          · rw [← hcyc]; exact cur_mem_extractCycle stack cur _
          · have hne : gStep pc cur ≠ VIRTUAL_ROOT := by
              intro he
              rw [he] at hns
              rcases List.mem_append.mp hns with h1 | h1
              · exact hroot h1
              · simp at h1; exact hg.1 h1.symm
            cases hpc : pc cur with
            | none => exact absurd (by simp [gStep, jsOrRoot, hpc]) hne
            | some p =>
                by_cases hp0 : p = ""
                · exact absurd (by simp [gStep, jsOrRoot, hpc, hp0]) hne
                · have hgp : gStep pc cur = p := by
                    simp [gStep, jsOrRoot, hpc, hp0]
                  exact ⟨p, rfl, hp0, fun hpr => hne (by rw [hgp, hpr])⟩
        · rw [if_neg hns] at h
          have hroot' : VIRTUAL_ROOT ∉ stack ++ [cur] := by
            intro hmem
            rcases List.mem_append.mp hmem with h1 | h1
            · exact hroot h1
            · simp at h1; exact hg.1 h1.symm
          exact ih (visited ++ [cur]) (stack ++ [cur]) (gStep pc cur) cyc vis
            hroot' h

theorem detectCycleGo_cycle_progress (pc : String → Option String) (fuel : Nat) :
    ∀ (starts visited : List String) (cyc : List String),
      detectCycleGo pc fuel starts visited = some (some cyc) →
      ∃ c ∈ cyc, ∃ p, pc c = some p ∧ p ≠ "" ∧ p ≠ VIRTUAL_ROOT := by
  intro starts
  induction starts with
  | nil => intro visited cyc h; simp [detectCycleGo] at h
  | cons a rest ih =>
      intro visited cyc h
      simp only [detectCycleGo] at h
      by_cases hv : a ∈ visited
      · rw [if_pos hv] at h
        exact ih visited cyc h
      · rw [if_neg hv] at h
        rcases hgw : gwalk pc fuel visited [] a with _ | ⟨r, vis⟩
        · rw [hgw] at h; cases h
        · cases r with
          | none =>
              simp only [hgw] at h
              exact ih vis cyc h
          | some cyc' =>
              simp only [hgw, Option.some.injEq] at h
              subst h
              exact gwalk_cycle_progress pc fuel visited [] a cyc' vis
                (by simp) hgw

theorem weakestFold_isSome_acc (inc : String → List IncEdge)
    (pc : String → Option String) :
    ∀ (l : List String) (xn : String) (xs : Option ℚ),
      (weakestFold inc pc l (some (xn, xs))).isSome := by
  intro l
  induction l with
  | nil => intro xn xs; simp [weakestFold]
  | cons c rest ih =>
      intro xn xs
      cases hp : pc c with
      | none => simpa only [weakestFold, hp] using ih xn xs
      | some parent =>
          by_cases hr : parent = "" ∨ parent = VIRTUAL_ROOT
          · simpa only [weakestFold, hp, if_pos hr] using ih xn xs
          · simp only [weakestFold, hp, if_neg hr]
            split
            · exact ih c _
            · exact ih xn xs

theorem weakestFold_isSome_of_mem (inc : String → List IncEdge)
    (pc : String → Option String) :
    ∀ (l : List String) (acc : Option (String × Option ℚ)) (c : String),
      c ∈ l → (∃ p, pc c = some p ∧ p ≠ "" ∧ p ≠ VIRTUAL_ROOT) →
      (weakestFold inc pc l acc).isSome := by
  intro l
  induction l with
  | nil => intro acc c hc _; cases hc
  | cons d rest ih =>
      intro acc c hc hreal
      obtain ⟨p, hp, h1, h2⟩ := hreal
      rcases List.mem_cons.mp hc with rfl | hcr
      · have hr : ¬(p = "" ∨ p = VIRTUAL_ROOT) := not_or.mpr ⟨h1, h2⟩
        cases acc with
        | none =>
            simp only [weakestFold, hp, if_neg hr]
            exact weakestFold_isSome_acc inc pc rest c _
        | some x =>
            obtain ⟨xn, xs⟩ := x
            simp only [weakestFold, hp, if_neg hr]
            split
            · exact weakestFold_isSome_acc inc pc rest c _
            · exact weakestFold_isSome_acc inc pc rest xn xs
      · cases hpd : pc d with
        | none => simpa only [weakestFold, hpd] using ih acc c hcr ⟨p, hp, h1, h2⟩
        | some parent =>
            by_cases hr : parent = "" ∨ parent = VIRTUAL_ROOT
            · simpa only [weakestFold, hpd, if_pos hr] using
                ih acc c hcr ⟨p, hp, h1, h2⟩
            · simp only [weakestFold, hpd, if_neg hr]
              cases acc with
              | none =>
                  split
                  · exact ih _ c hcr ⟨p, hp, h1, h2⟩
                  · exact ih _ c hcr ⟨p, hp, h1, h2⟩
              | some x =>
                  obtain ⟨xn, xs⟩ := x
                  split
                  · exact ih _ c hcr ⟨p, hp, h1, h2⟩
                  · exact ih _ c hcr ⟨p, hp, h1, h2⟩

/-- `x` walks to the virtual root by iterating the parent map. -/
def GReach (pc : String → Option String) (x : String) : Prop :=
  ∃ k, (gStep pc)^[k] x = VIRTUAL_ROOT

/-- If the walk finishes without reporting a cycle, everything it visited
(and the start) walks to the virtual root. -/
theorem gwalk_none_sound (pc : String → Option String) :
    ∀ (fuel : Nat) (visited stack : List String) (cur : String)
      (D : List String) (vis : List String),
      visited = D ++ stack →
      (∀ v ∈ D, GReach pc v) →
      (∀ s ∈ stack, ∃ j, (gStep pc)^[j] s = cur) →
      cur ∉ stack →
      gwalk pc fuel visited stack cur = some (none, vis) →
      GReach pc cur ∧ ∀ v ∈ vis, GReach pc v := by
  intro fuel
  induction fuel with
  | zero => intro _ _ _ _ _ _ _ _ _ h; simp [gwalk] at h
  | succ f ih =>
      intro visited stack cur D vis hvd hD hchain hcs h
      rw [gwalk] at h
      by_cases hg : cur = VIRTUAL_ROOT ∨ cur ∈ visited
      · rw [if_pos hg] at h
        simp only [Option.some.injEq, Prod.mk.injEq] at h
        obtain ⟨-, hveq⟩ := h
        have hcur : GReach pc cur := by
          rcases hg with hr | hvis
          · exact ⟨0, by simpa using hr⟩
          · rw [hvd] at hvis
            rcases List.mem_append.mp hvis with hD' | hS'
            · exact hD cur hD'
            · exact absurd hS' hcs
        refine ⟨hcur, ?_⟩
        intro v hv'
        rw [← hveq, hvd] at hv'
        rcases List.mem_append.mp hv' with hD' | hS'
        · exact hD v hD'
        · obtain ⟨j, hj⟩ := hchain v hS'
          obtain ⟨k, hk⟩ := hcur
          exact ⟨k + j, by rw [Function.iterate_add_apply, hj, hk]⟩
      · rw [if_neg hg] at h
        push_neg at hg
        by_cases hns : gStep pc cur ∈ stack ++ [cur]
        · rw [if_pos hns] at h; simp at h
        · rw [if_neg hns] at h
          have hvd' : visited ++ [cur] = D ++ (stack ++ [cur]) := by
            rw [hvd, List.append_assoc]
          have hchain' : ∀ s ∈ stack ++ [cur],
              ∃ j, (gStep pc)^[j] s = gStep pc cur := by
            intro s hs
            rcases List.mem_append.mp hs with h1 | h1
            · obtain ⟨j, hj⟩ := hchain s h1
              exact ⟨j + 1, by rw [Function.iterate_succ_apply', hj]⟩
            · simp only [List.mem_singleton] at h1
              subst h1
              exact ⟨1, by rw [Function.iterate_one]⟩
          have hrec := ih (visited ++ [cur]) (stack ++ [cur]) (gStep pc cur)
            D vis hvd' hD hchain' hns h
          obtain ⟨hnext, hall⟩ := hrec
          refine ⟨?_, hall⟩
          obtain ⟨k, hk⟩ := hnext
          exact ⟨k + 1, by rw [Function.iterate_succ_apply]; exact hk⟩

theorem detectCycleGo_none_sound (pc : String → Option String) (fuel : Nat) :
    ∀ (starts visited : List String),
      (∀ v ∈ visited, GReach pc v) →
      detectCycleGo pc fuel starts visited = some none →
      ∀ s ∈ starts, GReach pc s := by
  intro starts
  induction starts with
  | nil => intro visited _ _ s hs; cases hs
  | cons a rest ih =>
      intro visited hvis h s hs
      simp only [detectCycleGo] at h
      by_cases hv : a ∈ visited
      · rw [if_pos hv] at h
        rcases List.mem_cons.mp hs with rfl | hsr
        · exact hvis s hv
        · exact ih visited hvis h s hsr
      · rw [if_neg hv] at h
        rcases hgw : gwalk pc fuel visited [] a with _ | ⟨r, vis⟩
        · rw [hgw] at h; cases h
        · cases r with
          | some cyc => simp only [hgw] at h; cases h
          | none =>
              simp only [hgw] at h
              have hsound := gwalk_none_sound pc fuel visited [] a visited vis
                (by simp) hvis (by intro s hs'; cases hs') (by simp) hgw
              rcases List.mem_cons.mp hs with rfl | hsr
              · exact hsound.1
              · exact ih vis hsound.2 h s hsr

/-- With sufficient fuel the loop ends in a state whose parent map is
cycle-free as measured by `detectCycle` itself. -/
theorem greedyLoop_detect_final (nodes : List String)
    (inc : String → List IncEdge) :
    ∀ (fuel : Nat) (st : GreedyState), Supp nodes st → CIok inc st →
      gMeasure nodes inc st < fuel →
      detectCycle nodes (greedyLoop nodes inc fuel st).pc = some none := by
  intro fuel
  induction fuel with
  | zero => intro st _ _ h; omega
  | succ k ih =>
      intro st hS hC hm
      rcases hd : detectCycle nodes st.pc with _ | (_ | cyc)
      · exfalso
        have hsome := detectCycleGo_isSome nodes st.pc hS nodes []
        rw [detectCycle] at hd
        rw [hd] at hsome
        simp at hsome
      · simp only [greedyLoop, hd]
      · rcases hw : weakestFold inc st.pc cyc none with _ | ⟨w, sc⟩
        · exfalso
          have hprog : ∃ c ∈ cyc, ∃ p, st.pc c = some p ∧ p ≠ "" ∧
              p ≠ VIRTUAL_ROOT := by
            rw [detectCycle] at hd
            exact detectCycleGo_cycle_progress st.pc (nodes.length + 2)
              nodes [] cyc hd
          obtain ⟨c, hc, hp⟩ := hprog
          have := weakestFold_isSome_of_mem inc st.pc cyc none c hc hp
          rw [hw] at this
          simp at this
        · rcases weakestFold_spec inc st.pc cyc none w sc hw with
            ⟨parent, hp, hp1, hp2⟩ | habs
          · have hlt := gMeasure_gAdvance_lt nodes inc st w parent
              ((hS w).mp (by simp [hp])) hp hp1 hp2 hC
            have hrec := ih (gAdvance inc st w)
              (supp_gAdvance nodes inc st w hS (by simp [hp]))
              (ciok_gAdvance inc st w hC) (by omega)
            simp only [greedyLoop, hd, hw]
            exact hrec
          · cases habs

theorem iterate_min_inj (f : String → String) (x r : String) (k : Nat)
    (hk : f^[k] x = r) (hmin : ∀ j, j < k → f^[j] x ≠ r) :
    ∀ i j, i < j → j ≤ k → f^[i] x ≠ f^[j] x := by
  intro i j hij hjk heq
  have h1 : f^[k - j] (f^[j] x) = r := by
    rw [← Function.iterate_add_apply, show k - j + j = k by omega]
    exact hk
  rw [← heq, ← Function.iterate_add_apply] at h1
  exact hmin (k - j + i) (by omega) h1

/-- **C2**: the ParentMap produced by `greedyResolve` is acyclic and
spanning: from every node, iterating the parent map (with absent/falsy
entries reading as the virtual root, as the walk in `detectCycle` does)
reaches `"__ROOT__"` in at most `|nodes| + 1` steps and never revisits a
key along the way. -/
theorem C2_greedyResolve_acyclic_spanning (nodes : List String)
    (inc : String → List IncEdge) (n : String) (hn : n ∈ nodes) :
    ∃ k, k ≤ nodes.dedup.length + 1 ∧
      (gStep (greedyResolve nodes inc))^[k] n = VIRTUAL_ROOT ∧
      ∀ i j, i < j → j ≤ k →
        (gStep (greedyResolve nodes inc))^[i] n ≠
          (gStep (greedyResolve nodes inc))^[j] n := by
  have hSC := greedyLoop_supp_ciok nodes inc (greedyFuel nodes inc)
    (greedyInit nodes inc) (greedyInit_supp nodes inc)
    (greedyInit_ciok nodes inc)
  have hSupp : ∀ x, (greedyResolve nodes inc x).isSome ↔ x ∈ nodes := hSC.1
  have hdet : detectCycle nodes (greedyResolve nodes inc) = some none :=
    greedyLoop_detect_final nodes inc (greedyFuel nodes inc)
      (greedyInit nodes inc) (greedyInit_supp nodes inc)
      (greedyInit_ciok nodes inc) (by rw [greedyFuel]; omega)
  have hex : ∃ k, (gStep (greedyResolve nodes inc))^[k] n = VIRTUAL_ROOT := by
    rw [detectCycle] at hdet
    exact detectCycleGo_none_sound (greedyResolve nodes inc)
      (nodes.length + 2) nodes [] (by intro v hv; cases hv) hdet n hn
  refine ⟨Nat.find hex, ?_, Nat.find_spec hex,
    iterate_min_inj (gStep (greedyResolve nodes inc)) n VIRTUAL_ROOT
      (Nat.find hex) (Nat.find_spec hex) (fun j hj => Nat.find_min hex hj)⟩
  have hsub : ∀ x ∈ (List.range (Nat.find hex - 1)).map
      (fun i => (gStep (greedyResolve nodes inc))^[i] n), x ∈ nodes.dedup := by
    intro x hx
    obtain ⟨i, hi, rfl⟩ := List.mem_map.mp hx
    rw [List.mem_range] at hi
    have hnotroot : (gStep (greedyResolve nodes inc))^[i + 1] n ≠
        VIRTUAL_ROOT := Nat.find_min hex (by omega)
    refine List.mem_dedup.mpr ?_
    cases hpcx : greedyResolve nodes inc
        ((gStep (greedyResolve nodes inc))^[i] n) with
    | none =>
        exfalso
        apply hnotroot
        rw [Function.iterate_succ_apply']
        simp [gStep, jsOrRoot, hpcx]
    | some s =>
        exact (hSupp _).mp (by simp [hpcx])
  have hnd : ((List.range (Nat.find hex - 1)).map
      (fun i => (gStep (greedyResolve nodes inc))^[i] n)).Nodup := by
    refine List.Nodup.map_on ?_ (List.nodup_range _)
    intro i hi j hj heq
    rw [List.mem_range] at hi hj
    by_contra hne
    rcases Nat.lt_or_ge i j with hlt | hge
    · exact iterate_min_inj (gStep (greedyResolve nodes inc)) n VIRTUAL_ROOT
        (Nat.find hex) (Nat.find_spec hex) (fun j hj => Nat.find_min hex hj)
        i j hlt (by omega) heq
    · have hlt : j < i := by omega
      exact iterate_min_inj (gStep (greedyResolve nodes inc)) n VIRTUAL_ROOT
        (Nat.find hex) (Nat.find_spec hex) (fun j hj => Nat.find_min hex hj)
        j i hlt (by omega) heq.symm
  have hlen := List.Subperm.length_le (List.subperm_of_subset hnd hsub)
  rw [List.length_map, List.length_range] at hlen
  omega

theorem C2_greedyResolve_acyclic_spanning_witness :
    ("a" ∈ ["a"]) ∧
      ∃ k, k ≤ (["a"].dedup.length + 1) ∧
        (gStep (greedyResolve ["a"] (fun _ => [])))^[k] "a" = VIRTUAL_ROOT ∧
        ∀ i j, i < j → j ≤ k →
          (gStep (greedyResolve ["a"] (fun _ => [])))^[i] "a" ≠
            (gStep (greedyResolve ["a"] (fun _ => [])))^[j] "a" :=
  ⟨by decide,
    C2_greedyResolve_acyclic_spanning ["a"] (fun _ => []) "a" (by decide)⟩

/-! ## The aggregated builder (`buildAggregatedTree`, lines 865-1058)

JS `Map`s are modelled as association lists in insertion order (`alookup` /
`aupdate` / append), and `new Map(pairs)` — where later pairs overwrite — as
a right-biased lookup (`jsMapOf`).  Edge scores of transition edges are
computed by `_computeEdgeScore` with `Math.log`/`Math.exp` and `Date.now()`;
every float it can return is a rational, so the embedding takes the score
function as a parameter `scoreF` and the theorems quantify over it.
Hierarchy-inferred edges (lines 941-959) have exact rational scores and are
embedded concretely. -/

def alookup (m : List (String × β)) (k : String) : Option β :=
  (m.find? (fun p => p.1 == k)).map (·.2)

def aupdate (m : List (String × β)) (k : String) (f : β → β) :
    List (String × β) :=
  m.map (fun p => if p.1 = k then (p.1, f p.2) else p)

/-- `new Map(pairs)` where later pairs overwrite earlier ones. -/
def jsMapOf (l : List (String × β)) (k : String) : Option β :=
  l.foldl (fun acc p => if p.1 = k then some p.2 else acc) none

/-- Aggregation record per URL (lines 870-878). -/
structure UrlInfo where
  url : String
  title : String
  favicon : String
  visits : List Visit
  firstVisitTime : Int
  lastVisitTime : Int
  visitCount : Nat
deriving DecidableEq, Repr

/-- The fresh entry inserted for a first-seen URL (lines 870-878). -/
def initUrlInfo (v : Visit) : UrlInfo :=
  { url := v.url, title := if v.title = "" then v.url else v.title,
    favicon := v.favicon, visits := [], firstVisitTime := v.visitTime,
    lastVisitTime := v.visitTime, visitCount := 0 }

/-- The in-place update applied for every visit (lines 880-884). -/
def uvmUpd (v : Visit) (info : UrlInfo) : UrlInfo :=
  { info with visits := info.visits ++ [v],
              visitCount := info.visitCount + 1,
              firstVisitTime := min info.firstVisitTime v.visitTime,
              lastVisitTime := max info.lastVisitTime v.visitTime }

/-- One step of the per-URL aggregation fold (lines 868-885). -/
def uvmStep (m : List (String × UrlInfo)) (v : Visit) :
    List (String × UrlInfo) :=
  aupdate
    (if (alookup m v.url).isSome then m else m ++ [(v.url, initUrlInfo v)])
    v.url (uvmUpd v)

def urlVisitMap (vs : List Visit) : List (String × UrlInfo) :=
  vs.foldl uvmStep []

def aggUrls (vs : List Visit) : List String :=
  (urlVisitMap vs).map (·.1)

/-- `new Map(this.allVisits.map(v => [v.visitId, v]))` (line 888). -/
def visitIdMap (vs : List Visit) : String → Option Visit :=
  jsMapOf (vs.map (fun v => (v.visitId, v)))

/-- Transition metadata `{count, firstTime, lastTime}` (line 897). -/
structure TMeta where
  count : Nat
  firstTime : Int
  lastTime : Int
deriving DecidableEq, Repr

/-- One step of the transition-count fold (lines 890-902). -/
def rtStep (idMap : String → Option Visit)
    (m : List (String × List (String × TMeta))) (v : Visit) :
    List (String × List (String × TMeta)) :=
  match v.referringVisitId with
  | none => m
  | some rid =>
      if rid = "" then m
      else
        match idMap rid with
        | none => m
        | some r =>
            if r.url = v.url then m
            else
              aupdate
                (if (alookup m r.url).isSome then m else m ++ [(r.url, [])])
                r.url
                (fun inner =>
                  aupdate
                    (if (alookup inner v.url).isSome then inner
                     else inner ++ [(v.url, ⟨0, v.visitTime, v.visitTime⟩)])
                    v.url
                    (fun meta =>
                      ⟨meta.count + 1, min meta.firstTime v.visitTime,
                        max meta.lastTime v.visitTime⟩))

def rawTransitions (vs : List Visit) : List (String × List (String × TMeta)) :=
  vs.foldl (rtStep (visitIdMap vs)) []

/-- Parsed URL components, modelling the parts of WHATWG `new URL(s)` the
code reads: `hostname`, `pathname` (`"/"` when the path is empty), `search`
(with the leading `?`) and `hash` (with the leading `#`).  Only absolute
`http`/`https` URLs parse; everything else throws in JS and is `none` here. -/
structure UrlParts where
  hostname : String
  pathname : String
  search : String
  hash : String
deriving DecidableEq, Repr

def afterScheme (s : String) : Option String :=
  if s.startsWith "http://" then some (s.drop 7)
  else if s.startsWith "https://" then some (s.drop 8)
  else none

def parseUrl (s : String) : Option UrlParts :=
  match afterScheme s with
  | none => none
  | some rest =>
      let hostport := rest.takeWhile
        (fun c => !(c == '/') && !(c == '?') && !(c == '#'))
      if hostport = "" then none
      else
        let tail := rest.drop hostport.length
        let hostname := hostport.takeWhile (fun c => !(c == ':'))
        let rawPath := tail.takeWhile (fun c => !(c == '?') && !(c == '#'))
        let tail2 := tail.drop rawPath.length
        let search := tail2.takeWhile (fun c => !(c == '#'))
        let hash := tail2.drop search.length
        some ⟨hostname, if rawPath = "" then "/" else rawPath, search, hash⟩

/-- `pathname.split('/').filter(Boolean)`. -/
def pathParts (pathname : String) : List String :=
  (pathname.splitOn "/").filter (fun s => !(s == ""))

/-- `_countMatchingPathParts` (lines 238-246): longest common prefix length
of the two part lists. -/
def countMatchingPathParts : List String → List String → Nat
  | p :: ps, c :: cs => if p = c then countMatchingPathParts ps cs + 1 else 0
  | _, _ => 0

/-- `urlInfo` entry (lines 919-928): hostname (`none` when the URL fails to
parse) and path parts. -/
def aggUrlInfo (url : String) : Option String × List String :=
  match parseUrl url with
  | none => (none, [])
  | some u => (some u.hostname, pathParts u.pathname)

/-- Transition edges that pass the `MIN_EDGE_SCORE` filter, appended per
`to`-URL in iteration order (lines 906-915). -/
def transIncoming (scoreF : String → String → TMeta → ℚ) (vs : List Visit) :
    List (String × List IncEdge) :=
  (rawTransitions vs).foldl
    (fun acc p =>
      p.2.foldl
        (fun acc q =>
          if scoreF p.1 q.1 q.2 < (1 : ℚ) / 100 then acc
          else
            aupdate
              (if (alookup acc q.1).isSome then acc else acc ++ [(q.1, [])])
              q.1
              (fun arr => arr ++
                [{ src := p.1, tgt := q.1, score := scoreF p.1 q.1 q.2,
                   count := q.2.count, firstTime := q.2.firstTime,
                   lastTime := q.2.lastTime, inferred := false }]))
        acc)
    []

/-- The hierarchy-inferred edge added for the ordered pair `(a, b)` of
distinct URLs (lines 941-959), reading the already-parsed info `ai`, `bi`. -/
def hierEdgeOf (a b : String) (ai bi : Option String × List String) :
    Option IncEdge :=
  match ai.1, bi.1 with
  | some ha, some hb =>
      if hb ≠ ha then none
      else if ai.2.length < bi.2.length then
        if 0 < countMatchingPathParts ai.2 bi.2 then
          if (1 : ℚ) / 100 ≤
              ((countMatchingPathParts ai.2 bi.2 : ℚ) /
                ((max 1 ai.2.length : Nat) : ℚ)) * 40 + 80 then
            some { src := a, tgt := b,
                   score := ((countMatchingPathParts ai.2 bi.2 : ℚ) /
                     ((max 1 ai.2.length : Nat) : ℚ)) * 40 + 80,
                   count := 0, firstTime := 0, lastTime := 0, inferred := true }
          else none
        else none
      else if ai.2.length = 0 ∧ 1 ≤ bi.2.length then
        some { src := a, tgt := b, score := 220 + 80 / 2, count := 0,
               firstTime := 0, lastTime := 0, inferred := true }
      else none
  | _, _ => none

def hierEdge (a b : String) : Option IncEdge :=
  hierEdgeOf a b (aggUrlInfo a) (aggUrlInfo b)

/-- Adding the hierarchy edges to the incoming map (lines 931-961): the `i`
loop over potential parents is outer, the `j` loop over children inner. -/
def addHierEdges (urls : List String) (m : List (String × List IncEdge)) :
    List (String × List IncEdge) :=
  urls.foldl
    (fun acc a =>
      urls.foldl
        (fun acc b =>
          if a = b then acc
          else
            match hierEdge a b with
            | none => acc
            | some e =>
                aupdate
                  (if (alookup acc b).isSome then acc else acc ++ [(b, [])])
                  b (fun arr => arr ++ [e]))
        acc)
    m

/-- The topK pruning comparator (lines 965-970): score desc, then transition
count desc, then source URL ascending (`localeCompare` modelled as code-point
order).  `prec A B` holds when the comparator is negative. -/
def pruneOrd (A B : IncEdge) : Bool :=
  if B.score ≠ A.score then decide (B.score < A.score)
  else if B.count ≠ A.count then decide (B.count < A.count)
  else decide (A.src < B.src)

/-- Sort each incoming list and keep the best `TOP_K_INCOMING = 10`
(lines 963-976). -/
def pruneIncoming (m : List (String × List IncEdge)) :
    List (String × List IncEdge) :=
  m.map (fun p =>
    (p.1, if 10 < (sortJS pruneOrd p.2).length
      then (sortJS pruneOrd p.2).take 10 else sortJS pruneOrd p.2))

def incomingMapOf (scoreF : String → String → TMeta → ℚ) (vs : List Visit) :
    List (String × List IncEdge) :=
  pruneIncoming (addHierEdges (aggUrls vs) (transIncoming scoreF vs))

def aggInc (scoreF : String → String → TMeta → ℚ) (vs : List Visit) :
    String → List IncEdge :=
  fun u => (alookup (incomingMapOf scoreF vs) u).getD []

/-- An `{u, v, w}` edge handed to Edmonds (lines 983-992). -/
structure GEdge where
  u : String
  v : String
  w : ℚ
deriving DecidableEq, Repr

def aggEdges (scoreF : String → String → TMeta → ℚ) (vs : List Visit) :
    List GEdge :=
  ((incomingMapOf scoreF vs).foldl
    (fun acc p => acc ++ p.2.map (fun e => ⟨e.src, e.tgt, e.score⟩)) []) ++
    (aggUrls vs).map (fun url => ⟨VIRTUAL_ROOT, url, 1⟩)

/-! ### Top-level Edmonds (lines 448-499)

The recursive `solve` (lines 319-446) is never called; the top level picks
the maximum incoming edge for every non-root node, runs a DFS cycle check
along those edges and returns the parent map when no cycle exists, `null`
(here `none`) otherwise. -/

/-- An entry of the per-node incoming adjacency (line 314): parent index and
weight. -/
structure EIn where
  u : Nat
  w : ℚ
deriving DecidableEq, Repr

/-- `new Map(nodes.map((n,i) => [n,i]))` (line 306): index of the last
occurrence. -/
def nodeIndexOf (nodes : List String) : String → Option Nat :=
  jsMapOf (nodes.enum.map (fun p => (p.2, p.1)))

/-- The incoming adjacency build (lines 309-315). -/
def incomingE (nIdx : String → Option Nat) (edges : List GEdge) (v : Nat) :
    List EIn :=
  edges.filterMap (fun e =>
    match nIdx e.u, nIdx e.v with
    | some ui, some vi => if vi = v then some ⟨ui, e.w⟩ else none
    | _, _ => none)

/-- `best = incs[0]; for (it of incs) if (it.w > best.w) best = it`
(lines 463-466): first maximum. -/
def bestIn : List EIn → Option EIn
  | [] => none
  | h :: t => some ((h :: t).foldl (fun best it =>
      if best.w < it.w then it else best) h)

def inEdgeE (rootIdx : Option Nat) (incoming : Nat → List EIn) (v : Nat) :
    Option EIn :=
  if some v = rootIdx then none else bestIn (incoming v)

def inEdgeFor (root : String) (nodes : List String) (edges : List GEdge)
    (v : Nat) : Option EIn :=
  inEdgeE (nodeIndexOf nodes root) (incomingE (nodeIndexOf nodes) edges) v

def edmSucc (root : String) (nodes : List String) (edges : List GEdge)
    (v : Nat) : Option Nat :=
  (inEdgeFor root nodes edges v).map (·.u)

/-- The `dfs` walk (lines 475-485) along the chosen-parent functional graph,
with fuel.  Returns whether this walk flagged a cycle together with the
updated visited set.  (`stackmark` is the current chain.) -/
def dwalk (succ : Nat → Option Nat) :
    Nat → List Nat → List Nat → Nat → Option (Bool × List Nat)
  | 0, _, _, _ => none
  | fuel+1, visited, stack, cur =>
      match succ cur with
      | none => some (false, visited ++ [cur])
      | some p =>
          if p ∈ visited ++ [cur] then
            some (decide (p ∈ stack ++ [cur]), visited ++ [cur])
          else dwalk succ fuel (visited ++ [cur]) (stack ++ [cur]) p

/-- The driver loop (lines 486-489); `acc` accumulates `hasCycle`. -/
def dfsAll (succ : Nat → Option Nat) (fuel : Nat) :
    List Nat → List Nat → Bool → Option (Bool × List Nat)
  | [], visited, acc => some (acc, visited)
  | i :: rest, visited, acc =>
      if i ∈ visited then dfsAll succ fuel rest visited acc
      else
        match dwalk succ fuel visited [] i with
        | none => none
        | some (flag, vis') => dfsAll succ fuel rest vis' (acc || flag)

/-- One step of the parent-map build (lines 493-497). -/
def edmFoldStep (root : String) (nodes : List String) (edges : List GEdge)
    (acc : String → Option String) (v : Nat) : String → Option String :=
  if some v = nodeIndexOf nodes root then acc
  else
    match inEdgeFor root nodes edges v with
    | none => acc
    | some e => upd acc (nodes.getD v "") (nodes.getD e.u "")

/-- The parent-map build (lines 493-497). -/
def edmParentFold (root : String) (nodes : List String) (edges : List GEdge) :
    String → Option String :=
  (List.range nodes.length).foldl (edmFoldStep root nodes edges)
    (fun _ => none)

def edmondsMaximumArborescence (root : String) (nodes : List String)
    (edges : List GEdge) : Option (String → Option String) :=
  match dfsAll (edmSucc root nodes edges) (nodes.length + 2)
      ((List.range nodes.length).filter
        (fun i => !(some i == nodeIndexOf nodes root))) [] false with
  | none => none
  | some (true, _) => none
  | some (false, _) => some (edmParentFold root nodes edges)

/-! ### Aggregated-tree assembly (lines 978-1057) -/

def aggParentMap (scoreF : String → String → TMeta → ℚ) (vs : List Visit) :
    String → Option String :=
  match edmondsMaximumArborescence VIRTUAL_ROOT (aggUrls vs ++ [VIRTUAL_ROOT])
      (aggEdges scoreF vs) with
  | some pm => pm
  | none => greedyResolve (aggUrls vs) (aggInc scoreF vs)

/-- `const p = parentMap.get(url) || VIRTUAL_ROOT` (lines 1015, 1051). -/
def aggParentStr (pm : String → Option String) (u : String) : String :=
  jsOrRoot (pm u)

def aggChildrenRaw (vs : List Visit) (pm : String → Option String)
    (u : String) : List String :=
  if u = VIRTUAL_ROOT then []
  else (aggUrls vs).filter (fun c => aggParentStr pm c == u)

/-- The sibling comparator (lines 1040-1044): visit count desc, then last
visit time desc. -/
def aggChildOrd (uv : List (String × UrlInfo)) (a b : String) : Bool :=
  match alookup uv a, alookup uv b with
  | some A, some B =>
      if B.visitCount ≠ A.visitCount then decide (B.visitCount < A.visitCount)
      else decide (B.lastVisitTime < A.lastVisitTime)
  | _, _ => false

def aggChildren (vs : List Visit) (pm : String → Option String) (u : String) :
    List String :=
  sortJS (aggChildOrd (urlVisitMap vs)) (aggChildrenRaw vs pm u)

/-- `makeNode` (lines 1023-1033). -/
def aggPayload (vs : List Visit) (u : String) : Option NodeData :=
  (alookup (urlVisitMap vs) u).map (fun info =>
    { url := info.url, title := info.title, favicon := info.favicon,
      visitTime := info.lastVisitTime, visitCount := info.visitCount })

/-- Root ordering (line 1054): node `visitTime` (the URL's last visit time)
descending. -/
def aggRootOrd (uv : List (String × UrlInfo)) (a b : String) : Bool :=
  match alookup uv a, alookup uv b with
  | some A, some B => decide (B.lastVisitTime < A.lastVisitTime)
  | _, _ => false

def aggRoots (vs : List Visit) (pm : String → Option String) : List String :=
  sortJS (aggRootOrd (urlVisitMap vs))
    ((aggUrls vs).filter (fun u => aggParentStr pm u == VIRTUAL_ROOT))

/-- `buildAggregatedTree` (lines 865-1058), materialised. -/
def buildAggregatedTree (scoreF : String → String → TMeta → ℚ)
    (vs : List Visit) : Option (List TNode) :=
  buildForest (aggPayload vs)
    (aggChildren vs (aggParentMap scoreF vs))
    ((aggUrls vs).length + 1)
    (aggRoots vs (aggParentMap scoreF vs))

/-! ### Association-list map lemmas -/

theorem alookup_isSome_iff (m : List (String × β)) (k : String) :
    (alookup m k).isSome ↔ k ∈ m.map Prod.fst := by
  induction m with
  | nil => simp [alookup]
  | cons p t ih =>
      by_cases hp : p.1 = k
      · simp [alookup, List.find?_cons, hp]
      · simp only [alookup, List.find?_cons] at ih ⊢
        rw [show (p.1 == k) = false by simp [hp]]
        rw [List.map_cons, List.mem_cons, ih]
        constructor
        · exact Or.inr
        · rintro (h1 | h1)
          · exact absurd h1.symm hp
          · exact h1

theorem alookup_append (m l : List (String × β)) (k : String) :
    alookup (m ++ l) k =
      match alookup m k with
      | some v => some v
      | none => alookup l k := by
  induction m with
  | nil => simp [alookup]
  | cons p t ih =>
      by_cases hp : p.1 = k
      · simp [alookup, List.find?_cons, hp]
      · simp only [alookup, List.cons_append, List.find?_cons] at ih ⊢
        rw [show (p.1 == k) = false by simp [hp]]
        exact ih

theorem alookup_aupdate (m : List (String × β)) (k : String) (f : β → β)
    (u : String) :
    alookup (aupdate m k f) u =
      if u = k then (alookup m u).map f else alookup m u := by
  induction m with
  | nil => simp [alookup, aupdate]
  | cons p t ih =>
      simp only [aupdate, List.map_cons] at ih ⊢
      by_cases hp : p.1 = k
      · rw [if_pos hp]
        by_cases hu : u = k
        · subst hu
          simp [alookup, List.find?_cons, hp]
        · have hpu : ¬ p.1 = u := by rw [hp]; exact fun h => hu h.symm
          simp only [alookup, List.find?_cons]
          rw [show (p.1 == u) = false by simp [hpu], if_neg hu]
          simp only [alookup, aupdate] at ih
          rw [ih, if_neg hu]
      · rw [if_neg hp]
        by_cases hpu : p.1 = u
        · have hu : ¬ u = k := by rw [← hpu]; exact hp
          simp [alookup, List.find?_cons, hpu, hu]
        · simp only [alookup, List.find?_cons]
          rw [show (p.1 == u) = false by simp [hpu]]
          simp only [alookup, aupdate] at ih
          rw [ih]

theorem aupdate_keys (m : List (String × β)) (k : String) (f : β → β) :
    (aupdate m k f).map Prod.fst = m.map Prod.fst := by
  induction m with
  | nil => rfl
  | cons p t ih =>
      simp only [aupdate, List.map_cons] at ih ⊢
      by_cases hp : p.1 = k <;> simp [hp, ih]

/-! ### `urlVisitMap` characterisation -/

/-- Invariant of the per-URL aggregation fold after processing `pref`. -/
def UVMstate (pref : List Visit) (m : List (String × UrlInfo)) : Prop :=
  (m.map Prod.fst).Nodup ∧
  (∀ u, (alookup m u).isSome ↔ ∃ v ∈ pref, v.url = u) ∧
  (∀ u info, alookup m u = some info →
      info.url = u ∧
      info.visitCount = (pref.filter (fun v => v.url = u)).length ∧
      (∃ v ∈ pref, v.url = u ∧ info.lastVisitTime = v.visitTime) ∧
      (∀ v ∈ pref, v.url = u → v.visitTime ≤ info.lastVisitTime))

theorem uvmStep_state (pref : List Visit) (m : List (String × UrlInfo))
    (v : Visit) (h : UVMstate pref m) : UVMstate (pref ++ [v]) (uvmStep m v) := by
  obtain ⟨hnd, hdom, hval⟩ := h
  by_cases hmem : (alookup m v.url).isSome
  · have hstep : uvmStep m v = aupdate m v.url (uvmUpd v) := by
      rw [uvmStep, if_pos hmem]
    rw [hstep]
    refine ⟨by rw [aupdate_keys]; exact hnd, ?_, ?_⟩
    · intro u
      rw [alookup_isSome_iff, aupdate_keys, ← alookup_isSome_iff, hdom u]
      constructor
      · rintro ⟨w, hw, rfl⟩; exact ⟨w, by simp [hw], rfl⟩
      · rintro ⟨w, hw, rfl⟩
        rcases List.mem_append.mp hw with h1 | h1
        · exact ⟨w, h1, rfl⟩
        · simp only [List.mem_singleton] at h1
          subst h1
          obtain ⟨info, hinfo⟩ := Option.isSome_iff_exists.mp hmem
          obtain ⟨w', hw', hurl⟩ := (hdom w.url).mp (by simp [hinfo])
          exact ⟨w', hw', hurl⟩
    · intro u info hinfo
      rw [alookup_aupdate] at hinfo
      by_cases hu : u = v.url
      · rw [if_pos hu] at hinfo
        obtain ⟨old, hold, hmapped⟩ := Option.map_eq_some'.mp hinfo
        obtain ⟨hurl, hcount, ⟨w, hw, hwu, hwt⟩, hmax⟩ := hval u old hold
        subst hmapped
        refine ⟨by simp [uvmUpd, hurl], ?_, ?_, ?_⟩
        · simp only [List.filter_append]
          rw [List.length_append, ← hcount]
          simp [uvmUpd, hu]
        · rcases le_total old.lastVisitTime v.visitTime with hle | hle
          · exact ⟨v, by simp, hu.symm, by simp [uvmUpd, max_eq_right hle]⟩
          · exact ⟨w, by simp [hw], hwu, by
              simp only [uvmUpd]
              rw [max_eq_left hle]
              exact hwt⟩
        · intro w2 hw2 hw2u
          rcases List.mem_append.mp hw2 with h1 | h1
          · exact le_trans (hmax w2 h1 hw2u) (by simp [uvmUpd])
          · simp only [List.mem_singleton] at h1
            subst h1
            simp [uvmUpd]
      · rw [if_neg hu] at hinfo
        obtain ⟨hurl, hcount, ⟨w, hw, hwu, hwt⟩, hmax⟩ := hval u info hinfo
        refine ⟨hurl, ?_, ⟨w, by simp [hw], hwu, hwt⟩, ?_⟩
        · simp only [List.filter_append]
          rw [List.length_append, ← hcount]
          have hvu : ¬ v.url = u := fun h2 => hu h2.symm
          simp [hvu]
        · intro w2 hw2 hw2u
          rcases List.mem_append.mp hw2 with h1 | h1
          · exact hmax w2 h1 hw2u
          · simp only [List.mem_singleton] at h1
            subst h1
            exact absurd hw2u (fun h2 => hu h2.symm)
  · have hstep : uvmStep m v =
        aupdate (m ++ [(v.url, initUrlInfo v)]) v.url (uvmUpd v) := by
      rw [uvmStep, if_neg hmem]
    rw [hstep]
    have hnotmem : v.url ∉ m.map Prod.fst := by
      rw [← alookup_isSome_iff]
      exact hmem
    refine ⟨?_, ?_, ?_⟩
    · rw [aupdate_keys, List.map_append]
      simpa using List.Nodup.append hnd (by simp) (by
        intro a ha hb
        simp only [List.map_cons, List.map_nil, List.mem_singleton] at hb
        subst hb
        exact hnotmem ha)
    · intro u
      rw [alookup_isSome_iff, aupdate_keys, List.map_append, List.mem_append]
      constructor
      · rintro (h1 | h1)
        · obtain ⟨w, hw, rfl⟩ := (hdom u).mp ((alookup_isSome_iff m u).mpr h1)
          exact ⟨w, by simp [hw], rfl⟩
        · simp only [List.map_cons, List.map_nil, List.mem_singleton] at h1
          exact ⟨v, by simp, h1.symm⟩
      · rintro ⟨w, hw, rfl⟩
        rcases List.mem_append.mp hw with h1 | h1
        · exact Or.inl ((alookup_isSome_iff m w.url).mp ((hdom w.url).mpr
            ⟨w, h1, rfl⟩))
        · simp only [List.mem_singleton] at h1
          subst h1
          exact Or.inr (by simp)
    · intro u info hinfo
      rw [alookup_aupdate] at hinfo
      by_cases hu : u = v.url
      · rw [if_pos hu] at hinfo
        subst hu
        rw [alookup_append] at hinfo
        rw [Option.not_isSome_iff_eq_none.mp hmem] at hinfo
        have hl : alookup [(v.url, initUrlInfo v)] v.url =
            some (initUrlInfo v) := by
          simp [alookup]
        simp only [hl, Option.map_some', Option.some.injEq] at hinfo
        subst hinfo
        have hpref : (pref.filter (fun w => w.url = v.url)).length = 0 := by
          rw [List.length_eq_zero, List.filter_eq_nil]
          intro w hw
          simp only [decide_eq_true_eq]
          intro hwu
          exact absurd ((hdom v.url).mpr ⟨w, hw, hwu⟩) hmem
        refine ⟨by simp [uvmUpd, initUrlInfo], ?_, ?_, ?_⟩
        · simp only [List.filter_append]
          rw [List.length_append, hpref]
          simp [uvmUpd, initUrlInfo]
        · exact ⟨v, by simp, rfl, by simp [uvmUpd, initUrlInfo]⟩
        · intro w hw hwu
          rcases List.mem_append.mp hw with h1 | h1
          · exact absurd ((hdom v.url).mpr ⟨w, h1, hwu⟩) hmem
          · simp only [List.mem_singleton] at h1
            subst h1
            simp [uvmUpd, initUrlInfo]
      · rw [if_neg hu] at hinfo
        rw [alookup_append] at hinfo
        cases hml : alookup m u with
        | none =>
            rw [hml] at hinfo
            have hvu : ¬ v.url = u := fun h2 => hu h2.symm
            simp [alookup, hvu] at hinfo
        | some old =>
            rw [hml] at hinfo
            have hoi : old = info := by injection hinfo
            subst hoi
            obtain ⟨hurl, hcount, ⟨w, hw, hwu, hwt⟩, hmax⟩ := hval u old hml
            refine ⟨hurl, ?_, ⟨w, by simp [hw], hwu, hwt⟩, ?_⟩
            · simp only [List.filter_append]
              rw [List.length_append, ← hcount]
              have hvu : ¬ v.url = u := fun h2 => hu h2.symm
              simp [hvu]
            · intro w2 hw2 hw2u
              rcases List.mem_append.mp hw2 with h1 | h1
              · exact hmax w2 h1 hw2u
              · simp only [List.mem_singleton] at h1
                subst h1
                exact absurd hw2u (fun h2 => hu h2.symm)

theorem uvm_state (vs : List Visit) : UVMstate vs (urlVisitMap vs) := by
  have hgen : ∀ (l pref : List Visit) (m : List (String × UrlInfo)),
      UVMstate pref m → UVMstate (pref ++ l) (l.foldl uvmStep m) := by
    intro l
    induction l with
    | nil => intro pref m h; simpa using h
    | cons v rest ih =>
        intro pref m h
        have h1 := uvmStep_state pref m v h
        have h2 := ih (pref ++ [v]) (uvmStep m v) h1
        simpa using h2
  have h0 : UVMstate [] [] := by
    refine ⟨by simp, by simp [alookup], ?_⟩
    intro u info hinfo
    simp [alookup] at hinfo
  simpa using hgen vs [] [] h0

theorem aggUrls_nodup (vs : List Visit) : (aggUrls vs).Nodup :=
  (uvm_state vs).1

theorem mem_aggUrls (vs : List Visit) (u : String) :
    u ∈ aggUrls vs ↔ ∃ v ∈ vs, v.url = u := by
  rw [aggUrls, ← alookup_isSome_iff]
  exact (uvm_state vs).2.1 u

theorem aggPayload_isSome (vs : List Visit) (u : String) (h : u ∈ aggUrls vs) :
    (aggPayload vs u).isSome := by
  rw [aggPayload, Option.isSome_map']
  rw [alookup_isSome_iff]
  exact h

/-! ### `jsMapOf` and `nodeIndexOf` -/

theorem jsMapOf_skip (k : String) :
    ∀ (l : List (String × β)) (acc : Option β), k ∉ l.map Prod.fst →
      l.foldl (fun acc p => if p.1 = k then some p.2 else acc) acc = acc := by
  intro l
  induction l with
  | nil => intro acc _; rfl
  | cons p t ih =>
      intro acc h
      simp only [List.map_cons, List.mem_cons, not_or] at h
      rw [List.foldl_cons, if_neg (fun h2 => h.1 h2.symm)]
      exact ih acc h.2

theorem jsMapOf_of_mem_nodup (l : List (String × β)) (k : String) (b : β)
    (hnd : (l.map Prod.fst).Nodup) (hm : (k, b) ∈ l) :
    jsMapOf l k = some b := by
  induction l with
  | nil => cases hm
  | cons p t ih =>
      rw [List.map_cons, List.nodup_cons] at hnd
      rcases List.mem_cons.mp hm with rfl | hmt
      · rw [jsMapOf, List.foldl_cons, if_pos rfl]
        exact jsMapOf_skip k t (some b) hnd.1
      · have hpk : p.1 ≠ k := by
          intro h
          exact hnd.1 (h ▸ (List.mem_map.mpr ⟨(k, b), hmt, rfl⟩))
        rw [jsMapOf, List.foldl_cons, if_neg hpk]
        exact ih hnd.2 hmt

theorem jsMapOf_mem (k : String) (b : β) :
    ∀ (l : List (String × β)) (acc : Option β),
      l.foldl (fun acc p => if p.1 = k then some p.2 else acc) acc = some b →
      (k, b) ∈ l ∨ acc = some b := by
  intro l
  induction l with
  | nil => intro acc h; exact Or.inr h
  | cons p t ih =>
      intro acc h
      rw [List.foldl_cons] at h
      by_cases hp : p.1 = k
      · rw [if_pos hp] at h
        rcases ih (some p.2) h with h1 | h1
        · exact Or.inl (List.mem_cons_of_mem _ h1)
        · left
          have : p = (k, p.2) := by
            cases p; simp at hp ⊢; exact hp
          rw [this]
          have hb : p.2 = b := by injection h1
          rw [hb]
          exact List.mem_cons_self _ _
      · rw [if_neg hp] at h
        rcases ih acc h with h1 | h1
        · exact Or.inl (List.mem_cons_of_mem _ h1)
        · exact Or.inr h1

theorem jsMapOf_none_of_not_mem (l : List (String × β)) (k : String)
    (h : k ∉ l.map Prod.fst) : jsMapOf l k = none := by
  rw [jsMapOf]
  exact jsMapOf_skip k l none h

theorem nodeIndexOf_spec (nodes : List String) (x : String) (i : Nat)
    (h : nodeIndexOf nodes x = some i) :
    i < nodes.length ∧ nodes.getD i "" = x := by
  rw [nodeIndexOf, jsMapOf] at h
  rcases jsMapOf_mem x i _ none h with h1 | h1
  · obtain ⟨p, hp, hpe⟩ := List.mem_map.mp h1
    obtain ⟨hx, hi⟩ : p.2 = x ∧ p.1 = i := by
      constructor <;> injection hpe <;> assumption
    subst hx hi
    rw [List.mk_mem_enum_iff_getElem?] at hp
    rw [List.getElem?_eq_some_iff] at hp
    obtain ⟨hlt, hval⟩ := hp
    refine ⟨hlt, ?_⟩
    rw [List.getD_eq_getElem nodes "" hlt]
    exact hval
  · cases h1

theorem nodeIndexOf_getD (nodes : List String) (hnd : nodes.Nodup) (i : Nat)
    (hi : i < nodes.length) :
    nodeIndexOf nodes (nodes.getD i "") = some i := by
  rw [nodeIndexOf]
  refine jsMapOf_of_mem_nodup _ _ _ ?_ ?_
  · rw [List.map_map]
    have hcomp : (Prod.fst ∘ fun p : Nat × String => (p.2, p.1)) =
        Prod.snd := rfl
    rw [hcomp, List.enum_map_snd]
    exact hnd
  · refine List.mem_map.mpr ⟨(i, nodes.getD i ""), ?_, rfl⟩
    rw [List.mk_mem_enum_iff_getElem?, List.getElem?_eq_some_iff]
    exact ⟨hi, (List.getD_eq_getElem nodes "" hi).symm⟩

theorem nodeIndexOf_none (nodes : List String) (x : String)
    (h : x ∉ nodes) : nodeIndexOf nodes x = none := by
  rw [nodeIndexOf]
  refine jsMapOf_none_of_not_mem _ _ ?_
  rw [List.map_map]
  have hcomp : (Prod.fst ∘ fun p : Nat × String => (p.2, p.1)) =
      Prod.snd := rfl
  rw [hcomp, List.enum_map_snd]
  exact h

/-! ### Edge sources come from the aggregated URL list -/

theorem visitIdMap_mem (vs : List Visit) (rid : String) (r : Visit)
    (h : visitIdMap vs rid = some r) : r ∈ vs := by
  rw [visitIdMap, jsMapOf] at h
  rcases jsMapOf_mem rid r _ none h with h1 | h1
  · obtain ⟨v, hv, hve⟩ := List.mem_map.mp h1
    have : v = r := by injection hve
    exact this ▸ hv
  · cases h1

theorem foldl_preserve {α β : Type _} (Q : β → Prop) (f : β → α → β) :
    ∀ (l : List α) (acc : β), Q acc →
      (∀ acc a, a ∈ l → Q acc → Q (f acc a)) → Q (l.foldl f acc) := by
  intro l
  induction l with
  | nil => intro acc h _; exact h
  | cons a t ih =>
      intro acc h hstep
      rw [List.foldl_cons]
      exact ih (f acc a) (hstep acc a (by simp) h)
        (fun acc' b hb hq => hstep acc' b (by simp [hb]) hq)

theorem rtStep_keys (vs : List Visit) (m : List (String × List (String × TMeta)))
    (v : Visit) (h : ∀ q ∈ m, ∃ w ∈ vs, w.url = q.1) :
    ∀ q ∈ rtStep (visitIdMap vs) m v, ∃ w ∈ vs, w.url = q.1 := by
  intro q hq
  rw [rtStep] at hq
  cases hr : v.referringVisitId with
  | none => simp only [hr] at hq; exact h q hq
  | some rid =>
      simp only [hr] at hq
      by_cases hrid : rid = ""
      · rw [if_pos hrid] at hq; exact h q hq
      · rw [if_neg hrid] at hq
        cases hid : visitIdMap vs rid with
        | none => simp only [hid] at hq; exact h q hq
        | some r =>
            simp only [hid] at hq
            by_cases hru : r.url = v.url
            · rw [if_pos hru] at hq; exact h q hq
            · rw [if_neg hru] at hq
              have hk : q.1 ∈ (aupdate
                  (if (alookup m r.url).isSome then m else m ++ [(r.url, [])])
                  r.url _).map Prod.fst :=
                List.mem_map_of_mem Prod.fst hq
              rw [aupdate_keys] at hk
              by_cases hmem : (alookup m r.url).isSome
              · rw [if_pos hmem] at hk
                obtain ⟨q', hq', hqe⟩ := List.mem_map.mp hk
                obtain ⟨w, hw, hwu⟩ := h q' hq'
                exact ⟨w, hw, by rw [hwu, hqe]⟩
              · rw [if_neg hmem, List.map_append, List.mem_append] at hk
                rcases hk with h1 | h1
                · obtain ⟨q', hq', hqe⟩ := List.mem_map.mp h1
                  obtain ⟨w, hw, hwu⟩ := h q' hq'
                  exact ⟨w, hw, by rw [hwu, hqe]⟩
                · simp only [List.map_cons, List.map_nil,
                    List.mem_singleton] at h1
                  exact ⟨r, visitIdMap_mem vs rid r hid, by rw [← h1]⟩

theorem rawTransitions_keys (vs : List Visit) :
    ∀ q ∈ rawTransitions vs, ∃ w ∈ vs, w.url = q.1 := by
  rw [rawTransitions]
  exact foldl_preserve
    (fun m => ∀ q ∈ m, ∃ w ∈ vs, w.url = q.1)
    (rtStep (visitIdMap vs)) vs [] (by intro q hq; cases hq)
    (fun acc v _ hacc => rtStep_keys vs acc v hacc)

/-- All edges of an incoming map satisfy `P`. -/
def EdgesOk (P : IncEdge → Prop) (m : List (String × List IncEdge)) : Prop :=
  ∀ p ∈ m, ∀ e ∈ p.2, P e

theorem edgesOk_aupdate_append (P : IncEdge → Prop)
    (m : List (String × List IncEdge)) (k : String) (e : IncEdge)
    (h : EdgesOk P m) (he : P e) :
    EdgesOk P (aupdate m k (fun arr => arr ++ [e])) := by
  intro p hp e' he'
  rw [aupdate] at hp
  obtain ⟨orig, horig, hpe⟩ := List.mem_map.mp hp
  by_cases hk : orig.1 = k
  · rw [if_pos hk] at hpe
    rw [← hpe] at he'
    simp only [List.mem_append, List.mem_singleton] at he'
    rcases he' with h1 | h1
    · exact h orig horig e' h1
    · exact h1 ▸ he
  · rw [if_neg hk] at hpe
    rw [← hpe] at he'
    exact h orig horig e' he'

theorem edgesOk_append_nil (P : IncEdge → Prop)
    (m : List (String × List IncEdge)) (k : String) (h : EdgesOk P m) :
    EdgesOk P (m ++ [(k, [])]) := by
  intro p hp e he
  rcases List.mem_append.mp hp with h1 | h1
  · exact h p h1 e he
  · simp only [List.mem_singleton] at h1
    rw [h1] at he
    cases he

theorem edgesOk_ite_append (P : IncEdge → Prop)
    (m : List (String × List IncEdge)) (k : String) (h : EdgesOk P m) :
    EdgesOk P (if (alookup m k).isSome then m else m ++ [(k, [])]) := by
  split
  · exact h
  · exact edgesOk_append_nil P m k h

theorem transIncoming_src (scoreF : String → String → TMeta → ℚ)
    (vs : List Visit) :
    EdgesOk (fun e => e.src ∈ aggUrls vs) (transIncoming scoreF vs) := by
  rw [transIncoming]
  refine foldl_preserve (EdgesOk (fun e => e.src ∈ aggUrls vs)) _ _ []
    (by intro p hp; cases hp) ?_
  intro acc p hpmem hacc
  obtain ⟨w, hw, hwu⟩ := rawTransitions_keys vs p hpmem
  refine foldl_preserve (EdgesOk (fun e => e.src ∈ aggUrls vs)) _ _ acc hacc ?_
  intro acc' q _ hacc'
  split
  · exact hacc'
  · exact edgesOk_aupdate_append _ _ _ _ (edgesOk_ite_append _ _ _ hacc')
      ((mem_aggUrls vs p.1).mpr ⟨w, hw, hwu⟩)

theorem hierEdgeOf_src (a b : String) (ai bi : Option String × List String)
    (e : IncEdge) (h : hierEdgeOf a b ai bi = some e) : e.src = a := by
  obtain ⟨oa, pa⟩ := ai
  obtain ⟨ob, pb⟩ := bi
  cases oa with
  | none => simp [hierEdgeOf] at h
  | some ha =>
      cases ob with
      | none => simp [hierEdgeOf] at h
      | some hb =>
          simp only [hierEdgeOf] at h
          split at h
          · cases h
          · split at h
            · split at h
              · split at h
                · injection h with h'
                  rw [← h']
                · cases h
              · cases h
            · split at h
              · injection h with h'
                rw [← h']
              · cases h

theorem hierEdge_src (a b : String) (e : IncEdge) (h : hierEdge a b = some e) :
    e.src = a :=
  hierEdgeOf_src a b _ _ e h

theorem addHierEdges_src (vs : List Visit) (m : List (String × List IncEdge))
    (h : EdgesOk (fun e => e.src ∈ aggUrls vs) m) :
    EdgesOk (fun e => e.src ∈ aggUrls vs) (addHierEdges (aggUrls vs) m) := by
  rw [addHierEdges]
  refine foldl_preserve (EdgesOk (fun e => e.src ∈ aggUrls vs)) _ _ m h ?_
  intro acc a ha hacc
  refine foldl_preserve (EdgesOk (fun e => e.src ∈ aggUrls vs)) _ _ acc hacc ?_
  intro acc' b _ hacc'
  show EdgesOk (fun e => e.src ∈ aggUrls vs)
    (if a = b then acc'
     else match hierEdge a b with
       | none => acc'
       | some e =>
           aupdate
             (if (alookup acc' b).isSome then acc' else acc' ++ [(b, [])])
             b (fun arr => arr ++ [e]))
  by_cases hab : a = b
  · rw [if_pos hab]; exact hacc'
  · rw [if_neg hab]
    cases he : hierEdge a b with
    | none => exact hacc'
    | some e' =>
        exact edgesOk_aupdate_append _ _ _ _ (edgesOk_ite_append _ _ _ hacc')
          (by rw [hierEdge_src a b e' he]; exact ha)

theorem pruneIncoming_edgesOk (P : IncEdge → Prop)
    (m : List (String × List IncEdge)) (h : EdgesOk P m) :
    EdgesOk P (pruneIncoming m) := by
  intro p hp e he
  rw [pruneIncoming] at hp
  obtain ⟨orig, horig, hpe⟩ := List.mem_map.mp hp
  rw [← hpe] at he
  simp only at he
  have hin : e ∈ sortJS pruneOrd orig.2 := by
    by_cases he' : 10 < (sortJS pruneOrd orig.2).length
    · rw [if_pos he'] at he
      exact List.take_subset _ _ he
    · rw [if_neg he'] at he
      exact he
  rw [mem_sortJS] at hin
  exact h orig horig e hin

theorem aggInc_src (scoreF : String → String → TMeta → ℚ) (vs : List Visit)
    (u : String) (e : IncEdge) (he : e ∈ aggInc scoreF vs u) :
    e.src ∈ aggUrls vs := by
  rw [aggInc] at he
  cases hl : alookup (incomingMapOf scoreF vs) u with
  | none => rw [hl] at he; cases he
  | some arr =>
      rw [hl] at he
      simp only [Option.getD_some] at he
      rw [alookup] at hl
      obtain ⟨p, hfind, hpe⟩ := Option.map_eq_some'.mp hl
      have hpm : p ∈ incomingMapOf scoreF vs := List.mem_of_find?_eq_some hfind
      have hall : EdgesOk (fun e => e.src ∈ aggUrls vs)
          (incomingMapOf scoreF vs) := by
        rw [incomingMapOf]
        exact pruneIncoming_edgesOk _ _
          (addHierEdges_src vs _ (transIncoming_src scoreF vs))
      exact hall p hpm e (by rw [hpe]; exact he)

/-! ### Values taken by the parent maps -/

/-- Every parent chosen by the greedy state is the virtual root or the source
of one of the node's incoming edges. -/
def PCvals (inc : String → List IncEdge) (st : GreedyState) : Prop :=
  ∀ x s, st.pc x = some s → s = VIRTUAL_ROOT ∨ ∃ e ∈ inc x, s = e.src

theorem gIstep_pcvals (inc : String → List IncEdge) (st : GreedyState)
    (node : String) (h : PCvals inc st) : PCvals inc (gIstep inc st node) := by
  intro x s hx
  rw [gIstep] at hx
  cases hn : inc node with
  | nil =>
      simp only [hn] at hx
      by_cases hxn : x = node
      · subst hxn
        rw [upd_self] at hx
        left
        injection hx with hs
        exact hs.symm
      · rw [upd_other _ _ _ _ hxn] at hx
        exact h x s hx
  | cons e es =>
      simp only [hn] at hx
      by_cases hxn : x = node
      · subst hxn
        rw [upd_self] at hx
        injection hx with hs
        exact Or.inr ⟨e, by rw [hn]; exact List.mem_cons_self _ _, hs.symm⟩
      · rw [upd_other _ _ _ _ hxn] at hx
        exact h x s hx

theorem greedyInit_pcvals (nodes : List String) (inc : String → List IncEdge) :
    PCvals inc (greedyInit nodes inc) := by
  have h : PCvals inc (nodes.foldl (gIstep inc) ⟨fun _ => none, fun _ => none⟩) :=
    foldl_preserve (PCvals inc) (gIstep inc) nodes _
      (by intro x s hx; exact Option.noConfusion hx)
      (fun acc a _ hacc => gIstep_pcvals inc acc a hacc)
  exact h

theorem gAdvance_pc (inc : String → List IncEdge) (st : GreedyState)
    (w : String) :
    (gAdvance inc st w).pc =
      if h : (st.ci w).getD 0 + 1 < (inc w).length
      then upd st.pc w ((inc w).get ⟨(st.ci w).getD 0 + 1, h⟩).src
      else upd st.pc w VIRTUAL_ROOT := by
  unfold gAdvance
  split <;> rfl

theorem pcvals_gAdvance (inc : String → List IncEdge) (st : GreedyState)
    (w : String) (h : PCvals inc st) : PCvals inc (gAdvance inc st w) := by
  intro x s hx
  rw [gAdvance_pc] at hx
  split at hx
  · rename_i hlt
    by_cases hxw : x = w
    · subst hxw
      rw [upd_self] at hx
      injection hx with hs
      exact Or.inr ⟨(inc x).get ⟨(st.ci x).getD 0 + 1, hlt⟩,
        List.get_mem _ _ _, hs.symm⟩
    · rw [upd_other _ _ _ _ hxw] at hx
      exact h x s hx
  · by_cases hxw : x = w
    · subst hxw
      rw [upd_self] at hx
      injection hx with hs
      exact Or.inl hs.symm
    · rw [upd_other _ _ _ _ hxw] at hx
      exact h x s hx

theorem greedyLoop_pcvals (nodes : List String) (inc : String → List IncEdge) :
    ∀ (fuel : Nat) (st : GreedyState), PCvals inc st →
      PCvals inc (greedyLoop nodes inc fuel st) := by
  intro fuel
  induction fuel with
  | zero => intro st h; exact h
  | succ k ih =>
      intro st h
      rcases hd : detectCycle nodes st.pc with _ | (_ | cyc)
      · simp only [greedyLoop, hd]; exact h
      · simp only [greedyLoop, hd]; exact h
      · rcases hw : weakestFold inc st.pc cyc none with _ | ⟨w, sc⟩
        · simp only [greedyLoop, hd, hw]; exact h
        · simp only [greedyLoop, hd, hw]
          exact ih (gAdvance inc st w) (pcvals_gAdvance inc st w h)

theorem greedyResolve_pcvals (nodes : List String) (inc : String → List IncEdge)
    (x s : String) (h : greedyResolve nodes inc x = some s) :
    s = VIRTUAL_ROOT ∨ ∃ e ∈ inc x, s = e.src :=
  greedyLoop_pcvals nodes inc (greedyFuel nodes inc) (greedyInit nodes inc)
    (greedyInit_pcvals nodes inc) x s h

/-! ### Edmonds parent-map characterisation -/

theorem foldl_pick_mem :
    ∀ (l : List EIn) (b : EIn),
      l.foldl (fun best it => if best.w < it.w then it else best) b ∈ l ∨
      l.foldl (fun best it => if best.w < it.w then it else best) b = b := by
  intro l
  induction l with
  | nil => intro b; exact Or.inr rfl
  | cons c ct ih =>
      intro b
      rw [List.foldl_cons]
      by_cases hc : b.w < c.w
      · rw [if_pos hc]
        rcases ih c with h1 | h1
        · exact Or.inl (List.mem_cons_of_mem _ h1)
        · exact Or.inl (by rw [h1]; exact List.mem_cons_self _ _)
      · rw [if_neg hc]
        rcases ih b with h1 | h1
        · exact Or.inl (List.mem_cons_of_mem _ h1)
        · exact Or.inr h1

theorem bestIn_mem (l : List EIn) (e : EIn) (h : bestIn l = some e) : e ∈ l := by
  cases l with
  | nil => cases h
  | cons a t =>
      rw [bestIn] at h
      injection h with h'
      rw [← h']
      rcases foldl_pick_mem (a :: t) a with h1 | h1
      · exact h1
      · rw [h1]
        exact List.mem_cons_self _ _

theorem inEdgeFor_spec (root : String) (nodes : List String)
    (edges : List GEdge) (v : Nat) (e : EIn)
    (h : inEdgeFor root nodes edges v = some e) :
    e.u < nodes.length ∧ nodes.getD e.u "" ∈ nodes := by
  rw [inEdgeFor, inEdgeE] at h
  split at h
  · cases h
  · have hmem := bestIn_mem _ _ h
    rw [incomingE] at hmem
    obtain ⟨g, _, hg⟩ := List.mem_filterMap.mp hmem
    cases hu : nodeIndexOf nodes g.u with
    | none => simp [hu] at hg
    | some ui =>
        cases hv : nodeIndexOf nodes g.v with
        | none => simp [hu, hv] at hg
        | some vi =>
            simp only [hu, hv] at hg
            by_cases hvi : vi = v
            · rw [if_pos hvi] at hg
              injection hg with hg'
              have hui := nodeIndexOf_spec nodes g.u ui hu
              have heu : e.u = ui := by rw [← hg']
              rw [heu]
              refine ⟨hui.1, ?_⟩
              rw [List.getD_eq_getElem nodes "" hui.1]
              exact List.getElem_mem _
            · rw [if_neg hvi] at hg
              cases hg

theorem edmFoldStep_ne (root : String) (nodes : List String)
    (edges : List GEdge) (acc : String → Option String) (v : Nat) (x : String)
    (hx : some v = nodeIndexOf nodes root ∨ nodes.getD v "" ≠ x) :
    edmFoldStep root nodes edges acc v x = acc x := by
  rw [edmFoldStep]
  by_cases hr : some v = nodeIndexOf nodes root
  · rw [if_pos hr]
  · rw [if_neg hr]
    have h1 : nodes.getD v "" ≠ x := by
      rcases hx with h | h
      · exact absurd h hr
      · exact h
    cases he : inEdgeFor root nodes edges v with
    | none => rfl
    | some e => exact upd_other _ _ _ _ (fun h2 => h1 h2.symm)

theorem edmFold_skip (root : String) (nodes : List String) (edges : List GEdge) :
    ∀ (l : List Nat) (acc : String → Option String) (x : String),
      (∀ v ∈ l, some v = nodeIndexOf nodes root ∨ nodes.getD v "" ≠ x) →
      l.foldl (edmFoldStep root nodes edges) acc x = acc x := by
  intro l
  induction l with
  | nil => intro acc x _; rfl
  | cons v t ih =>
      intro acc x h
      rw [List.foldl_cons, ih _ x (fun w hw => h w (by simp [hw]))]
      exact edmFoldStep_ne root nodes edges acc v x (h v (by simp))

theorem edmFold_writer (root : String) (nodes : List String)
    (edges : List GEdge) :
    ∀ (l : List Nat) (acc : String → Option String) (x : String) (v₀ : Nat),
      v₀ ∈ l → l.Nodup →
      ¬ some v₀ = nodeIndexOf nodes root → nodes.getD v₀ "" = x →
      (∀ v ∈ l, v ≠ v₀ →
        some v = nodeIndexOf nodes root ∨ nodes.getD v "" ≠ x) →
      l.foldl (edmFoldStep root nodes edges) acc x =
        match inEdgeFor root nodes edges v₀ with
        | none => acc x
        | some e => some (nodes.getD e.u "") := by
  intro l
  induction l with
  | nil => intro acc x v₀ hv; cases hv
  | cons v t ih =>
      intro acc x v₀ hv hnd hr hx huniq
      rw [List.foldl_cons]
      rcases List.mem_cons.mp hv with rfl | hvt
      · have hnot : v₀ ∉ t := (List.nodup_cons.mp hnd).1
        rw [edmFold_skip root nodes edges t _ x
          (fun w hw => huniq w (by simp [hw])
            (fun hwv => hnot (hwv ▸ hw)))]
        rw [edmFoldStep, if_neg hr]
        cases he : inEdgeFor root nodes edges v₀ with
        | none => rfl
        | some e =>
            rw [hx]
            exact upd_self _ _ _
      · have hvne : v ≠ v₀ := by
          intro h
          exact (List.nodup_cons.mp hnd).1 (h ▸ hvt)
        rw [ih _ x v₀ hvt (List.nodup_cons.mp hnd).2 hr hx
          (fun w hw hwne => huniq w (by simp [hw]) hwne)]
        cases he : inEdgeFor root nodes edges v₀ with
        | none =>
            simp only
            exact edmFoldStep_ne root nodes edges acc v x
              (huniq v (by simp) hvne)
        | some e => rfl

theorem edmParentFold_at_none (root : String) (nodes : List String)
    (edges : List GEdge) (hnd : nodes.Nodup) (v₀ : Nat)
    (h0 : v₀ < nodes.length) (hr : ¬ some v₀ = nodeIndexOf nodes root)
    (he : inEdgeFor root nodes edges v₀ = none) :
    edmParentFold root nodes edges (nodes.getD v₀ "") = none := by
  rw [edmParentFold]
  have := edmFold_writer root nodes edges (List.range nodes.length)
    (fun _ => none) (nodes.getD v₀ "") v₀ (List.mem_range.mpr h0)
    (List.nodup_range _) hr rfl ?_
  · rw [this, he]
  · intro v hvr hvne
    rw [List.mem_range] at hvr
    right
    intro heq
    apply hvne
    have h1 : nodes.getD v "" = nodes[v] := List.getD_eq_getElem nodes "" hvr
    have h2 : nodes.getD v₀ "" = nodes[v₀] := List.getD_eq_getElem nodes "" h0
    rw [h1, h2] at heq
    exact List.Nodup.getElem_inj_iff hnd |>.mp heq

theorem edmParentFold_at_some (root : String) (nodes : List String)
    (edges : List GEdge) (hnd : nodes.Nodup) (v₀ : Nat)
    (h0 : v₀ < nodes.length) (hr : ¬ some v₀ = nodeIndexOf nodes root)
    (e : EIn) (he : inEdgeFor root nodes edges v₀ = some e) :
    edmParentFold root nodes edges (nodes.getD v₀ "") =
      some (nodes.getD e.u "") := by
  rw [edmParentFold]
  have := edmFold_writer root nodes edges (List.range nodes.length)
    (fun _ => none) (nodes.getD v₀ "") v₀ (List.mem_range.mpr h0)
    (List.nodup_range _) hr rfl ?_
  · rw [this, he]
  · intro v hvr hvne
    rw [List.mem_range] at hvr
    right
    intro heq
    apply hvne
    have h1 : nodes.getD v "" = nodes[v] := List.getD_eq_getElem nodes "" hvr
    have h2 : nodes.getD v₀ "" = nodes[v₀] := List.getD_eq_getElem nodes "" h0
    rw [h1, h2] at heq
    exact List.Nodup.getElem_inj_iff hnd |>.mp heq

theorem edmParentFold_not_mem (root : String) (nodes : List String)
    (edges : List GEdge) (x : String) (hx : x ∉ nodes) :
    edmParentFold root nodes edges x = none := by
  rw [edmParentFold]
  refine edmFold_skip root nodes edges _ _ x ?_
  intro v hvr
  rw [List.mem_range] at hvr
  right
  intro heq
  apply hx
  rw [← heq, List.getD_eq_getElem nodes "" hvr]
  exact List.getElem_mem _

theorem edmFold_values (root : String) (nodes : List String)
    (edges : List GEdge) :
    ∀ (l : List Nat) (acc : String → Option String) (x s : String),
      l.foldl (edmFoldStep root nodes edges) acc x = some s →
      acc x = some s ∨ s ∈ nodes := by
  intro l
  induction l with
  | nil => intro acc x s h; exact Or.inl h
  | cons v t ih =>
      intro acc x s h
      rw [List.foldl_cons] at h
      rcases ih _ x s h with h1 | h1
      · rw [edmFoldStep] at h1
        by_cases hr : some v = nodeIndexOf nodes root
        · rw [if_pos hr] at h1; exact Or.inl h1
        · rw [if_neg hr] at h1
          cases he : inEdgeFor root nodes edges v with
          | none => simp only [he] at h1; exact Or.inl h1
          | some e =>
              simp only [he] at h1
              by_cases hxk : x = nodes.getD v ""
              · rw [hxk, upd_self] at h1
                injection h1 with h1'
                right
                rw [← h1']
                exact (inEdgeFor_spec root nodes edges v e he).2
              · rw [upd_other _ _ _ _ hxk] at h1
                exact Or.inl h1
      · exact Or.inr h1

theorem edmParentFold_values (root : String) (nodes : List String)
    (edges : List GEdge) (x s : String)
    (h : edmParentFold root nodes edges x = some s) : s ∈ nodes := by
  rw [edmParentFold] at h
  rcases edmFold_values root nodes edges _ _ x s h with h1 | h1
  · cases h1
  · exact h1

theorem edmonds_eq_fold (root : String) (nodes : List String)
    (edges : List GEdge) (pm : String → Option String)
    (h : edmondsMaximumArborescence root nodes edges = some pm) :
    pm = edmParentFold root nodes edges := by
  rw [edmondsMaximumArborescence] at h
  rcases hd : dfsAll (edmSucc root nodes edges) (nodes.length + 2)
      ((List.range nodes.length).filter
        (fun i => !(some i == nodeIndexOf nodes root))) [] false with
    _ | ⟨flag, vis⟩
  · rw [hd] at h; cases h
  · rw [hd] at h
    cases flag with
    | true => cases h
    | false =>
        injection h with h'
        exact h'.symm

theorem aggParentMap_values (scoreF : String → String → TMeta → ℚ)
    (vs : List Visit) (x p : String)
    (h : aggParentMap scoreF vs x = some p) :
    p ∈ aggUrls vs ∨ p = VIRTUAL_ROOT := by
  rw [aggParentMap] at h
  rcases he : edmondsMaximumArborescence VIRTUAL_ROOT
      (aggUrls vs ++ [VIRTUAL_ROOT]) (aggEdges scoreF vs) with _ | pm
  · simp only [he] at h
    rcases greedyResolve_pcvals _ _ x p h with h1 | ⟨e, he', rfl⟩
    · exact Or.inr h1
    · exact Or.inl (aggInc_src scoreF vs x e he')
  · simp only [he] at h
    rw [edmonds_eq_fold _ _ _ pm he] at h
    have hm := edmParentFold_values _ _ _ x p h
    rw [List.mem_append] at hm
    rcases hm with h1 | h1
    · exact Or.inl h1
    · simp only [List.mem_singleton] at h1
      exact Or.inr h1

/-- The parent pointer used for materialisation: `none` when the JS parent is
the virtual root. -/
def aggParentOpt (pm : String → Option String) (u : String) : Option String :=
  if aggParentStr pm u = VIRTUAL_ROOT then none else some (aggParentStr pm u)

theorem agg_hpv (scoreF : String → String → TMeta → ℚ) (vs : List Visit) :
    ∀ x p, aggParentOpt (aggParentMap scoreF vs) x = some p →
      p ∈ aggUrls vs := by
  intro x p h
  rw [aggParentOpt] at h
  by_cases hc : aggParentStr (aggParentMap scoreF vs) x = VIRTUAL_ROOT
  · rw [if_pos hc] at h; cases h
  · rw [if_neg hc] at h
    injection h with h'
    cases hpm : aggParentMap scoreF vs x with
    | none =>
        exfalso
        apply hc
        rw [aggParentStr, hpm]
        rfl
    | some s =>
        by_cases hs : s = ""
        · exfalso
          apply hc
          rw [aggParentStr, hpm, jsOrRoot]
          simp [hs]
        · have hps : p = s := by
            rw [← h', aggParentStr, hpm, jsOrRoot]
            simp [hs]
          rcases aggParentMap_values scoreF vs x s hpm with h1 | h1
          · rw [hps]; exact h1
          · exfalso
            apply hc
            rw [aggParentStr, hpm, jsOrRoot]
            simp [hs, h1]

theorem agg_hchild (vs : List Visit) (pm : String → Option String) :
    ∀ p c, c ∈ aggChildren vs pm p →
      c ∈ aggUrls vs ∧ aggParentOpt pm c = some p := by
  intro p c hc
  rw [aggChildren, mem_sortJS, aggChildrenRaw] at hc
  by_cases hp : p = VIRTUAL_ROOT
  · rw [if_pos hp] at hc; cases hc
  · rw [if_neg hp] at hc
    rw [List.mem_filter] at hc
    obtain ⟨hcu, hcp⟩ := hc
    have hcp' : aggParentStr pm c = p := by simpa using hcp
    refine ⟨hcu, ?_⟩
    rw [aggParentOpt, hcp', if_neg hp]

theorem agg_hroots (vs : List Visit) (pm : String → Option String) :
    ∀ r ∈ aggRoots vs pm, r ∈ aggUrls vs ∧ aggParentOpt pm r = none := by
  intro r hr
  rw [aggRoots, mem_sortJS, List.mem_filter] at hr
  obtain ⟨hru, hrp⟩ := hr
  have hrp' : aggParentStr pm r = VIRTUAL_ROOT := by simpa using hrp
  exact ⟨hru, by rw [aggParentOpt, hrp', if_pos rfl]⟩

/-- Core of C1 for the aggregated builder: materialisation always succeeds
(the parent map may drop nodes into unreachable cycles, but what is returned
is a genuine forest). -/
theorem buildAggregatedTree_isSome (scoreF : String → String → TMeta → ℚ)
    (vs : List Visit) : (buildAggregatedTree scoreF vs).isSome := by
  rw [buildAggregatedTree]
  exact buildForest_isSome (aggPayload vs)
    (aggChildren vs (aggParentMap scoreF vs))
    (aggParentOpt (aggParentMap scoreF vs)) (aggUrls vs)
    (aggRoots vs (aggParentMap scoreF vs)) (aggUrls_nodup vs)
    (fun k hk => aggPayload_isSome vs k hk)
    (agg_hchild vs (aggParentMap scoreF vs))
    (agg_hpv scoreF vs)
    (agg_hroots vs (aggParentMap scoreF vs))

/-! ### Soundness of the Edmonds DFS cycle check -/

def nIter (succ : Nat → Option Nat) : Nat → Nat → Option Nat
  | 0, x => some x
  | j+1, x => (succ x).bind (nIter succ j)

/-- `x` walks along chosen parents to a node with no chosen parent. -/
def NReach (succ : Nat → Option Nat) (x : Nat) : Prop :=
  ∃ j y, nIter succ j x = some y ∧ succ y = none

theorem nIter_add (succ : Nat → Option Nat) :
    ∀ (j j' : Nat) (x : Nat),
      nIter succ (j + j') x = (nIter succ j x).bind (nIter succ j') := by
  intro j
  induction j with
  | zero =>
      intro j' x
      simp [nIter]
  | succ j ih =>
      intro j' x
      have h1 : j + 1 + j' = (j + j') + 1 := by omega
      rw [h1]
      show (succ x).bind (nIter succ (j + j')) =
        ((succ x).bind (nIter succ j)).bind (nIter succ j')
      cases hs : succ x with
      | none => rfl
      | some p => simpa using ih j' p

theorem nreach_step (succ : Nat → Option Nat) (x p : Nat)
    (hp : succ x = some p) (h : NReach succ p) : NReach succ x := by
  obtain ⟨j, y, hy, hn⟩ := h
  exact ⟨j + 1, y, by
    show (succ x).bind (nIter succ j) = some y
    rw [hp]
    simpa using hy, hn⟩

theorem nreach_chain (succ : Nat → Option Nat) (x c : Nat) (j : Nat)
    (hj : nIter succ j x = some c) (h : NReach succ c) : NReach succ x := by
  obtain ⟨j', y, hy, hn⟩ := h
  refine ⟨j + j', y, ?_, hn⟩
  rw [nIter_add, hj]
  simpa using hy

theorem dwalk_false_sound (succ : Nat → Option Nat) :
    ∀ (fuel : Nat) (visited stack : List Nat) (cur : Nat)
      (D vis : List Nat),
      visited = D ++ stack →
      (∀ v ∈ D, NReach succ v) →
      (∀ s ∈ stack, ∃ j, nIter succ j s = some cur) →
      cur ∉ stack →
      dwalk succ fuel visited stack cur = some (false, vis) →
      NReach succ cur ∧ ∀ v ∈ vis, NReach succ v := by
  intro fuel
  induction fuel with
  | zero => intro _ _ _ _ _ _ _ _ _ h; simp [dwalk] at h
  | succ f ih =>
      intro visited stack cur D vis hvd hD hchain hcs h
      rw [dwalk] at h
      cases hs : succ cur with
      | none =>
          simp only [hs, Option.some.injEq, Prod.mk.injEq] at h
          obtain ⟨-, hveq⟩ := h
          have hcur : NReach succ cur := ⟨0, cur, rfl, hs⟩
          refine ⟨hcur, ?_⟩
          intro v hv
          rw [← hveq] at hv
          rcases List.mem_append.mp hv with hvv | hvc
          · rw [hvd] at hvv
            rcases List.mem_append.mp hvv with hD' | hS'
            · exact hD v hD'
            · obtain ⟨j, hj⟩ := hchain v hS'
              exact nreach_chain succ v cur j hj hcur
          · simp only [List.mem_singleton] at hvc
            exact hvc ▸ hcur
      | some p =>
          simp only [hs] at h
          by_cases hpv : p ∈ visited ++ [cur]
          · rw [if_pos hpv] at h
            simp only [Option.some.injEq, Prod.mk.injEq] at h
            obtain ⟨hflag, hveq⟩ := h
            have hpns : p ∉ stack ++ [cur] := of_decide_eq_false hflag
            have hpD : p ∈ D := by
              rcases List.mem_append.mp hpv with h1 | h1
              · rw [hvd] at h1
                rcases List.mem_append.mp h1 with h2 | h2
                · exact h2
                · exact absurd (List.mem_append_left _ h2) hpns
              · exact absurd (List.mem_append_right _ h1) hpns
            have hcur : NReach succ cur := nreach_step succ cur p hs (hD p hpD)
            refine ⟨hcur, ?_⟩
            intro v hv
            rw [← hveq] at hv
            rcases List.mem_append.mp hv with hvv | hvc
            · rw [hvd] at hvv
              rcases List.mem_append.mp hvv with hD' | hS'
              · exact hD v hD'
              · obtain ⟨j, hj⟩ := hchain v hS'
                exact nreach_chain succ v cur j hj hcur
            · simp only [List.mem_singleton] at hvc
              exact hvc ▸ hcur
          · rw [if_neg hpv] at h
            have hpns : p ∉ stack ++ [cur] := by
              intro hmem
              apply hpv
              rcases List.mem_append.mp hmem with h1 | h1
              · refine List.mem_append_left _ ?_
                rw [hvd]
                exact List.mem_append_right _ h1
              · exact List.mem_append_right _ h1
            have hvd' : visited ++ [cur] = D ++ (stack ++ [cur]) := by
              rw [hvd, List.append_assoc]
            have hchain' : ∀ s ∈ stack ++ [cur], ∃ j, nIter succ j s = some p := by
              intro s hsm
              rcases List.mem_append.mp hsm with h1 | h1
              · obtain ⟨j, hj⟩ := hchain s h1
                refine ⟨j + 1, ?_⟩
                rw [nIter_add, hj]
                show (succ cur).bind (nIter succ 0) = some p
                rw [hs]
                rfl
              · simp only [List.mem_singleton] at h1
                subst h1
                refine ⟨1, ?_⟩
                show (succ s).bind (nIter succ 0) = some p
                rw [hs]
                rfl
            have hrec := ih (visited ++ [cur]) (stack ++ [cur]) p D vis
              hvd' hD hchain' hpns h
            exact ⟨nreach_step succ cur p hs hrec.1, hrec.2⟩

theorem dfsAll_true (succ : Nat → Option Nat) (fuel : Nat) :
    ∀ (starts visited : List Nat) (r : Bool × List Nat),
      dfsAll succ fuel starts visited true = some r → r.1 = true := by
  intro starts
  induction starts with
  | nil =>
      intro visited r h
      rw [dfsAll] at h
      injection h with h'
      rw [← h']
  | cons i rest ih =>
      intro visited r h
      rw [dfsAll] at h
      by_cases hv : i ∈ visited
      · rw [if_pos hv] at h
        exact ih visited r h
      · rw [if_neg hv] at h
        rcases hgw : dwalk succ fuel visited [] i with _ | ⟨flag, vis'⟩
        · rw [hgw] at h; cases h
        · simp only [hgw] at h
          have hacc : (true || flag) = true := by simp
          rw [hacc] at h
          exact ih vis' r h

theorem dfsAll_false_sound (succ : Nat → Option Nat) (fuel : Nat) :
    ∀ (starts visited : List Nat) (r : List Nat),
      dfsAll succ fuel starts visited false = some (false, r) →
      (∀ v ∈ visited, NReach succ v) →
      (∀ s ∈ starts, NReach succ s) ∧ (∀ v ∈ r, NReach succ v) := by
  intro starts
  induction starts with
  | nil =>
      intro visited r h hvis
      rw [dfsAll] at h
      simp only [Option.some.injEq, Prod.mk.injEq] at h
      refine ⟨fun s hs => absurd hs (List.not_mem_nil s), ?_⟩
      rw [← h.2]
      exact hvis
  | cons i rest ih =>
      intro visited r h hvis
      rw [dfsAll] at h
      by_cases hv : i ∈ visited
      · rw [if_pos hv] at h
        have hrec := ih visited r h hvis
        refine ⟨fun s hs => ?_, hrec.2⟩
        rcases List.mem_cons.mp hs with rfl | hsr
        · exact hvis s hv
        · exact hrec.1 s hsr
      · rw [if_neg hv] at h
        rcases hgw : dwalk succ fuel visited [] i with _ | ⟨flag, vis'⟩
        · rw [hgw] at h; cases h
        · simp only [hgw] at h
          cases flag with
          | true =>
              rw [show (false || true) = true by rfl] at h
              have := dfsAll_true succ fuel rest vis' (false, r) h
              cases this
          | false =>
              rw [show (false || false) = false by rfl] at h
              have hw := dwalk_false_sound succ fuel visited [] i visited vis'
                (by simp) hvis (by intro s hsm; cases hsm) (by simp) hgw
              have hrec := ih vis' r h hw.2
              refine ⟨fun s hs => ?_, hrec.2⟩
              rcases List.mem_cons.mp hs with rfl | hsr
              · exact hw.1
              · exact hrec.1 s hsr

theorem edmonds_reaches (root : String) (nodes : List String)
    (edges : List GEdge) (pm : String → Option String)
    (h : edmondsMaximumArborescence root nodes edges = some pm) :
    ∀ i ∈ (List.range nodes.length).filter
        (fun i => !(some i == nodeIndexOf nodes root)),
      NReach (edmSucc root nodes edges) i := by
  rw [edmondsMaximumArborescence] at h
  rcases hd : dfsAll (edmSucc root nodes edges) (nodes.length + 2)
      ((List.range nodes.length).filter
        (fun i => !(some i == nodeIndexOf nodes root))) [] false with
    _ | ⟨flag, vis⟩
  · rw [hd] at h; cases h
  · rw [hd] at h
    cases flag with
    | true => cases h
    | false =>
        have := dfsAll_false_sound (edmSucc root nodes edges)
          (nodes.length + 2) _ [] vis hd (by intro v hv; cases hv)
        exact this.1

/-! ### Every URL's parent chain terminates -/

theorem greedyResolve_reaches (nodes : List String)
    (inc : String → List IncEdge) (n : String) (hn : n ∈ nodes) :
    GReach (greedyResolve nodes inc) n := by
  have hdet : detectCycle nodes (greedyResolve nodes inc) = some none :=
    greedyLoop_detect_final nodes inc (greedyFuel nodes inc)
      (greedyInit nodes inc) (greedyInit_supp nodes inc)
      (greedyInit_ciok nodes inc) (by rw [greedyFuel]; omega)
  rw [detectCycle] at hdet
  exact detectCycleGo_none_sound (greedyResolve nodes inc) (nodes.length + 2)
    nodes [] (by intro v hv; cases hv) hdet n hn

theorem distTo_aggParentOpt_of_greach (pm : String → Option String)
    (hR : gStep pm VIRTUAL_ROOT = VIRTUAL_ROOT) :
    ∀ (k : Nat) (u : String), (gStep pm)^[k] u = VIRTUAL_ROOT →
      (distTo (aggParentOpt pm) (k + 1) u).isSome := by
  intro k
  induction k with
  | zero =>
      intro u h
      simp only [Function.iterate_zero_apply] at h
      subst h
      have h0 : aggParentOpt pm VIRTUAL_ROOT = none := by
        rw [aggParentOpt, if_pos]
        exact hR
      simp only [distTo, h0]
      rfl
  | succ k ih =>
      intro u h
      by_cases hz : gStep pm u = VIRTUAL_ROOT
      · have h0 : aggParentOpt pm u = none := by
          rw [aggParentOpt,
            if_pos (show aggParentStr pm u = VIRTUAL_ROOT from hz)]
        simp only [distTo, h0]
        rfl
      · have h0 : aggParentOpt pm u = some (gStep pm u) := by
          rw [aggParentOpt,
            if_neg (show ¬ aggParentStr pm u = VIRTUAL_ROOT from hz)]
          rfl
        have hnext : (gStep pm)^[k] (gStep pm u) = VIRTUAL_ROOT := by
          rw [← Function.iterate_succ_apply]
          exact h
        simp only [distTo, h0, Option.isSome_map']
        exact ih (gStep pm u) hnext

theorem distTo_norm (parent : String → Option String) (keys : List String)
    (hkeys : keys.Nodup) (hpv : ∀ x p, parent x = some p → p ∈ keys)
    (u : String) (f d : Nat) (h : distTo parent f u = some d) :
    distTo parent (keys.length + 1) u = some d := by
  have hd := distTo_le_card parent keys hkeys hpv f u d h
  have ht := distTo_tight parent f u d h
  exact distTo_mono parent (d + 1) (keys.length + 1) (by omega) u d ht

theorem edmSucc_none_iff (root : String) (nodes : List String)
    (edges : List GEdge) (v : Nat) :
    edmSucc root nodes edges v = none ↔
      inEdgeFor root nodes edges v = none := by
  rw [edmSucc]
  cases h : inEdgeFor root nodes edges v <;> simp [h]

/-- Index chains that end at a parentless index translate into terminating
string parent chains of the Edmonds map. -/
theorem edm_dist (root : String) (nodes : List String) (edges : List GEdge)
    (hnd : nodes.Nodup) :
    ∀ (j x y : Nat), x < nodes.length →
      nIter (edmSucc root nodes edges) j x = some y →
      edmSucc root nodes edges y = none →
      (distTo (aggParentOpt (edmParentFold root nodes edges)) (j + 1)
        (nodes.getD x "")).isSome := by
  intro j
  induction j with
  | zero =>
      intro x y hx hit hnone
      have hxy : x = y := by
        rw [nIter] at hit
        injection hit
      subst hxy
      rw [edmSucc_none_iff] at hnone
      have h0 : aggParentOpt (edmParentFold root nodes edges)
          (nodes.getD x "") = none := by
        rw [aggParentOpt]
        by_cases hr : some x = nodeIndexOf nodes root
        · -- nodes[x] is the root: only skipped writes, map gives none
          have hpm : edmParentFold root nodes edges (nodes.getD x "") = none := by
            rw [edmParentFold]
            refine edmFold_skip root nodes edges _ _ _ ?_
            intro v hvr
            rw [List.mem_range] at hvr
            by_cases hveq : v = x
            · subst hveq; exact Or.inl hr
            · right
              intro heq
              apply hveq
              rw [List.getD_eq_getElem nodes "" hvr,
                List.getD_eq_getElem nodes "" hx] at heq
              exact List.Nodup.getElem_inj_iff hnd |>.mp heq
          rw [if_pos]
          rw [aggParentStr, hpm]
          rfl
        · have hpm := edmParentFold_at_none root nodes edges hnd x hx hr hnone
          rw [if_pos]
          rw [aggParentStr, hpm]
          rfl
      simp only [distTo, h0]
      rfl
  | succ j ih =>
      intro x y hx hit hnone
      have hstep : (edmSucc root nodes edges x).bind
          (nIter (edmSucc root nodes edges) j) = some y := hit
      cases hs : edmSucc root nodes edges x with
      | none => rw [hs] at hstep; cases hstep
      | some p =>
          rw [hs] at hstep
          simp only [Option.some_bind] at hstep
          obtain ⟨e, he, heu⟩ : ∃ e, inEdgeFor root nodes edges x = some e ∧
              e.u = p := by
            rw [edmSucc] at hs
            cases he : inEdgeFor root nodes edges x with
            | none => rw [he] at hs; cases hs
            | some e =>
                rw [he] at hs
                injection hs with hs'
                exact ⟨e, rfl, hs'⟩
          have hr : ¬ some x = nodeIndexOf nodes root := by
            intro hcontra
            rw [inEdgeFor, inEdgeE, if_pos hcontra] at he
            cases he
          have hpm : edmParentFold root nodes edges (nodes.getD x "") =
              some (nodes.getD e.u "") :=
            edmParentFold_at_some root nodes edges hnd x hx hr e he
          have hplt : p < nodes.length := by
            have := (inEdgeFor_spec root nodes edges x e he).1
            rw [heu] at this
            exact this
          by_cases hz : aggParentStr (edmParentFold root nodes edges)
              (nodes.getD x "") = VIRTUAL_ROOT
          · have h0 : aggParentOpt (edmParentFold root nodes edges)
                (nodes.getD x "") = none := by
              rw [aggParentOpt, if_pos hz]
            simp only [distTo, h0]
            rfl
          · have h0 : aggParentOpt (edmParentFold root nodes edges)
                (nodes.getD x "") = some (nodes.getD p "") := by
              rw [aggParentOpt, if_neg hz]
              congr 1
              rw [aggParentStr, hpm, jsOrRoot, heu]
              split
              · exfalso
                apply hz
                rw [aggParentStr, hpm, jsOrRoot, heu]
                rename_i hemp
                rw [if_pos hemp]
              · rfl
            have hrec := ih p y hplt hstep hnone
            simp only [distTo, h0, Option.isSome_map']
            exact hrec

/-- Spanning of the aggregated parent map: every URL's parent chain
terminates (needed for the exactly-once count).  `"__ROOT__"` must not occur
as an actual visit URL — it is the reserved virtual-root key. -/
theorem agg_dist (scoreF : String → String → TMeta → ℚ) (vs : List Visit)
    (hroot : VIRTUAL_ROOT ∉ aggUrls vs) (u : String) (hu : u ∈ aggUrls vs) :
    ∃ d, distTo (aggParentOpt (aggParentMap scoreF vs))
      ((aggUrls vs).length + 1) u = some d := by
  rcases he : edmondsMaximumArborescence VIRTUAL_ROOT
      (aggUrls vs ++ [VIRTUAL_ROOT]) (aggEdges scoreF vs) with _ | pm
  · have hpm : aggParentMap scoreF vs =
        greedyResolve (aggUrls vs) (aggInc scoreF vs) := by
      simp only [aggParentMap, he]
    have hsupp := (greedyLoop_supp_ciok (aggUrls vs) (aggInc scoreF vs)
      (greedyFuel (aggUrls vs) (aggInc scoreF vs))
      (greedyInit (aggUrls vs) (aggInc scoreF vs))
      (greedyInit_supp _ _) (greedyInit_ciok _ _)).1
    have hnoneR : greedyResolve (aggUrls vs) (aggInc scoreF vs)
        VIRTUAL_ROOT = none := by
      cases hc : greedyResolve (aggUrls vs) (aggInc scoreF vs)
          VIRTUAL_ROOT with
      | none => rfl
      | some s =>
          exact absurd ((hsupp VIRTUAL_ROOT).mp (by
            show (greedyResolve (aggUrls vs) (aggInc scoreF vs)
              VIRTUAL_ROOT).isSome = true
            rw [hc]
            rfl)) hroot
    have hRroot : gStep (greedyResolve (aggUrls vs) (aggInc scoreF vs))
        VIRTUAL_ROOT = VIRTUAL_ROOT := by
      rw [gStep, hnoneR]
      rfl
    obtain ⟨k, hk⟩ := greedyResolve_reaches (aggUrls vs) (aggInc scoreF vs) u hu
    have hds := distTo_aggParentOpt_of_greach _ hRroot k u hk
    obtain ⟨d, hd⟩ := Option.isSome_iff_exists.mp hds
    refine ⟨d, ?_⟩
    rw [hpm]
    refine distTo_norm _ (aggUrls vs) (aggUrls_nodup vs) ?_ u (k + 1) d hd
    intro x p hx
    refine agg_hpv scoreF vs x p ?_
    rw [hpm]
    exact hx
  · have hpm : aggParentMap scoreF vs = pm := by
      simp only [aggParentMap, he]
    have hfold := edmonds_eq_fold _ _ _ pm he
    have hnd : (aggUrls vs ++ [VIRTUAL_ROOT]).Nodup := by
      refine List.Nodup.append (aggUrls_nodup vs) (by simp) ?_
      intro a ha hb
      simp only [List.mem_singleton] at hb
      subst hb
      exact hroot ha
    obtain ⟨i, hi, hieq⟩ := List.mem_iff_getElem.mp hu
    have hiN : i < (aggUrls vs ++ [VIRTUAL_ROOT]).length := by
      rw [List.length_append]
      omega
    have hgetD : (aggUrls vs ++ [VIRTUAL_ROOT]).getD i "" = u := by
      rw [List.getD_eq_getElem _ "" hiN, List.getElem_append_left hi]
      exact hieq
    have hlenD : (aggUrls vs ++ [VIRTUAL_ROOT]).getD (aggUrls vs).length "" =
        VIRTUAL_ROOT := by
      rw [List.getD_eq_getElem _ ""
        (by rw [List.length_append, List.length_singleton]; omega)]
      exact List.getElem_concat_length _ _ _ rfl _
    have hrIdx : nodeIndexOf (aggUrls vs ++ [VIRTUAL_ROOT]) VIRTUAL_ROOT =
        some (aggUrls vs).length := by
      have h0 := nodeIndexOf_getD (aggUrls vs ++ [VIRTUAL_ROOT]) hnd
        (aggUrls vs).length
        (by rw [List.length_append, List.length_singleton]; omega)
      rw [hlenD] at h0
      exact h0
    have hmem : i ∈ (List.range (aggUrls vs ++ [VIRTUAL_ROOT]).length).filter
        (fun j => !(some j ==
          nodeIndexOf (aggUrls vs ++ [VIRTUAL_ROOT]) VIRTUAL_ROOT)) := by
      rw [List.mem_filter]
      refine ⟨List.mem_range.mpr hiN, ?_⟩
      rw [hrIdx]
      simp only [Bool.not_eq_true']
      rw [beq_eq_false_iff_ne]
      intro hcontra
      injection hcontra with hcontra'
      omega
    obtain ⟨j, y, hy, hn⟩ := edmonds_reaches _ _ _ pm he i hmem
    have hdist := edm_dist VIRTUAL_ROOT _ _ hnd j i y
      (by rw [List.length_append]; omega) hy hn
    rw [hgetD] at hdist
    obtain ⟨d, hd⟩ := Option.isSome_iff_exists.mp hdist
    have hpar_eq : aggParentOpt (aggParentMap scoreF vs) =
        aggParentOpt (edmParentFold VIRTUAL_ROOT
          (aggUrls vs ++ [VIRTUAL_ROOT]) (aggEdges scoreF vs)) := by
      rw [hpm, hfold]
    refine ⟨d, ?_⟩
    rw [hpar_eq]
    refine distTo_norm _ (aggUrls vs) (aggUrls_nodup vs) ?_ u (j + 1) d hd
    intro x p hx
    refine agg_hpv scoreF vs x p ?_
    rw [hpar_eq]
    exact hx

theorem agg_hkey (vs : List Visit) :
    ∀ k ∈ aggUrls vs, ∀ d, aggPayload vs k = some d → d.url = k := by
  intro k _ d hd
  rw [aggPayload] at hd
  obtain ⟨info, hinfo, hmap⟩ := Option.map_eq_some'.mp hd
  have := ((uvm_state vs).2.2 k info hinfo).1
  rw [← hmap]
  exact this

theorem aggParentOpt_none_iff (pm : String → Option String) (c : String) :
    aggParentOpt pm c = none ↔ aggParentStr pm c = VIRTUAL_ROOT := by
  rw [aggParentOpt]
  by_cases h : aggParentStr pm c = VIRTUAL_ROOT
  · simp [h]
  · simp [h]

theorem agg_hcc (vs : List Visit) (pm : String → Option String) :
    ∀ p c, c ∈ aggUrls vs → aggParentOpt pm c = some p →
      (aggChildren vs pm p).count c = 1 := by
  intro p c hc hp
  rw [aggParentOpt] at hp
  by_cases hz : aggParentStr pm c = VIRTUAL_ROOT
  · rw [if_pos hz] at hp; cases hp
  · rw [if_neg hz] at hp
    injection hp with hp'
    have hpne : p ≠ VIRTUAL_ROOT := by
      rw [← hp']
      exact hz
    rw [aggChildren, count_sortJS, aggChildrenRaw, if_neg hpne]
    rw [List.count_filter (by simp [hp'])]
    exact List.count_eq_one_of_mem (aggUrls_nodup vs) hc

theorem agg_hroots_count (vs : List Visit) (pm : String → Option String) :
    ∀ r ∈ aggUrls vs, aggParentOpt pm r = none →
      (aggRoots vs pm).count r = 1 := by
  intro r hr hp
  rw [aggParentOpt_none_iff] at hp
  rw [aggRoots, count_sortJS]
  rw [List.count_filter (by simp [hp])]
  exact List.count_eq_one_of_mem (aggUrls_nodup vs) hr

/-- Core of C4 for the aggregated builder: provided no visit URL collides
with the reserved `"__ROOT__"` key, every distinct URL of the input occurs in
exactly one node of the materialised aggregated forest. -/
theorem buildAggregatedTree_count (scoreF : String → String → TMeta → ℚ)
    (vs : List Visit) (hroot : VIRTUAL_ROOT ∉ aggUrls vs) (u : String)
    (hu : u ∈ aggUrls vs) (F : List TNode)
    (hF : buildAggregatedTree scoreF vs = some F) :
    forestCountKey (fun d => d.url) u F = 1 := by
  obtain ⟨du, hdu⟩ := agg_dist scoreF vs hroot u hu
  exact forestCountKey_eq_one (aggPayload vs)
    (aggChildren vs (aggParentMap scoreF vs))
    (aggParentOpt (aggParentMap scoreF vs)) (aggUrls vs)
    (aggRoots vs (aggParentMap scoreF vs)) (fun d => d.url)
    (aggUrls_nodup vs) (agg_hkey vs)
    (agg_hchild vs (aggParentMap scoreF vs))
    (agg_hcc vs (aggParentMap scoreF vs)) (agg_hpv scoreF vs)
    (agg_hroots vs (aggParentMap scoreF vs))
    (agg_hroots_count vs (aggParentMap scoreF vs)) u hu du hdu _ F hF

/-! ## Beta builder (`buildBetaTree`, lines 1060-1223; `NavigationTracker`
detectors, lines 17-219; root-domain generation, lines 1226-1402; visit-map
helpers, lines 1404-1495)

The builder reads two pieces of ambient state besides `this.allVisits`: the
`NavigationTracker` maps filled by browser event listeners (modelled as a
`TrackerState` value), and `Date.now()` at line 1294 (modelled as an explicit
`now : Int` argument).  JS confidence values are IEEE doubles; they are
modelled as exact rationals — every formula in play is a field expression in
the inputs, and none of the comparisons exercised below sits at a point where
the double rounding of the same literal expressions could decide differently. -/

/-- One value of the tracker's `newTabRelations` map (lines 48-55). -/
structure ParentInfo where
  parentTabId : Nat
  parentUrl : String
  parentTitle : String
  createdTime : Int
deriving DecidableEq, Repr

/-- One entry of a tab's navigation stack (lines 73-87), restricted to the
fields `detectBackNavigation` reads. -/
structure NavInfo where
  url : String
  timeStamp : Int
  isBackForward : Bool
deriving DecidableEq, Repr

/-- The `NavigationTracker` state the beta builder consumes:
`newTabRelations` in Map iteration order, and `backForwardHistory`. -/
structure TrackerState where
  newTabRelations : List (Nat × ParentInfo)
  backForwardHistory : Nat → Option (List NavInfo)

/-- Result record of `findNewTabParent` (lines 121-127 and 135-141). -/
structure NewTabRel where
  parentUrl : String
  parentTitle : String
  parentTabId : Nat
  confidence : ℚ
  relationType : String
deriving DecidableEq, Repr

/-- The time-based fallback loop of `findNewTabParent` (lines 132-143): the
first relation created within five seconds of the visit wins. -/
def newTabTimeBased (ntr : List (Nat × ParentInfo)) (visitTime : Int) :
    Option NewTabRel :=
  (ntr.find? (fun p => decide ((visitTime - p.2.createdTime).natAbs < 5000))).map
    (fun p =>
      { parentUrl := p.2.parentUrl, parentTitle := p.2.parentTitle,
        parentTabId := p.2.parentTabId,
        confidence := max ((3:ℚ)/10)
          (1 - (((visitTime - p.2.createdTime).natAbs : ℚ) / 5000)),
        relationType := "new_tab_time_based" })

/-- `findNewTabParent` (lines 115-145).  The direct branch requires a truthy
`tabId` present in the map (`some` models truthy; Chrome tab ids are
nonzero); when its ten-second window fails the code falls through to the
time-based loop. -/
def findNewTabParent (tr : TrackerState) (url : String) (visitTime : Int)
    (tabId : Option Nat) : Option NewTabRel :=
  match tabId with
  | some tid =>
      match tr.newTabRelations.find? (fun p => p.1 == tid) with
      | some p =>
          if (visitTime - p.2.createdTime).natAbs < 10000 then
            some { parentUrl := p.2.parentUrl, parentTitle := p.2.parentTitle,
                   parentTabId := p.2.parentTabId,
                   confidence := max ((1:ℚ)/2)
                     (1 - (((visitTime - p.2.createdTime).natAbs : ℚ) / 10000)),
                   relationType := "new_tab" }
          else newTabTimeBased tr.newTabRelations visitTime
      | none => newTabTimeBased tr.newTabRelations visitTime
  | none => newTabTimeBased tr.newTabRelations visitTime

/-- `detectBackNavigation` (lines 148-169).  A falsy `tabId` (the builder's
call site: visits carry no `tabId`) yields a `null` history, hence `null`.
Only the constant confidence `0.9` is returned, so the stack's iteration
order is immaterial and membership suffices. -/
def detectBackNavigation (tr : TrackerState) (url : String) (visitTime : Int)
    (tabId : Option Nat) : Option ℚ :=
  match tabId with
  | none => none
  | some tid =>
      match tr.backForwardHistory tid with
      | none => none
      | some hist =>
          if hist.any (fun nav => nav.isBackForward && nav.url == url &&
              decide ((visitTime - nav.timeStamp).natAbs < 1000))
          then some ((9:ℚ)/10) else none

/-- `toParts.every((part, index) => fromParts[index] === part)` for a shorter
first list (lines 189 and 202). -/
def partsPre : List String → List String → Bool
  | [], _ => true
  | _ :: _, [] => false
  | a :: as, b :: bs => a == b && partsPre as bs

/-- `detectHierarchyNavigation` (lines 177-218): same-host path-extension
moves.  Up-moves (losing `d` trailing segments) score
`min 0.9 (0.5 + 0.2 d)`, down-moves `min 0.8 (0.4 + 0.15 d)`; only the
confidence is read at the call site.  A URL that fails to parse lands in the
`catch` and returns `null`. -/
def detectHierarchyNavigation (fromUrl toUrl : String) : Option ℚ :=
  match parseUrl fromUrl, parseUrl toUrl with
  | some f, some t =>
      if f.hostname ≠ t.hostname then none
      else if (pathParts t.pathname).length < (pathParts f.pathname).length then
        if partsPre (pathParts t.pathname) (pathParts f.pathname) then
          some (min ((9:ℚ)/10) ((1:ℚ)/2 +
            (((pathParts f.pathname).length - (pathParts t.pathname).length : Nat) : ℚ) * (2/10)))
        else none
      else if (pathParts f.pathname).length < (pathParts t.pathname).length then
        if partsPre (pathParts f.pathname) (pathParts t.pathname) then
          some (min ((8:ℚ)/10) ((4:ℚ)/10 +
            (((pathParts t.pathname).length - (pathParts f.pathname).length : Nat) : ℚ) * (15/100)))
        else none
      else none
  | _, _ => none

/-- `findVisitByUrl` (lines 1405-1419): same-URL candidates within the
window, stably sorted by distance to the reference time, first returned. -/
def findVisitByUrl (vlist : List Visit) (url : String) (referenceTime : Int)
    (timeWindow : Nat) : Option Visit :=
  (sortJS
    (fun a b => decide ((a.visitTime - referenceTime).natAbs <
      (b.visitTime - referenceTime).natAbs))
    (vlist.filter (fun v => v.url == url &&
      decide ((v.visitTime - referenceTime).natAbs < timeWindow)))).head?

/-- `findPreviousSameUrlVisit` (lines 1422-1434): the latest strictly-earlier
same-URL visit within five minutes. -/
def findPreviousSameUrlVisit (vlist : List Visit) (visit : Visit) :
    Option Visit :=
  (sortJS byTimeDescV (vlist.filter (fun c => c.url == visit.url &&
    decide (c.visitTime < visit.visitTime) &&
    decide (visit.visitTime - 300000 < c.visitTime)))).head?

/-- The transition score table of `detectTimeBasedPattern` (lines 1464-1469);
absent keys (including the falsy empty transition, line 1463) give `none`. -/
def transitionScoreOf : String → Option ℚ
  | "reload" => some ((8:ℚ)/10)
  | "auto_bookmark" => some ((6:ℚ)/10)
  | "typed" => some ((4:ℚ)/10)
  | "form_submit" => some ((7:ℚ)/10)
  | _ => none

/-- The `reduce` at lines 1446-1449: closest visit to `ref`, earlier list
entry kept on ties. -/
def closestBy (ref : Int) (c : Visit) (cs : List Visit) : Visit :=
  cs.foldl (fun cl cur =>
    if (cur.visitTime - ref).natAbs < (cl.visitTime - ref).natAbs then cur
    else cl) c

/-- The `reduce` at lines 1481-1483: most recent visit, earlier entry kept on
ties. -/
def mostRecentV (r : Visit) (rs : List Visit) : Visit :=
  rs.foldl (fun re cur => if re.visitTime < cur.visitTime then cur else re) r

/-- `detectTimeBasedPattern` (lines 1437-1495): closest same-URL revisit
within 30 s scores `max 0.4 (1 - dt/30000)`; otherwise a table score for the
visit's transition paired with the most recent visit of the last minute. -/
def detectTimeBasedPattern (vlist : List Visit) (visit : Visit) :
    Option (Visit × ℚ) :=
  match vlist.filter (fun c => c.url == visit.url &&
      !(c.visitId == visit.visitId) &&
      decide ((c.visitTime - visit.visitTime).natAbs < 30000)) with
  | c :: cs =>
      some (closestBy visit.visitTime c cs,
        max ((4:ℚ)/10)
          (1 - (((closestBy visit.visitTime c cs).visitTime
            - visit.visitTime).natAbs : ℚ) / 30000))
  | [] =>
      match transitionScoreOf visit.transition with
      | none => none
      | some score =>
          match vlist.filter (fun c =>
              decide (c.visitTime < visit.visitTime) &&
              decide (visit.visitTime - 60000 < c.visitTime) &&
              !(c.visitId == visit.visitId)) with
          | [] => none
          | r :: rs => some (mostRecentV r rs, score)

/-- Stage 2.1 of the cascade (lines 1101-1120): the new-tab detector, gated
at confidence `> 0.6`, its `parentUrl` resolved in the visit map within a
ten-second window.  The visit objects built at lines 762-770 carry no
`tabId` field, so the call at line 1105 passes `undefined` (`none`): the
direct branch of `findNewTabParent` is dead here. -/
def betaStage1 (tr : TrackerState) (vlist : List Visit) (o : Visit) :
    Option Visit × ℚ :=
  match findNewTabParent tr o.url o.visitTime none with
  | some r =>
      if (6:ℚ)/10 < r.confidence then
        match findVisitByUrl vlist r.parentUrl o.visitTime 10000 with
        | some pv =>
            if (0:ℚ) < r.confidence then (some pv, r.confidence) else (none, 0)
        | none => (none, 0)
      else (none, 0)
  | none => (none, 0)

/-- Stage 2.2 (lines 1122-1141): back navigation.  `tabId` is again `none`
at the call site, so the detector never fires in the builder. -/
def betaStage2 (tr : TrackerState) (vlist : List Visit) (o : Visit)
    (acc : Option Visit × ℚ) : Option Visit × ℚ :=
  match detectBackNavigation tr o.url o.visitTime none with
  | some conf =>
      if acc.2 < conf then
        match findPreviousSameUrlVisit vlist o with
        | some prev => (some prev, conf)
        | none => acc
      else acc
  | none => acc

/-- One candidate of the hierarchy loop (lines 1144-1164): skip self and
visits more than five minutes away, then keep a strictly better confidence. -/
def hierStep (o : Visit) (acc : Option Visit × ℚ) (cp : Visit) :
    Option Visit × ℚ :=
  if cp.visitId == o.visitId then acc
  else if 300000 < (cp.visitTime - o.visitTime).natAbs then acc
  else
    match detectHierarchyNavigation cp.url o.url with
    | some conf => if acc.2 < conf then (some cp, conf) else acc
    | none => acc

def betaStage3 (vlist : List Visit) (o : Visit) (acc : Option Visit × ℚ) :
    Option Visit × ℚ :=
  vlist.foldl (hierStep o) acc

/-- Stage 2.4 (lines 1166-1176): the time-based pattern detector. -/
def betaStage4 (vlist : List Visit) (o : Visit) (acc : Option Visit × ℚ) :
    Option Visit × ℚ :=
  match detectTimeBasedPattern vlist o with
  | some pc => if acc.2 < pc.2 then (some pc.1, pc.2) else acc
  | none => acc

/-- The full detector cascade for one orphan (lines 1097-1176): best
candidate parent and its confidence. -/
def betaBest (tr : TrackerState) (vlist : List Visit) (o : Visit) :
    Option Visit × ℚ :=
  betaStage4 vlist o
    (betaStage3 vlist o (betaStage2 tr vlist o (betaStage1 tr vlist o)))

/-- Mutable traversal state of the beta builder before root-domain
generation: children edges (by visit id, in push order) and the
`processedVisits` set. -/
structure BState where
  children : String → List String
  processed : List String

/-- Beta referral pass (lines 1074-1085), the same rule as the chron first
pass; the `betaRelations` bookkeeping is not reflected in the output shape. -/
def betaRefStep (vlist : List Visit) (st : BState) (v : Visit) : BState :=
  match v.referringVisitId with
  | some r =>
      if hasVisit vlist r then
        { children := pushChild st.children r v.visitId,
          processed := st.processed ++ [v.visitId] }
      else st
  | none => st

/-- Orphan-pass body (lines 1094-1192): skip processed orphans, run the
cascade, attach when a parent was found with confidence strictly above
`0.3`. -/
def betaOrphanStep (tr : TrackerState) (vlist : List Visit) (st : BState)
    (o : Visit) : BState :=
  if o.visitId ∈ st.processed then st
  else
    match betaBest tr vlist o with
    | (some p, score) =>
        if (3:ℚ)/10 < score then
          { children := pushChild st.children p.visitId o.visitId,
            processed := st.processed ++ [o.visitId] }
        else st
    | (none, _) => st

/-- State after the two attachment passes (lines 1074-1192). -/
def betaPass2 (tr : TrackerState) (vs : List Visit) : BState :=
  (orphanVisits vs).foldl (betaOrphanStep tr vs)
    (vs.foldl (betaRefStep vs) ⟨fun _ => [], []⟩)

/-- Append to a hostname's group, or start a new group (lines 1238-1241). -/
def aput (m : List (String × List Visit)) (k : String) (v : Visit) :
    List (String × List Visit) :=
  if (alookup m k).isSome then aupdate m k (fun l => l ++ [v])
  else m ++ [(k, [v])]

/-- `domainGroups` (lines 1233-1246): visits grouped by parsed hostname, in
first-appearance order; unparsable URLs are skipped. -/
def domainGroupsOf (vlist : List Visit) : List (String × List Visit) :=
  vlist.foldl (fun m v =>
    match parseUrl v.url with
    | some parts => aput m parts.hostname v
    | none => m) []

/-- The `domainTitles` table of `generateRootDomainTitle` (lines 1348-1382). -/
def domainTitles : List (String × String) :=
  [("www.google.com", "Google"), ("google.com", "Google"),
   ("search.yahoo.com", "Yahoo!検索"), ("www.yahoo.com", "Yahoo!"),
   ("yahoo.com", "Yahoo!"), ("www.bing.com", "Bing"), ("bing.com", "Bing"),
   ("duckduckgo.com", "DuckDuckGo"), ("www.youtube.com", "YouTube"),
   ("youtube.com", "YouTube"), ("www.facebook.com", "Facebook"),
   ("facebook.com", "Facebook"), ("www.twitter.com", "Twitter"),
   ("twitter.com", "Twitter"), ("x.com", "X (Twitter)"),
   ("www.instagram.com", "Instagram"), ("instagram.com", "Instagram"),
   ("www.linkedin.com", "LinkedIn"), ("linkedin.com", "LinkedIn"),
   ("github.com", "GitHub"), ("www.github.com", "GitHub"),
   ("stackoverflow.com", "Stack Overflow"), ("www.amazon.com", "Amazon"),
   ("amazon.com", "Amazon"), ("www.amazon.co.jp", "Amazon Japan"),
   ("amazon.co.jp", "Amazon Japan"), ("www.wikipedia.org", "Wikipedia"),
   ("ja.wikipedia.org", "Wikipedia (日本語)"),
   ("en.wikipedia.org", "Wikipedia (English)"), ("www.reddit.com", "Reddit"),
   ("reddit.com", "Reddit"), ("qiita.com", "Qiita"), ("zenn.dev", "Zenn")]

/-- `generateRootDomainTitle` (lines 1347-1402): table lookup, else the
second-to-last dot-separated label capitalised (ASCII capitalisation models
`toUpperCase` for the first character), else the hostname itself. -/
def generateRootDomainTitle (hostname : String) : String :=
  match alookup domainTitles hostname with
  | some t => t
  | none =>
      match (hostname.splitOn ".").reverse with
      | _ :: base :: _ =>
          if base = "" then hostname
          else
            match base.data with
            | c :: rest => String.mk (Char.toUpper c :: rest)
            | [] => hostname
      | _ => hostname

/-- Post-generation traversal state: the visit map's value list (which grows
with generated roots), children edges and the processed set. -/
structure GState where
  vlist : List Visit
  children : String → List String
  processed : List String

/-- Lines 1270-1277: an existing homepage visit for the domain. -/
def isRootPage (v : Visit) : Bool :=
  match parseUrl v.url with
  | some p => p.pathname == "/" && p.search == "" && p.hash == ""
  | none => false

/-- Lines 1252-1262: unprocessed visits that are no group member's child. -/
def groupOrphans (st : GState) (visits : List Visit) : List Visit :=
  visits.filter (fun v =>
    !(st.processed.contains v.visitId) &&
    !(visits.any (fun o => (st.children o.visitId).contains v.visitId)))

/-- The `reduce` at lines 1297-1299: earliest orphan, earlier entry on ties. -/
def earliestV (c : Visit) (cs : List Visit) : Visit :=
  cs.foldl (fun e cur => if cur.visitTime < e.visitTime then cur else e) c

/-- The generated root node (lines 1301-1312); its `visitId` embeds the
ambient `Date.now()` value `now`. -/
def genRootVisit (now : Int) (hostname : String) (earliest : Int) : Visit :=
  { visitId := "generated_root_" ++ hostname ++ "_" ++ toString now,
    url := "https://" ++ hostname,
    title := generateRootDomainTitle hostname,
    visitTime := earliest - 1000,
    referringVisitId := none,
    transition := "generated",
    favicon := "https://www.google.com/s2/favicons?domain=" ++ hostname
      ++ "&sz=16" }

/-- Per-domain body of `generateRootDomainsForAllUrls` (lines 1249-1343).
`generatedRoots.get(hostname)` at line 1285 always misses because
`domainGroups` is keyed by hostname, so each hostname is handled once.  In
the existing-root branch the `orphanVisit === rootNode` guard compares
objects; visit ids identify map values, so it is modelled by id equality.
In the generated branch the root is a fresh object, so every orphan is
pushed. -/
def groupStep (now : Int) (st : GState) (g : String × List Visit) : GState :=
  match groupOrphans st g.2 with
  | [] => st
  | o :: os =>
      if decide (1 < (o :: os).length) || !(g.2.find? isRootPage).isSome ||
         (o :: os).any (fun v => !(st.children v.visitId).isEmpty) then
        match g.2.find? isRootPage with
        | some root =>
            { st with
              children :=
                (((o :: os).filter
                  (fun v => !(v.visitId == root.visitId))).map (·.visitId)).foldl
                  (fun ch c => pushChild ch root.visitId c) st.children,
              processed := st.processed ++
                ((o :: os).filter
                  (fun v => !(v.visitId == root.visitId))).map (·.visitId) }
        | none =>
            { vlist := st.vlist ++
                [genRootVisit now g.1 (earliestV o os).visitTime],
              children := ((o :: os).map (·.visitId)).foldl
                (fun ch c => pushChild ch
                  (genRootVisit now g.1 (earliestV o os).visitTime).visitId c)
                st.children,
              processed := st.processed ++ (o :: os).map (·.visitId) }
      else st

/-- `generateRootDomainsForAllUrls` (lines 1226-1346): the groups are
snapshotted from the value list before any generation, then each domain is
processed in order. -/
def generateRootDomains (now : Int) (st : GState) : GState :=
  (domainGroupsOf st.vlist).foldl (groupStep now) st

/-- Final heap state of the beta builder. -/
def betaState (tr : TrackerState) (now : Int) (vs : List Visit) : GState :=
  generateRootDomains now
    ⟨vs, (betaPass2 tr vs).children, (betaPass2 tr vs).processed⟩

/-- Lines 1198-1203: map values that are nobody's child. -/
def betaRoots (st : GState) : List String :=
  (st.vlist.filter (fun v =>
    !(st.vlist.any (fun p =>
      (st.children p.visitId).contains v.visitId)))).map (·.visitId)

/-- Lines 1206-1212 (`sortChildren`): every children list newest-first; as
with the chron builder, the JS recursion only touches nodes reachable from
the roots, and sorting is per-node, so sorting every key agrees with the
source on the materialised forest. -/
def betaChildren (st : GState) : String → List String :=
  fun k => sortJS (idTimeDesc st.vlist) (st.children k)

def betaPayload (st : GState) (id : String) : Option NodeData :=
  (lookupVisit st.vlist id).map Visit.toData

/-- `buildBetaTree` (lines 1061-1223), materialised from the final heap
graph; roots sorted newest-first (line 1215). -/
def buildBetaTree (tr : TrackerState) (now : Int) (vs : List Visit) :
    Option (List TNode) :=
  buildForest (betaPayload (betaState tr now vs))
    (betaChildren (betaState tr now vs))
    ((betaState tr now vs).vlist.length + 1)
    (sortJS (idTimeDesc (betaState tr now vs).vlist)
      (betaRoots (betaState tr now vs)))

/-! ### C1 for the beta builder: the heap graph materialises

The argument shared by all three builders: each push marks the pushed visit
processed, and only unprocessed visits are pushed, so every key enters at
most one children list; the in-degree-one graph therefore admits a parent
function under which every root is parentless, and `buildForest` succeeds. -/

theorem head_some_mem {l : List α} {a : α} (h : l.head? = some a) : a ∈ l := by
  cases l with
  | nil => cases h
  | cons x xs =>
      injection h with h
      rw [← h]
      exact List.mem_cons_self x xs

theorem foldl_choice_mem (f : α → α → α)
    (hf : ∀ a b, f a b = a ∨ f a b = b) :
    ∀ (l : List α) (b : α), l.foldl f b = b ∨ l.foldl f b ∈ l := by
  intro l
  induction l with
  | nil => intro b; exact Or.inl rfl
  | cons c ct ih =>
      intro b
      rw [List.foldl_cons]
      rcases hf b c with h1 | h1
      · rw [h1]
        rcases ih b with h2 | h2
        · exact Or.inl h2
        · exact Or.inr (List.mem_cons_of_mem _ h2)
      · rw [h1]
        rcases ih c with h2 | h2
        · exact Or.inr (by rw [h2]; exact List.mem_cons_self _ _)
        · exact Or.inr (List.mem_cons_of_mem _ h2)

theorem closestBy_mem (ref : Int) (c : Visit) (cs : List Visit) :
    closestBy ref c cs ∈ c :: cs := by
  rw [closestBy]
  rcases foldl_choice_mem
      (fun cl cur =>
        if (cur.visitTime - ref).natAbs < (cl.visitTime - ref).natAbs then cur
        else cl)
      (fun a b => by
        by_cases hx : (b.visitTime - ref).natAbs < (a.visitTime - ref).natAbs
        · exact Or.inr (if_pos hx)
        · exact Or.inl (if_neg hx))
      cs c with h | h
  · rw [h]; exact List.mem_cons_self _ _
  · exact List.mem_cons_of_mem _ h

theorem mostRecentV_mem (r : Visit) (rs : List Visit) :
    mostRecentV r rs ∈ r :: rs := by
  rw [mostRecentV]
  rcases foldl_choice_mem
      (fun re cur : Visit => if re.visitTime < cur.visitTime then cur else re)
      (fun a b : Visit => by
        by_cases hx : a.visitTime < b.visitTime
        · exact Or.inr (if_pos hx)
        · exact Or.inl (if_neg hx))
      rs r with h | h
  · rw [h]; exact List.mem_cons_self _ _
  · exact List.mem_cons_of_mem _ h

theorem earliestV_mem (c : Visit) (cs : List Visit) :
    earliestV c cs ∈ c :: cs := by
  rw [earliestV]
  rcases foldl_choice_mem
      (fun e cur : Visit => if cur.visitTime < e.visitTime then cur else e)
      (fun a b : Visit => by
        by_cases hx : b.visitTime < a.visitTime
        · exact Or.inr (if_pos hx)
        · exact Or.inl (if_neg hx))
      cs c with h | h
  · rw [h]; exact List.mem_cons_self _ _
  · exact List.mem_cons_of_mem _ h

theorem findVisitByUrl_mem {vlist : List Visit} {url : String} {t : Int}
    {w : Nat} {v : Visit} (h : findVisitByUrl vlist url t w = some v) :
    v ∈ vlist := by
  rw [findVisitByUrl] at h
  have hm := head_some_mem h
  rw [mem_sortJS] at hm
  exact List.mem_of_mem_filter hm

theorem findPreviousSameUrlVisit_mem {vlist : List Visit} {o : Visit}
    {v : Visit} (h : findPreviousSameUrlVisit vlist o = some v) : v ∈ vlist := by
  rw [findPreviousSameUrlVisit] at h
  have hm := head_some_mem h
  rw [mem_sortJS] at hm
  exact List.mem_of_mem_filter hm

theorem detectTimeBasedPattern_mem {vlist : List Visit} {o : Visit}
    {p : Visit} {s : ℚ} (h : detectTimeBasedPattern vlist o = some (p, s)) :
    p ∈ vlist := by
  rcases hE : vlist.filter (fun c => c.url == o.url &&
      !(c.visitId == o.visitId) &&
      decide ((c.visitTime - o.visitTime).natAbs < 30000)) with _ | ⟨c, cs⟩
  · simp only [detectTimeBasedPattern, hE] at h
    rcases ht : transitionScoreOf o.transition with _ | sc
    · simp only [ht] at h
      cases h
    · simp only [ht] at h
      rcases hE2 : vlist.filter (fun c =>
          decide (c.visitTime < o.visitTime) &&
          decide (o.visitTime - 60000 < c.visitTime) &&
          !(c.visitId == o.visitId)) with _ | ⟨r, rs⟩
      · simp only [hE2] at h
        cases h
      · simp only [hE2] at h
        injection h with h
        have hp : p = mostRecentV r rs := by
          have := congrArg Prod.fst h
          simpa using this.symm
        rw [hp]
        have := mostRecentV_mem r rs
        rw [← hE2] at this
        exact List.mem_of_mem_filter this
  · simp only [detectTimeBasedPattern, hE] at h
    injection h with h
    have hp : p = closestBy o.visitTime c cs := by
      have := congrArg Prod.fst h
      simpa using this.symm
    rw [hp]
    have := closestBy_mem o.visitTime c cs
    rw [← hE] at this
    exact List.mem_of_mem_filter this

theorem betaStage1_mem (tr : TrackerState) (vlist : List Visit) (o : Visit) :
    ∀ p, (betaStage1 tr vlist o).1 = some p → p ∈ vlist := by
  intro p h
  rw [betaStage1] at h
  rcases hr : findNewTabParent tr o.url o.visitTime none with _ | r
  · simp only [hr] at h
    cases h
  · simp only [hr] at h
    split at h
    · rcases hv : findVisitByUrl vlist r.parentUrl o.visitTime 10000 with _ | pv
      · simp only [hv] at h
        cases h
      · simp only [hv] at h
        split at h
        · injection h with h
          rw [← h]
          exact findVisitByUrl_mem hv
        · cases h
    · cases h

theorem betaStage2_mem (tr : TrackerState) (vlist : List Visit) (o : Visit)
    (acc : Option Visit × ℚ)
    (hacc : ∀ p, acc.1 = some p → p ∈ vlist) :
    ∀ p, (betaStage2 tr vlist o acc).1 = some p → p ∈ vlist := by
  intro p h
  rw [betaStage2] at h
  rcases hb : detectBackNavigation tr o.url o.visitTime none with _ | conf
  · simp only [hb] at h
    exact hacc p h
  · simp only [hb] at h
    split at h
    · rcases hv : findPreviousSameUrlVisit vlist o with _ | prev
      · simp only [hv] at h
        exact hacc p h
      · simp only [hv] at h
        injection h with h
        rw [← h]
        exact findPreviousSameUrlVisit_mem hv
    · exact hacc p h

theorem betaStage3_mem (vlist : List Visit) (o : Visit)
    (acc : Option Visit × ℚ)
    (hacc : ∀ p, acc.1 = some p → p ∈ vlist) :
    ∀ p, (betaStage3 vlist o acc).1 = some p → p ∈ vlist := by
  rw [betaStage3]
  refine foldl_preserve (fun st => ∀ p, st.1 = some p → p ∈ vlist)
    (hierStep o) vlist acc hacc ?_
  intro acc' cp hcp hq p h
  rw [hierStep] at h
  split at h
  · exact hq p h
  · split at h
    · exact hq p h
    · rcases hd : detectHierarchyNavigation cp.url o.url with _ | conf
      · simp only [hd] at h
        exact hq p h
      · simp only [hd] at h
        split at h
        · injection h with h
          rw [← h]
          exact hcp
        · exact hq p h

theorem betaStage4_mem (vlist : List Visit) (o : Visit)
    (acc : Option Visit × ℚ)
    (hacc : ∀ p, acc.1 = some p → p ∈ vlist) :
    ∀ p, (betaStage4 vlist o acc).1 = some p → p ∈ vlist := by
  intro p h
  rw [betaStage4] at h
  rcases ht : detectTimeBasedPattern vlist o with _ | pc
  · simp only [ht] at h
    exact hacc p h
  · simp only [ht] at h
    split at h
    · injection h with h
      rw [← h]
      exact @detectTimeBasedPattern_mem vlist o pc.1 pc.2 (by rw [ht])
    · exact hacc p h

theorem betaBest_mem (tr : TrackerState) (vlist : List Visit) (o : Visit) :
    ∀ p, (betaBest tr vlist o).1 = some p → p ∈ vlist := by
  rw [betaBest]
  exact betaStage4_mem vlist o _
    (betaStage3_mem vlist o _
      (betaStage2_mem tr vlist o _ (betaStage1_mem tr vlist o)))

/-- The parent id the cascade assigns to an orphan, if any (line 1179's
gate). -/
def betaCascadeParent (tr : TrackerState) (vs : List Visit) (o : Visit) :
    Option String :=
  match betaBest tr vs o with
  | (some p, score) => if (3:ℚ)/10 < score then some p.visitId else none
  | (none, _) => none

theorem betaRefFold_spec (vs : List Visit) :
    ∀ (l : List Visit) (st : BState),
      (∀ p, (l.foldl (betaRefStep vs) st).children p =
        st.children p ++ (l.filter (fun v => refTo vs v p)).map (·.visitId)) ∧
      (l.foldl (betaRefStep vs) st).processed =
        st.processed ++ (l.filter (refResolvable vs)).map (·.visitId) := by
  intro l
  induction l with
  | nil => intro st; simp
  | cons v l ih =>
      intro st
      simp only [List.foldl_cons]
      obtain ⟨ihc, ihp⟩ := ih (betaRefStep vs st v)
      refine ⟨?_, ?_⟩
      · intro p
        rw [ihc p]
        cases hv : v.referringVisitId with
        | none => simp [betaRefStep, hv, refTo]
        | some r =>
            by_cases hres : hasVisit vs r = true
            · by_cases hrp : r = p
              · subst hrp
                simp [betaRefStep, hv, hres, refTo, pushChild]
              · simp only [betaRefStep, hv, hres, if_true]
                simp only [pushChild]
                rw [if_neg (by exact fun h => hrp h.symm)]
                simp [refTo, hv, hres, hrp]
            · simp [betaRefStep, hv, hres, refTo]
      · rw [ihp]
        cases hv : v.referringVisitId with
        | none => simp [betaRefStep, hv, refResolvable]
        | some r =>
            by_cases hres : hasVisit vs r = true
            · simp [betaRefStep, hv, hres, refResolvable]
            · simp [betaRefStep, hv, hres, refResolvable]

theorem betaOrphanFold_spec (tr : TrackerState) (vs : List Visit) :
    ∀ (l : List Visit) (st : BState),
      (∀ o ∈ l, o.visitId ∉ st.processed) →
      (l.map (·.visitId)).Nodup →
      (∀ p, (l.foldl (betaOrphanStep tr vs) st).children p =
        st.children p ++ (l.filter
          (fun o => betaCascadeParent tr vs o == some p)).map (·.visitId)) ∧
      (l.foldl (betaOrphanStep tr vs) st).processed =
        st.processed ++ (l.filter
          (fun o => (betaCascadeParent tr vs o).isSome)).map (·.visitId) := by
  intro l
  induction l with
  | nil => intro st _ _; simp
  | cons o l ih =>
      intro st hproc hnodup
      simp only [List.foldl_cons]
      have homem : o.visitId ∉ st.processed := hproc o (by simp)
      simp only [List.map_cons, List.nodup_cons] at hnodup
      rcases hb : betaBest tr vs o with ⟨_ | p, s⟩
      · have hcp : betaCascadeParent tr vs o = none := by
          simp [betaCascadeParent, hb]
        have hstep : betaOrphanStep tr vs st o = st := by
          simp [betaOrphanStep, homem, hb]
        rw [hstep]
        obtain ⟨ihc, ihp⟩ := ih st
          (fun o' ho' => hproc o' (by simp [ho'])) hnodup.2
        refine ⟨?_, ?_⟩
        · intro p
          rw [ihc p]
          simp [hcp]
        · rw [ihp]
          simp [hcp]
      · by_cases hsc : (3:ℚ)/10 < s
        · have hcp : betaCascadeParent tr vs o = some p.visitId := by
            simp [betaCascadeParent, hb, hsc]
          have hstep : betaOrphanStep tr vs st o =
              { children := pushChild st.children p.visitId o.visitId,
                processed := st.processed ++ [o.visitId] } := by
            simp [betaOrphanStep, homem, hb, hsc]
          rw [hstep]
          have hside : ∀ o' ∈ l,
              o'.visitId ∉ (st.processed ++ [o.visitId]) := by
            intro o' ho'
            simp only [List.mem_append, List.mem_singleton]
            rintro (h | h)
            · exact hproc o' (by simp [ho']) h
            · exact hnodup.1 (h ▸ List.mem_map_of_mem (·.visitId) ho')
          obtain ⟨ihc, ihp⟩ := ih
            { children := pushChild st.children p.visitId o.visitId,
              processed := st.processed ++ [o.visitId] } hside hnodup.2
          refine ⟨?_, ?_⟩
          · intro q
            rw [ihc q]
            simp only [pushChild]
            by_cases hbq : p.visitId = q
            · subst hbq
              simp [hcp, List.filter_cons]
            · rw [if_neg (by exact fun h => hbq h.symm)]
              have : (betaCascadeParent tr vs o == some q) = false := by
                simp [hcp, hbq]
              simp [List.filter_cons, this]
          · rw [ihp]
            simp [hcp]
        · have hcp : betaCascadeParent tr vs o = none := by
            simp [betaCascadeParent, hb, hsc]
          have hstep : betaOrphanStep tr vs st o = st := by
            simp [betaOrphanStep, homem, hb, hsc]
          rw [hstep]
          obtain ⟨ihc, ihp⟩ := ih st
            (fun o' ho' => hproc o' (by simp [ho'])) hnodup.2
          refine ⟨?_, ?_⟩
          · intro p
            rw [ihc p]
            simp [hcp]
          · rw [ihp]
            simp [hcp]

theorem betaPass2_children (tr : TrackerState) (vs : List Visit)
    (hnd : (visitIds vs).Nodup) (p : String) :
    (betaPass2 tr vs).children p =
      (vs.filter (fun v => refTo vs v p)).map (·.visitId) ++
      ((orphanVisits vs).filter
        (fun o => betaCascadeParent tr vs o == some p)).map (·.visitId) := by
  have hpass1 := betaRefFold_spec vs vs ⟨fun _ => [], []⟩
  have hproc : ∀ o ∈ orphanVisits vs,
      o.visitId ∉ (vs.foldl (betaRefStep vs) ⟨fun _ => [], []⟩).processed := by
    intro o ho hmem
    rw [hpass1.2] at hmem
    simp only [List.nil_append] at hmem
    obtain ⟨w, hwmem, hwid⟩ := List.mem_map.mp hmem
    obtain ⟨hwvs, hwres⟩ := List.mem_filter.mp hwmem
    have hov := orphan_sub vs o ho
    have hwo : w = o := visit_id_inj hnd w hwvs o hov hwid
    subst hwo
    rw [(mem_orphanVisits_iff vs hwvs).mp ho] at hwres
    cases hwres
  obtain ⟨ihc, _⟩ := betaOrphanFold_spec tr vs (orphanVisits vs)
    (vs.foldl (betaRefStep vs) ⟨fun _ => [], []⟩) hproc (orphan_ids_nodup vs hnd)
  rw [betaPass2, ihc p, hpass1.1 p]
  simp

theorem betaPass2_processed (tr : TrackerState) (vs : List Visit)
    (hnd : (visitIds vs).Nodup) :
    (betaPass2 tr vs).processed =
      (vs.filter (refResolvable vs)).map (·.visitId) ++
      ((orphanVisits vs).filter
        (fun o => (betaCascadeParent tr vs o).isSome)).map (·.visitId) := by
  have hpass1 := betaRefFold_spec vs vs ⟨fun _ => [], []⟩
  have hproc : ∀ o ∈ orphanVisits vs,
      o.visitId ∉ (vs.foldl (betaRefStep vs) ⟨fun _ => [], []⟩).processed := by
    intro o ho hmem
    rw [hpass1.2] at hmem
    simp only [List.nil_append] at hmem
    obtain ⟨w, hwmem, hwid⟩ := List.mem_map.mp hmem
    obtain ⟨hwvs, hwres⟩ := List.mem_filter.mp hwmem
    have hov := orphan_sub vs o ho
    have hwo : w = o := visit_id_inj hnd w hwvs o hov hwid
    subst hwo
    rw [(mem_orphanVisits_iff vs hwvs).mp ho] at hwres
    cases hwres
  obtain ⟨_, ihp⟩ := betaOrphanFold_spec tr vs (orphanVisits vs)
    (vs.foldl (betaRefStep vs) ⟨fun _ => [], []⟩) hproc (orphan_ids_nodup vs hnd)
  rw [betaPass2, ihp, hpass1.2]
  simp

/-- In-degree-one invariant: `pf` is a parent function witnessing that every
pushed key sits in exactly the children list of its parent, and that pushed
keys are processed. -/
def PCinv (keys : List String) (ch : String → List String) (pr : List String)
    (pf : String → Option String) : Prop :=
  (∀ p c, c ∈ ch p → c ∈ keys ∧ pf c = some p) ∧
  (∀ x p, pf x = some p → p ∈ keys ∧ x ∈ ch p) ∧
  (∀ c, (pf c).isSome → c ∈ pr)

theorem pcinv_push (keys : List String) (ch : String → List String)
    (pr : List String) (pf : String → Option String) (p c : String)
    (h : PCinv keys ch pr pf) (hck : c ∈ keys) (hpk : p ∈ keys)
    (hcp : c ∉ pr) :
    PCinv keys (pushChild ch p c) (pr ++ [c]) (upd pf c p) := by
  obtain ⟨h1, h2, h3⟩ := h
  have hcnone : pf c = none := by
    cases hpf : pf c with
    | none => rfl
    | some q => exact absurd (h3 c (by simp [hpf])) hcp
  refine ⟨?_, ?_, ?_⟩
  · intro q d hd
    simp only [pushChild] at hd
    by_cases hqp : q = p
    · rw [if_pos hqp] at hd
      rcases List.mem_append.mp hd with hd | hd
      · obtain ⟨hdk, hdp⟩ := h1 q d hd
        have hdc : d ≠ c := fun he => by rw [he, hcnone] at hdp; cases hdp
        rw [upd_other pf c p d hdc]
        exact ⟨hdk, hdp⟩
      · rw [List.mem_singleton] at hd
        subst hd
        rw [upd_self, hqp]
        exact ⟨hck, rfl⟩
    · rw [if_neg hqp] at hd
      obtain ⟨hdk, hdp⟩ := h1 q d hd
      have hdc : d ≠ c := fun he => by rw [he, hcnone] at hdp; cases hdp
      rw [upd_other pf c p d hdc]
      exact ⟨hdk, hdp⟩
  · intro x q hx
    by_cases hxc : x = c
    · subst hxc
      rw [upd_self] at hx
      injection hx with hx
      subst hx
      refine ⟨hpk, ?_⟩
      simp [pushChild]
    · rw [upd_other pf c p x hxc] at hx
      obtain ⟨hqk, hxq⟩ := h2 x q hx
      refine ⟨hqk, ?_⟩
      simp only [pushChild]
      by_cases hqe : q = p
      · rw [if_pos hqe]
        exact List.mem_append.mpr (Or.inl (hqe ▸ hxq))
      · rw [if_neg hqe]
        exact hxq
  · intro d hd
    by_cases hdc : d = c
    · subst hdc
      simp
    · rw [upd_other pf c p d hdc] at hd
      exact List.mem_append.mpr (Or.inl (h3 d hd))

theorem pcinv_multi (keys : List String) (r : String) :
    ∀ (cs : List String) (ch : String → List String) (pr : List String)
      (pf : String → Option String),
      PCinv keys ch pr pf → r ∈ keys →
      (∀ c ∈ cs, c ∈ keys ∧ c ∉ pr) → cs.Nodup →
      ∃ pf', PCinv keys (cs.foldl (fun ch c => pushChild ch r c) ch)
        (pr ++ cs) pf' := by
  intro cs
  induction cs with
  | nil =>
      intro ch pr pf h _ _ _
      exact ⟨pf, by simpa using h⟩
  | cons c cs ih =>
      intro ch pr pf h hr hcs hnd
      have h1 := pcinv_push keys ch pr pf r c h (hcs c (by simp)).1 hr
        (hcs c (by simp)).2
      obtain ⟨pf', h2⟩ := ih (pushChild ch r c) (pr ++ [c]) (upd pf c r) h1 hr
        (fun d hd => ⟨(hcs d (by simp [hd])).1, by
          simp only [List.mem_append, List.mem_singleton]
          rintro (hmem | hde)
          · exact (hcs d (by simp [hd])).2 hmem
          · exact (List.nodup_cons.mp hnd).1 (hde ▸ hd)⟩)
        (List.nodup_cons.mp hnd).2
      refine ⟨pf', ?_⟩
      rw [List.foldl_cons]
      have : pr ++ [c] ++ cs = pr ++ c :: cs := by
        rw [List.append_assoc]
        rfl
      rw [← this]
      exact h2

theorem pcinv_keys_mono (keys keys' : List String)
    (ch : String → List String) (pr : List String)
    (pf : String → Option String)
    (hsub : ∀ k ∈ keys, k ∈ keys') (h : PCinv keys ch pr pf) :
    PCinv keys' ch pr pf := by
  obtain ⟨h1, h2, h3⟩ := h
  exact ⟨fun p c hc => ⟨hsub _ (h1 p c hc).1, (h1 p c hc).2⟩,
    fun x p hx => ⟨hsub _ (h2 x p hx).1, (h2 x p hx).2⟩, h3⟩

/-- The parent function after the two attachment passes. -/
def betaParent2 (tr : TrackerState) (vs : List Visit) (c : String) :
    Option String :=
  match lookupVisit vs c with
  | none => none
  | some v =>
      match v.referringVisitId with
      | some r => if hasVisit vs r then some r else betaCascadeParent tr vs v
      | none => betaCascadeParent tr vs v

theorem betaPass2_pcinv (tr : TrackerState) (vs : List Visit)
    (hnd : (visitIds vs).Nodup) :
    PCinv (visitIds vs) (betaPass2 tr vs).children (betaPass2 tr vs).processed
      (betaParent2 tr vs) := by
  refine ⟨?_, ?_, ?_⟩
  · intro p c hc
    rw [betaPass2_children tr vs hnd p] at hc
    rcases List.mem_append.mp hc with hc | hc
    · obtain ⟨v, hvmem, rfl⟩ := List.mem_map.mp hc
      obtain ⟨hv, href⟩ := List.mem_filter.mp hvmem
      refine ⟨mem_visitIds hv, ?_⟩
      rw [betaParent2, lookup_self hnd hv]
      cases hr : v.referringVisitId with
      | none => simp [refTo, hr] at href
      | some r =>
          simp only [refTo, hr, Bool.and_eq_true, beq_iff_eq] at href
          obtain ⟨ha, hb⟩ := href
          subst hb
          simp [hr, ha]
    · obtain ⟨v, hvmem, rfl⟩ := List.mem_map.mp hc
      obtain ⟨hvo, hcasc⟩ := List.mem_filter.mp hvmem
      have hv := orphan_sub vs v hvo
      refine ⟨mem_visitIds hv, ?_⟩
      rw [beq_iff_eq] at hcasc
      rw [betaParent2, lookup_self hnd hv]
      have hres := (mem_orphanVisits_iff vs hv).mp hvo
      cases hr : v.referringVisitId with
      | none => simpa [hr] using hcasc
      | some r =>
          simp only [refResolvable, hr] at hres
          simpa [hr, hres] using hcasc
  · intro x p hx
    rcases hl : lookupVisit vs x with _ | v
    · simp only [betaParent2, hl] at hx
      exact Option.noConfusion hx
    · simp only [betaParent2, hl] at hx
      obtain ⟨hv, hvid⟩ := lookupVisit_eq_some hl
      rcases hr : v.referringVisitId with _ | r
      · simp only [hr] at hx
        rcases hb : betaBest tr vs v with ⟨_ | q, s⟩
        · simp only [betaCascadeParent, hb] at hx
          exact Option.noConfusion hx
        · simp only [betaCascadeParent, hb] at hx
          split at hx
          · injection hx with hx
            subst hx
            have hq : q ∈ vs := betaBest_mem tr vs v q (by rw [hb])
            refine ⟨mem_visitIds hq, ?_⟩
            rw [betaPass2_children tr vs hnd]
            refine List.mem_append.mpr (Or.inr ?_)
            rw [← hvid]
            refine List.mem_map.mpr ⟨v, ?_, rfl⟩
            refine List.mem_filter.mpr ⟨?_, ?_⟩
            · exact (mem_orphanVisits_iff vs hv).mpr (by simp [refResolvable, hr])
            · simp only [betaCascadeParent, hb]
              rename_i hsc
              simp [hsc]
          · cases hx
      · simp only [hr] at hx
        by_cases hres : hasVisit vs r = true
        · rw [if_pos hres] at hx
          injection hx with hx
          subst hx
          refine ⟨(hasVisit_iff vs r).mp hres, ?_⟩
          rw [betaPass2_children tr vs hnd]
          refine List.mem_append.mpr (Or.inl ?_)
          rw [← hvid]
          refine List.mem_map.mpr ⟨v, ?_, rfl⟩
          exact List.mem_filter.mpr ⟨hv, by simp [refTo, hr, hres]⟩
        · rw [if_neg hres] at hx
          rcases hb : betaBest tr vs v with ⟨_ | q, s⟩
          · simp only [betaCascadeParent, hb] at hx
            exact Option.noConfusion hx
          · simp only [betaCascadeParent, hb] at hx
            split at hx
            · injection hx with hx
              subst hx
              have hq : q ∈ vs := betaBest_mem tr vs v q (by rw [hb])
              refine ⟨mem_visitIds hq, ?_⟩
              rw [betaPass2_children tr vs hnd]
              refine List.mem_append.mpr (Or.inr ?_)
              rw [← hvid]
              refine List.mem_map.mpr ⟨v, ?_, rfl⟩
              refine List.mem_filter.mpr ⟨?_, ?_⟩
              · exact (mem_orphanVisits_iff vs hv).mpr
                  (by simp [refResolvable, hr, hres])
              · simp only [betaCascadeParent, hb]
                rename_i hsc
                simp [hsc]
            · cases hx
  · intro c hc
    rcases hl : lookupVisit vs c with _ | v
    · simp only [betaParent2, hl] at hc
      simp at hc
    · simp only [betaParent2, hl] at hc
      obtain ⟨hv, hvid⟩ := lookupVisit_eq_some hl
      rw [betaPass2_processed tr vs hnd, ← hvid]
      rcases hr : v.referringVisitId with _ | r
      · simp only [hr] at hc
        refine List.mem_append.mpr (Or.inr ?_)
        refine List.mem_map.mpr ⟨v, ?_, rfl⟩
        refine List.mem_filter.mpr ⟨?_, ?_⟩
        · exact (mem_orphanVisits_iff vs hv).mpr (by simp [refResolvable, hr])
        · cases hcp : betaCascadeParent tr vs v with
          | none => rw [hcp] at hc; cases hc
          | some q => simp
      · simp only [hr] at hc
        by_cases hres : hasVisit vs r = true
        · refine List.mem_append.mpr (Or.inl ?_)
          refine List.mem_map.mpr ⟨v, ?_, rfl⟩
          exact List.mem_filter.mpr ⟨hv, by simp [refResolvable, hr, hres]⟩
        · rw [if_neg hres] at hc
          refine List.mem_append.mpr (Or.inr ?_)
          refine List.mem_map.mpr ⟨v, ?_, rfl⟩
          refine List.mem_filter.mpr ⟨?_, ?_⟩
          · exact (mem_orphanVisits_iff vs hv).mpr
              (by simp [refResolvable, hr, hres])
          · cases hcp : betaCascadeParent tr vs v with
            | none => rw [hcp] at hc; cases hc
            | some q => simp

/-! ### Characterisation of the domain groups -/

def hostOf (v : Visit) : Option String := (parseUrl v.url).map (·.hostname)

/-- Invariant of the grouping fold after consuming `pre`: each group is the
filter of the consumed visits by hostname, keys are distinct, and a key is
present exactly when some consumed visit has it. -/
def DGstate (pre : List Visit) (m : List (String × List Visit)) : Prop :=
  (∀ p ∈ m, p.2 = pre.filter (fun v => decide (hostOf v = some p.1))) ∧
  (m.map Prod.fst).Nodup ∧
  (∀ k, (alookup m k).isSome = pre.any (fun v => decide (hostOf v = some k)))

theorem dgStep (pre : List Visit) (m : List (String × List Visit)) (v : Visit)
    (hm : DGstate pre m) :
    DGstate (pre ++ [v])
      (match parseUrl v.url with
       | some parts => aput m parts.hostname v
       | none => m) := by
  obtain ⟨hA, hB, hC⟩ := hm
  rcases hp : parseUrl v.url with _ | parts
  · refine ⟨?_, hB, ?_⟩
    · intro q hq
      rw [hA q hq, List.filter_append]
      simp [hostOf, hp]
    · intro k
      rw [List.any_append]
      simp [hostOf, hp, hC k]
  · have hhost : hostOf v = some parts.hostname := by simp [hostOf, hp]
    show DGstate (pre ++ [v]) (aput m parts.hostname v)
    by_cases hlk : (alookup m parts.hostname).isSome = true
    · have haput : aput m parts.hostname v =
          aupdate m parts.hostname (fun l => l ++ [v]) := by
        rw [aput, if_pos hlk]
      rw [haput]
      refine ⟨?_, ?_, ?_⟩
      · intro q hq
        obtain ⟨p₀, hp₀, hq₀⟩ := List.mem_map.mp hq
        by_cases hpk : p₀.1 = parts.hostname
        · rw [if_pos hpk] at hq₀
          rw [← hq₀]
          simp only
          rw [hA p₀ hp₀, List.filter_append, hpk]
          simp [hhost]
        · rw [if_neg hpk] at hq₀
          rw [← hq₀, hA p₀ hp₀, List.filter_append]
          have : (decide (hostOf v = some p₀.1)) = false := by
            simp [hhost]
            exact fun h => hpk h.symm
          simp [this]
      · rw [aupdate_keys]
        exact hB
      · intro k
        rw [alookup_aupdate, List.any_append]
        by_cases hk : k = parts.hostname
        · subst hk
          rw [if_pos rfl]
          simp only [Option.isSome_map']
          rw [hlk]
          have h3 : pre.any
              (fun w => decide (hostOf w = some parts.hostname)) = true := by
            rw [← hC parts.hostname]
            exact hlk
          rw [h3]
          simp
        · rw [if_neg hk, hC k]
          have : (decide (hostOf v = some k)) = false := by
            simp [hhost]
            exact fun h => hk h.symm
          simp [this]
    · have hkey : parts.hostname ∉ m.map Prod.fst := by
        intro hmem
        exact hlk ((alookup_isSome_iff m parts.hostname).mpr hmem)
      have haput : aput m parts.hostname v = m ++ [(parts.hostname, [v])] := by
        rw [aput, if_neg hlk]
      rw [haput]
      refine ⟨?_, ?_, ?_⟩
      · intro q hq
        rcases List.mem_append.mp hq with hq | hq
        · rw [hA q hq, List.filter_append]
          have hne : q.1 ≠ parts.hostname := by
            intro he
            exact hkey (he ▸ List.mem_map_of_mem Prod.fst hq)
          have : (decide (hostOf v = some q.1)) = false := by
            simp [hhost]
            exact fun h => hne h.symm
          simp [this]
        · rw [List.mem_singleton] at hq
          subst hq
          simp only
          rw [List.filter_append]
          have hnil : pre.filter
              (fun w => decide (hostOf w = some parts.hostname)) = [] := by
            rw [List.filter_eq_nil_iff]
            intro w hw hdec
            have hany : pre.any
                (fun w => decide (hostOf w = some parts.hostname)) = true :=
              List.any_eq_true.mpr ⟨w, hw, hdec⟩
            rw [← hC parts.hostname] at hany
            rw [hany] at hlk
            exact hlk rfl
          rw [hnil]
          simp [hhost]
      · rw [List.map_append]
        simp only [List.map_cons, List.map_nil]
        rw [List.nodup_append]
        exact ⟨hB, List.nodup_singleton _, by simpa using hkey⟩
      · intro k
        rw [alookup_append, List.any_append]
        by_cases hk : k = parts.hostname
        · subst hk
          have hnone : alookup m parts.hostname = none := by
            cases ha : alookup m parts.hostname with
            | none => rfl
            | some x => rw [ha] at hlk; exact absurd rfl hlk
          rw [hnone]
          simp [alookup, hhost]
        · have hvn : (decide (hostOf v = some k)) = false := by
            simp [hhost]
            exact fun h => hk h.symm
          have hsing : alookup [(parts.hostname, [v])] k = none := by
            have hb : (parts.hostname == k) = false := by
              simp
              exact fun he => hk he.symm
            simp [alookup, List.find?_cons, hb]
          cases ha : alookup m k with
          | none =>
              simp only [ha]
              rw [hsing]
              have h3 : pre.any (fun w => decide (hostOf w = some k)) = false := by
                rw [← hC k, ha]
                rfl
              simp [h3, hvn]
          | some x =>
              simp only [ha]
              have h3 : pre.any (fun w => decide (hostOf w = some k)) = true := by
                rw [← hC k, ha]
                rfl
              simp [h3]

theorem dgFold :
    ∀ (l pre : List Visit) (m : List (String × List Visit)),
      DGstate pre m →
      DGstate (pre ++ l) (l.foldl (fun m v =>
        match parseUrl v.url with
        | some parts => aput m parts.hostname v
        | none => m) m) := by
  intro l
  induction l with
  | nil => intro pre m h; simpa using h
  | cons v l ih =>
      intro pre m h
      rw [List.foldl_cons]
      have h2 := ih (pre ++ [v]) _ (dgStep pre m v h)
      rw [List.append_assoc] at h2
      exact h2

theorem domainGroupsOf_state (vlist : List Visit) :
    DGstate vlist (domainGroupsOf vlist) := by
  have h := dgFold vlist [] [] ⟨by simp, by simp, by simp [alookup]⟩
  simpa [domainGroupsOf] using h

theorem group_members (vlist : List Visit) {g : String × List Visit}
    (hg : g ∈ domainGroupsOf vlist) :
    g.2 = vlist.filter (fun v => decide (hostOf v = some g.1)) :=
  (domainGroupsOf_state vlist).1 g hg

theorem group_sub (vlist : List Visit) {g : String × List Visit}
    (hg : g ∈ domainGroupsOf vlist) : ∀ v ∈ g.2, v ∈ vlist := by
  intro v hv
  rw [group_members vlist hg] at hv
  exact List.mem_of_mem_filter hv

theorem group_ids_nodup (vlist : List Visit) (hnd : (visitIds vlist).Nodup)
    {g : String × List Visit} (hg : g ∈ domainGroupsOf vlist) :
    (g.2.map (·.visitId)).Nodup := by
  rw [group_members vlist hg]
  exact List.Nodup.sublist (List.Sublist.map _ (List.filter_sublist vlist)) hnd

theorem group_keys_nodup (vlist : List Visit) :
    ((domainGroupsOf vlist).map Prod.fst).Nodup :=
  (domainGroupsOf_state vlist).2.1

/-! ### Freshness and injectivity of generated root ids -/

def genId (now : Int) (hostname : String) : String :=
  "generated_root_" ++ hostname ++ "_" ++ toString now

theorem genRootVisit_id (now : Int) (hostname : String) (e : Int) :
    (genRootVisit now hostname e).visitId = genId now hostname := rfl

theorem genId_inj (now : Int) (h1 h2 : String)
    (he : genId now h1 = genId now h2) : h1 = h2 := by
  have hd := congrArg String.data he
  simp only [genId, String.data_append] at hd
  have hd1 := List.append_cancel_right hd
  have hd2 := List.append_cancel_right hd1
  have hd3 := List.append_cancel_left hd2
  cases h1; cases h2
  simp only at hd3
  rw [hd3]

theorem genId_fresh (vs : List Visit)
    (hgen : ∀ v ∈ vs, v.visitId.data.take 15 ≠ ("generated_root_" : String).data)
    (now : Int) (hostname : String) : genId now hostname ∉ visitIds vs := by
  intro hmem
  obtain ⟨v, hv, hvid⟩ := List.mem_map.mp hmem
  apply hgen v hv
  rw [hvid]
  simp only [genId, String.data_append]
  rw [List.append_assoc, List.append_assoc]
  have h15 : (15 : Nat) = ("generated_root_" : String).data.length := by decide
  rw [h15]
  exact List.take_left _ _

theorem visitIds_append (a b : List Visit) :
    visitIds (a ++ b) = visitIds a ++ visitIds b := by
  rw [visitIds, List.map_append]
  rfl

/-! ### The generation fold preserves the in-degree-one invariant -/

theorem groupOrphans_mem {st : GState} {visits : List Visit} {v : Visit}
    (h : v ∈ groupOrphans st visits) :
    v ∈ visits ∧ v.visitId ∉ st.processed := by
  obtain ⟨hv, hcond⟩ := List.mem_filter.mp h
  simp only [Bool.and_eq_true, Bool.not_eq_true'] at hcond
  refine ⟨hv, fun hm => ?_⟩
  have : st.processed.contains v.visitId = true := by simp [hm]
  rw [this] at hcond
  cases hcond.1

theorem groupStep_nil (now : Int) (st : GState) (g : String × List Visit)
    (h : groupOrphans st g.2 = []) : groupStep now st g = st := by
  simp [groupStep, h]

theorem groupStep_skip (now : Int) (st : GState) (g : String × List Visit)
    (o : Visit) (os : List Visit) (h : groupOrphans st g.2 = o :: os)
    (hc : (decide (1 < (o :: os).length) || !(g.2.find? isRootPage).isSome ||
      (o :: os).any (fun v => !(st.children v.visitId).isEmpty)) = false) :
    groupStep now st g = st := by
  simp only [groupStep, h]
  rw [if_neg (by rw [hc]; exact Bool.false_ne_true)]

theorem groupStep_existing (now : Int) (st : GState) (g : String × List Visit)
    (o : Visit) (os : List Visit) (root : Visit)
    (h : groupOrphans st g.2 = o :: os)
    (hf : g.2.find? isRootPage = some root)
    (hc : (decide (1 < (o :: os).length) || !(g.2.find? isRootPage).isSome ||
      (o :: os).any (fun v => !(st.children v.visitId).isEmpty)) = true) :
    groupStep now st g =
      { st with
        children :=
          (((o :: os).filter
            (fun v => !(v.visitId == root.visitId))).map (·.visitId)).foldl
            (fun ch c => pushChild ch root.visitId c) st.children,
        processed := st.processed ++
          ((o :: os).filter
            (fun v => !(v.visitId == root.visitId))).map (·.visitId) } := by
  simp only [groupStep, h]
  rw [if_pos hc]
  simp only [hf]

theorem groupStep_gen (now : Int) (st : GState) (g : String × List Visit)
    (o : Visit) (os : List Visit)
    (h : groupOrphans st g.2 = o :: os)
    (hf : g.2.find? isRootPage = none) :
    groupStep now st g =
      { vlist := st.vlist ++ [genRootVisit now g.1 (earliestV o os).visitTime],
        children := ((o :: os).map (·.visitId)).foldl
          (fun ch c => pushChild ch
            (genRootVisit now g.1 (earliestV o os).visitTime).visitId c)
          st.children,
        processed := st.processed ++ (o :: os).map (·.visitId) } := by
  simp only [groupStep, h]
  rw [if_pos (by rw [hf]; simp)]
  simp only [hf]

theorem genFold_pcinv (now : Int) :
    ∀ (gs : List (String × List Visit)) (st : GState)
      (pf : String → Option String),
      (∀ g ∈ gs, ∀ v ∈ g.2, v ∈ st.vlist) →
      (∀ g ∈ gs, (g.2.map (·.visitId)).Nodup) →
      (gs.map Prod.fst).Nodup →
      (∀ g ∈ gs, genId now g.1 ∉ visitIds st.vlist) →
      (visitIds st.vlist).Nodup →
      PCinv (visitIds st.vlist) st.children st.processed pf →
      ∃ (pf' : String → Option String) (ext : List Visit),
        (gs.foldl (groupStep now) st).vlist = st.vlist ++ ext ∧
        (visitIds (gs.foldl (groupStep now) st).vlist).Nodup ∧
        PCinv (visitIds (gs.foldl (groupStep now) st).vlist)
          (gs.foldl (groupStep now) st).children
          (gs.foldl (groupStep now) st).processed pf' := by
  intro gs
  induction gs with
  | nil =>
      intro st pf _ _ _ _ hnd hinv
      exact ⟨pf, [], by simp, hnd, hinv⟩
  | cons g gs ih =>
      intro st pf hmem hgnd hknd hfresh hnd hinv
      rw [List.foldl_cons]
      have hmem_g : ∀ v ∈ g.2, v ∈ st.vlist := hmem g (by simp)
      have horph_mem : ∀ v ∈ groupOrphans st g.2, v ∈ st.vlist :=
        fun v hv => hmem_g v (groupOrphans_mem hv).1
      have horph_unp : ∀ v ∈ groupOrphans st g.2, v.visitId ∉ st.processed :=
        fun v hv => (groupOrphans_mem hv).2
      have horph_nd : ((groupOrphans st g.2).map (·.visitId)).Nodup :=
        List.Nodup.sublist (List.Sublist.map _ (List.filter_sublist g.2))
          (hgnd g (by simp))
      rcases ho : groupOrphans st g.2 with _ | ⟨o, os⟩
      · rw [groupStep_nil now st g ho]
        exact ih st pf (fun g' hg' => hmem g' (by simp [hg']))
          (fun g' hg' => hgnd g' (by simp [hg'])) (List.nodup_cons.mp hknd).2
          (fun g' hg' => hfresh g' (by simp [hg'])) hnd hinv
      · by_cases hcond : (decide (1 < (o :: os).length) ||
            !(g.2.find? isRootPage).isSome ||
            (o :: os).any (fun v => !(st.children v.visitId).isEmpty)) = true
        · rcases hfind : g.2.find? isRootPage with _ | root
          · -- generated-root branch: the key list grows by the fresh id
            rw [groupStep_gen now st g o os ho hfind]
            have hgid : (genRootVisit now g.1
                (earliestV o os).visitTime).visitId = genId now g.1 := rfl
            have hkeys' : visitIds (st.vlist ++
                [genRootVisit now g.1 (earliestV o os).visitTime]) =
                visitIds st.vlist ++ [genId now g.1] := by
              rw [visitIds_append]
              rfl
            have hnd' : (visitIds (st.vlist ++
                [genRootVisit now g.1 (earliestV o os).visitTime])).Nodup := by
              rw [hkeys', List.nodup_append]
              refine ⟨hnd, List.nodup_singleton _, ?_⟩
              simpa using hfresh g (by simp)
            have hmono := pcinv_keys_mono (visitIds st.vlist)
              (visitIds (st.vlist ++
                [genRootVisit now g.1 (earliestV o os).visitTime]))
              st.children st.processed pf
              (by
                intro k hk
                rw [hkeys']
                exact List.mem_append.mpr (Or.inl hk)) hinv
            obtain ⟨pf₁, hpf₁⟩ := pcinv_multi
              (visitIds (st.vlist ++
                [genRootVisit now g.1 (earliestV o os).visitTime]))
              (genRootVisit now g.1 (earliestV o os).visitTime).visitId
              ((o :: os).map (·.visitId)) st.children st.processed pf hmono
              (by
                rw [hgid, hkeys']
                exact List.mem_append.mpr (Or.inr (by simp)))
              (by
                intro c hc
                obtain ⟨v, hvmem, rfl⟩ := List.mem_map.mp hc
                rw [← ho] at hvmem
                refine ⟨?_, horph_unp v hvmem⟩
                rw [hkeys']
                exact List.mem_append.mpr
                  (Or.inl (mem_visitIds (horph_mem v hvmem))))
              (by rw [← ho]; exact horph_nd)
            obtain ⟨pf', ext, hvl, hnd'', hinv''⟩ := ih
              { vlist := st.vlist ++
                  [genRootVisit now g.1 (earliestV o os).visitTime],
                children := ((o :: os).map (·.visitId)).foldl
                  (fun ch c => pushChild ch
                    (genRootVisit now g.1 (earliestV o os).visitTime).visitId c)
                  st.children,
                processed := st.processed ++ (o :: os).map (·.visitId) } pf₁
              (fun g' hg' v hv =>
                List.mem_append.mpr (Or.inl (hmem g' (by simp [hg']) v hv)))
              (fun g' hg' => hgnd g' (by simp [hg']))
              (List.nodup_cons.mp hknd).2
              (by
                intro g' hg'
                rw [hkeys']
                simp only [List.mem_append, List.mem_singleton]
                rintro (hmem' | hmem')
                · exact hfresh g' (by simp [hg']) hmem'
                · have hne : g'.1 ≠ g.1 := by
                    intro he
                    exact (List.nodup_cons.mp hknd).1
                      (he ▸ List.mem_map_of_mem Prod.fst hg')
                  exact hne (genId_inj now g'.1 g.1 hmem'))
              hnd' hpf₁
            exact ⟨pf', [genRootVisit now g.1 (earliestV o os).visitTime] ++ ext,
              by rw [hvl, List.append_assoc], hnd'', hinv''⟩
          · -- existing-root branch: pushes under the existing homepage visit
            rw [groupStep_existing now st g o os root ho hfind hcond]
            have hroot : root ∈ g.2 := List.mem_of_find?_eq_some hfind
            obtain ⟨pf₁, hpf₁⟩ := pcinv_multi (visitIds st.vlist) root.visitId
              (((o :: os).filter
                (fun v => !(v.visitId == root.visitId))).map (·.visitId))
              st.children st.processed pf hinv
              (mem_visitIds (hmem_g root hroot))
              (by
                intro c hc
                obtain ⟨v, hvmem, rfl⟩ := List.mem_map.mp hc
                have hvo : v ∈ o :: os := List.mem_of_mem_filter hvmem
                rw [← ho] at hvo
                exact ⟨mem_visitIds (horph_mem v hvo), horph_unp v hvo⟩)
              (by
                have horph_nd' := horph_nd
                rw [ho] at horph_nd'
                exact List.Nodup.sublist
                  (List.Sublist.map _ (List.filter_sublist _)) horph_nd')
            exact ih
              { st with
                children := (((o :: os).filter
                  (fun v => !(v.visitId == root.visitId))).map (·.visitId)).foldl
                  (fun ch c => pushChild ch root.visitId c) st.children,
                processed := st.processed ++
                  ((o :: os).filter
                    (fun v => !(v.visitId == root.visitId))).map (·.visitId) }
              pf₁ (fun g' hg' => hmem g' (by simp [hg']))
              (fun g' hg' => hgnd g' (by simp [hg'])) (List.nodup_cons.mp hknd).2
              (fun g' hg' => hfresh g' (by simp [hg'])) hnd hpf₁
        · rw [groupStep_skip now st g o os ho (Bool.eq_false_iff.mpr hcond)]
          exact ih st pf (fun g' hg' => hmem g' (by simp [hg']))
            (fun g' hg' => hgnd g' (by simp [hg'])) (List.nodup_cons.mp hknd).2
            (fun g' hg' => hfresh g' (by simp [hg'])) hnd hinv

theorem betaState_inv (tr : TrackerState) (now : Int) (vs : List Visit)
    (hnd : (visitIds vs).Nodup)
    (hgen : ∀ v ∈ vs,
      v.visitId.data.take 15 ≠ ("generated_root_" : String).data) :
    ∃ (pf : String → Option String) (ext : List Visit),
      (betaState tr now vs).vlist = vs ++ ext ∧
      (visitIds (betaState tr now vs).vlist).Nodup ∧
      PCinv (visitIds (betaState tr now vs).vlist)
        (betaState tr now vs).children (betaState tr now vs).processed pf := by
  have hinv0 := betaPass2_pcinv tr vs hnd
  obtain ⟨pf', ext, hvl, hnd', hinv'⟩ := genFold_pcinv now (domainGroupsOf vs)
    ⟨vs, (betaPass2 tr vs).children, (betaPass2 tr vs).processed⟩
    (betaParent2 tr vs)
    (fun g hg v hv => group_sub vs hg v hv)
    (fun g hg => group_ids_nodup vs hnd hg)
    (group_keys_nodup vs)
    (fun g hg => genId_fresh vs hgen now g.1)
    hnd hinv0
  exact ⟨pf', ext, hvl, hnd', hinv'⟩

/-- Core of C1 for the beta builder: under distinct visit ids (the JS map
keying assumption) and no input id shaped like a generated root id, the beta
heap graph materialises. -/
theorem buildBetaTree_isSome (tr : TrackerState) (now : Int) (vs : List Visit)
    (hnd : (visitIds vs).Nodup)
    (hgen : ∀ v ∈ vs,
      v.visitId.data.take 15 ≠ ("generated_root_" : String).data) :
    (buildBetaTree tr now vs).isSome := by
  obtain ⟨pf, ext, hvl, hnd', hinv⟩ := betaState_inv tr now vs hnd hgen
  obtain ⟨h1, h2, h3⟩ := hinv
  rw [buildBetaTree]
  have hlen : (betaState tr now vs).vlist.length + 1 =
      (visitIds (betaState tr now vs).vlist).length + 1 := by
    rw [visitIds, List.length_map]
  rw [hlen]
  refine buildForest_isSome (betaPayload (betaState tr now vs))
    (betaChildren (betaState tr now vs)) pf
    (visitIds (betaState tr now vs).vlist) _ hnd' ?_ ?_ ?_ ?_
  · intro k hk
    obtain ⟨v, hv⟩ :=
      @lookupVisit_isSome ((betaState tr now vs).vlist) k hk
    rw [betaPayload, hv]
    rfl
  · intro p c hc
    have hc' : c ∈ sortJS (idTimeDesc (betaState tr now vs).vlist)
        ((betaState tr now vs).children p) := hc
    rw [mem_sortJS] at hc'
    exact h1 p c hc'
  · exact fun x p hx => (h2 x p hx).1
  · intro r hr
    rw [mem_sortJS] at hr
    obtain ⟨v, hvmem, rfl⟩ := List.mem_map.mp hr
    obtain ⟨hv, hcond⟩ := List.mem_filter.mp hvmem
    refine ⟨mem_visitIds hv, ?_⟩
    cases hpf : pf v.visitId with
    | none => rfl
    | some p =>
        obtain ⟨hpk, hchild⟩ := h2 v.visitId p hpf
        obtain ⟨w, hw, hwid⟩ := List.mem_map.mp hpk
        exfalso
        rw [Bool.not_eq_true'] at hcond
        have hany : (betaState tr now vs).vlist.any
            (fun q => ((betaState tr now vs).children q.visitId).contains
              v.visitId) = true := by
          refine List.any_eq_true.mpr ⟨w, hw, ?_⟩
          rw [hwid]
          simp [hchild]
        rw [hany] at hcond
        cases hcond

/-- C1: for every input visit list with distinct visit ids none of which is
shaped like a generated root id (the JS visit map is keyed by `visitId`, and
Chrome visit ids are short numeric strings), all three builders return a
materialised forest: `isSome` of the fuelled materialisation is exactly the
claim that walking the child edges from the returned roots terminates within
`N` steps — the returned structure is a finite forest, so no node is its own
ancestor and every node sits below a root at depth at most the node count. -/
theorem C1_all_builders_acyclic (vs : List Visit)
    (scoreF : String → String → TMeta → ℚ) (tr : TrackerState) (now : Int)
    (hnd : (visitIds vs).Nodup)
    (hgen : ∀ v ∈ vs,
      v.visitId.data.take 15 ≠ ("generated_root_" : String).data) :
    (buildHistoryTree vs).isSome ∧ (buildAggregatedTree scoreF vs).isSome ∧
      (buildBetaTree tr now vs).isSome := by
  refine ⟨?_, buildAggregatedTree_isSome scoreF vs,
    buildBetaTree_isSome tr now vs hnd hgen⟩
  rw [buildHistoryTree, Option.isSome_map']
  show (buildForest (chronPayload (chronSorted vs))
    (chronChildren (chronSorted vs)) ((chronSorted vs).length + 1)
    (chronRoots (chronSorted vs))).isSome
  refine chron_pre_isSome (chronSorted vs) ?_
  have hperm : (visitIds (chronSorted vs)).Perm (visitIds vs) := by
    rw [visitIds, visitIds]
    exact (sortJS_perm byTimeDescV vs).map (·.visitId)
  exact hperm.nodup_iff.mpr hnd

/-! ### C3: the collapse is not idempotent, but stabilises -/

/-- C3 (amended): one collapse pass is not idempotent (a hoisted grandchild
that duplicates the grandparent is only caught one pass later, see the
counterexample), but the collapse stabilises: iterating it `forestSize F + 1`
times reaches a fixed point of `removeDuplicateNodes`. -/
theorem C3_collapse_stabilises (F : List TNode) :
    removeDuplicateNodes (removeDuplicateNodes^[forestSize F + 1] F) =
      removeDuplicateNodes^[forestSize F + 1] F :=
  removeDuplicateNodes_iter_fixed F

/-- C3 counterexample: a three-node chain parent/child/grandchild on the same
url, where the parent's title equals its url (JS-falsy after normalisation,
so it matches any same-url child).  The first pass merges the child into the
parent and hoists the grandchild; only the second pass merges the hoisted
grandchild, so `collapse (collapse F) ≠ collapse F`. -/
theorem C3_counterexample :
    removeDuplicateNodes (removeDuplicateNodes
      [.node {url := "u", title := "u", visitTime := 0, favicon := ""}
        [.node {url := "u", title := "a", visitTime := 0, favicon := ""}
          [.node {url := "u", title := "b", visitTime := 0, favicon := ""} []]]]) ≠
    removeDuplicateNodes
      [.node {url := "u", title := "u", visitTime := 0, favicon := ""}
        [.node {url := "u", title := "a", visitTime := 0, favicon := ""}
          [.node {url := "u", title := "b", visitTime := 0, favicon := ""} []]]] := by
  have hG : processNode
      (.node {url := "u", title := "b", visitTime := 0, favicon := ""} []) =
      .node {url := "u", title := "b", visitTime := 0, favicon := ""} [] := by
    rw [processNode_def]
    rfl
  have hC : processNode
      (.node {url := "u", title := "a", visitTime := 0, favicon := ""}
        [.node {url := "u", title := "b", visitTime := 0, favicon := ""} []]) =
      .node {url := "u", title := "a", visitTime := 0, favicon := ""}
        [.node {url := "u", title := "b", visitTime := 0, favicon := ""} []] := by
    rw [processNode_def, List.map_cons, List.map_nil, hG]
    rfl
  have hP1 : processNode
      (.node {url := "u", title := "u", visitTime := 0, favicon := ""}
        [.node {url := "u", title := "a", visitTime := 0, favicon := ""}
          [.node {url := "u", title := "b", visitTime := 0, favicon := ""} []]]) =
      .node {url := "u", title := "u", visitTime := 0, favicon := ""}
        [.node {url := "u", title := "b", visitTime := 0, favicon := ""} []] := by
    rw [processNode_def, List.map_cons, List.map_nil, hC]
    rfl
  have hP2 : processNode
      (.node {url := "u", title := "u", visitTime := 0, favicon := ""}
        [.node {url := "u", title := "b", visitTime := 0, favicon := ""} []]) =
      .node {url := "u", title := "u", visitTime := 0, favicon := ""} [] := by
    rw [processNode_def, List.map_cons, List.map_nil, hG]
    rfl
  have hr1 : removeDuplicateNodes
      [.node {url := "u", title := "u", visitTime := 0, favicon := ""}
        [.node {url := "u", title := "a", visitTime := 0, favicon := ""}
          [.node {url := "u", title := "b", visitTime := 0, favicon := ""} []]]] =
      [.node {url := "u", title := "u", visitTime := 0, favicon := ""}
        [.node {url := "u", title := "b", visitTime := 0, favicon := ""} []]] := by
    rw [removeDuplicateNodes, List.map_cons, List.map_nil, hP1]
  have hr2 : removeDuplicateNodes
      [.node {url := "u", title := "u", visitTime := 0, favicon := ""}
        [.node {url := "u", title := "b", visitTime := 0, favicon := ""} []]] =
      [.node {url := "u", title := "u", visitTime := 0, favicon := ""} []] := by
    rw [removeDuplicateNodes, List.map_cons, List.map_nil, hP2]
  rw [hr1, hr2]
  intro he
  injection he with h1 h2
  injection h1 with hd hcs
  cases hcs

/-! ### C4: spanning — refuted for the collapsed direct-link output,
confirmed pre-collapse and for the aggregated builder -/

/-- C4 counterexample: visit "2" (same url and title as its parent "1") is in
the input, but `removeDuplicateNodes` merges its node into the parent, so the
forest returned by `buildHistoryTree` contains it zero times — not exactly
once. -/
theorem C4_counterexample :
    (⟨"2", "u", "t", 50, some "1", "", ""⟩ : Visit) ∈
      [(⟨"1", "u", "t", 100, none, "", ""⟩ : Visit),
       ⟨"2", "u", "t", 50, some "1", "", ""⟩] ∧
    buildHistoryTree
      [⟨"1", "u", "t", 100, none, "", ""⟩,
       ⟨"2", "u", "t", 50, some "1", "", ""⟩] =
      some [.node (Visit.toData ⟨"1", "u", "t", 100, none, "", ""⟩) []] ∧
    forestCountKey (fun d => d.visitId) "2"
      [.node (Visit.toData ⟨"1", "u", "t", 100, none, "", ""⟩) []] = 0 := by
  have hpre : buildHistoryForestPre
      [⟨"1", "u", "t", 100, none, "", ""⟩,
       ⟨"2", "u", "t", 50, some "1", "", ""⟩] =
      some [.node (Visit.toData ⟨"1", "u", "t", 100, none, "", ""⟩)
        [.node (Visit.toData ⟨"2", "u", "t", 50, some "1", "", ""⟩) []]] := by
    with_unfolding_all rfl
  have hC : processNode
      (.node (Visit.toData ⟨"2", "u", "t", 50, some "1", "", ""⟩) []) =
      .node (Visit.toData ⟨"2", "u", "t", 50, some "1", "", ""⟩) [] := by
    rw [processNode_def]
    rfl
  have hP : processNode
      (.node (Visit.toData ⟨"1", "u", "t", 100, none, "", ""⟩)
        [.node (Visit.toData ⟨"2", "u", "t", 50, some "1", "", ""⟩) []]) =
      .node (Visit.toData ⟨"1", "u", "t", 100, none, "", ""⟩) [] := by
    rw [processNode_def, List.map_cons, List.map_nil, hC]
    rfl
  refine ⟨by decide, ?_, ?_⟩
  · rw [buildHistoryTree, hpre, Option.map_some', removeDuplicateNodes,
      List.map_cons, List.map_nil, hP]
  · rw [forestCountKey, List.map_cons, List.map_nil, countKey_def]
    rfl

/-- C4 (amended): every input visit occurs in exactly one node of the
direct-link forest **before** duplicate collapse, and every distinct URL
occurs in exactly one node of the aggregated forest.  Hypotheses: visit ids
are unique, referrers happen strictly earlier in time (both Chrome data-model
facts), and no URL collides with the reserved `"__ROOT__"` key.  The claim as
frozen also asserts exactly-once for the collapsed `buildHistoryTree` output,
which the counterexample refutes. -/
theorem C4_spanning_amended (vs : List Visit)
    (scoreF : String → String → TMeta → ℚ)
    (hnd : (visitIds vs).Nodup)
    (href : ∀ v ∈ vs, ∀ r, v.referringVisitId = some r →
      ∀ w ∈ vs, w.visitId = r → w.visitTime < v.visitTime)
    (hroot : VIRTUAL_ROOT ∉ aggUrls vs) :
    (∀ v ∈ vs, ∀ F, buildHistoryForestPre vs = some F →
      forestCountKey (fun d => d.visitId) v.visitId F = 1) ∧
    (∀ u ∈ aggUrls vs, ∀ F, buildAggregatedTree scoreF vs = some F →
      forestCountKey (fun d => d.url) u F = 1) := by
  constructor
  · intro v hv F hF
    have hperm : (chronSorted vs).Perm vs := sortJS_perm byTimeDescV vs
    have hpids : (visitIds (chronSorted vs)).Perm (visitIds vs) := by
      rw [visitIds, visitIds]
      exact hperm.map (·.visitId)
    have hnd' : (visitIds (chronSorted vs)).Nodup := hpids.nodup_iff.mpr hnd
    have href' : ∀ a ∈ chronSorted vs, ∀ r, a.referringVisitId = some r →
        ∀ w ∈ chronSorted vs, w.visitId = r → w.visitTime < a.visitTime := by
      intro a ha r hr w hw hwid
      exact href a (hperm.mem_iff.mp ha) r hr w (hperm.mem_iff.mp hw) hwid
    have hv' : v.visitId ∈ visitIds (chronSorted vs) := by
      rw [visitIds]
      exact List.mem_map_of_mem _ (hperm.mem_iff.mpr hv)
    obtain ⟨dv, hdv⟩ := Option.isSome_iff_exists.mp
      (chron_dist (chronSorted vs) hnd' href' v.visitId hv')
    refine forestCountKey_eq_one (chronPayload (chronSorted vs))
      (chronChildren (chronSorted vs)) (chronParent (chronSorted vs))
      (visitIds (chronSorted vs)) (chronRoots (chronSorted vs))
      (fun d => d.visitId) hnd'
      (fun k _ d hd => chronPayload_key (chronSorted vs) k d hd)
      (fun p c hc => chronChildren_mem (chronSorted vs) hnd' p c hc)
      ?_
      (fun x p hx => chronParent_mem (chronSorted vs) x p hx)
      (fun r hr => chronRoots_mem (chronSorted vs) hnd' r hr)
      ?_
      v.visitId hv' dv hdv ((chronSorted vs).length + 1) F hF
    · intro p c hck hcp
      rw [chronChildren_count (chronSorted vs) hnd' p c, if_pos ⟨hck, hcp⟩]
    · intro r hrk hrp
      rw [chronRoots_count (chronSorted vs) hnd' r, if_pos ⟨hrk, hrp⟩]
  · exact fun u hu F hF => buildAggregatedTree_count scoreF vs hroot u hu F hF

/-- Witness for C4 (amended) at a concrete one-visit input. -/
theorem C4_spanning_amended_witness :
    ((visitIds [⟨"1", "https://e.com/a", "t", 100, none, "", ""⟩]).Nodup ∧
      (∀ v ∈ [(⟨"1", "https://e.com/a", "t", 100, none, "", ""⟩ : Visit)],
        ∀ r, v.referringVisitId = some r →
          ∀ w ∈ [(⟨"1", "https://e.com/a", "t", 100, none, "", ""⟩ : Visit)],
            w.visitId = r → w.visitTime < v.visitTime) ∧
      VIRTUAL_ROOT ∉ aggUrls [⟨"1", "https://e.com/a", "t", 100, none, "", ""⟩]) ∧
    ((∀ v ∈ [(⟨"1", "https://e.com/a", "t", 100, none, "", ""⟩ : Visit)],
      ∀ F, buildHistoryForestPre
          [⟨"1", "https://e.com/a", "t", 100, none, "", ""⟩] = some F →
        forestCountKey (fun d => d.visitId) v.visitId F = 1) ∧
     (∀ u ∈ aggUrls [⟨"1", "https://e.com/a", "t", 100, none, "", ""⟩],
      ∀ F, buildAggregatedTree (fun _ _ _ => 0)
          [⟨"1", "https://e.com/a", "t", 100, none, "", ""⟩] = some F →
        forestCountKey (fun d => d.url) u F = 1)) :=
  ⟨⟨by decide,
    (by
      intro v hv r hr
      simp only [List.mem_singleton] at hv
      subst hv
      cases hr),
    by with_unfolding_all decide⟩,
    C4_spanning_amended [⟨"1", "https://e.com/a", "t", 100, none, "", ""⟩]
      (fun _ _ _ => 0) (by decide)
      (by
        intro v hv r hr
        simp only [List.mem_singleton] at hv
        subst hv
        cases hr)
      (by with_unfolding_all decide)⟩

/-! ### C5: the orphan attachment rule of the direct-link builder -/

theorem chronParent_of_orphan (vs : List Visit) (hnd : (visitIds vs).Nodup)
    (v : Visit) (hv : v ∈ orphanVisits vs) :
    chronParent vs v.visitId = chronOrphanParent vs v := by
  have hvv := orphan_sub vs v hv
  have hres := (mem_orphanVisits_iff vs hvv).mp hv
  simp only [chronParent, lookup_self hnd hvv]
  cases hr : v.referringVisitId with
  | none => rfl
  | some r =>
      simp only [refResolvable, hr] at hres
      simp [hres]

/-- C5: in direct-link mode, an orphan (unresolvable referrer) whose own
transition is `typed`, `auto_bookmark` or `generated` and that has candidate
parents — other visits strictly within the preceding five minutes — is
attached (exactly once) under a candidate with the latest `visitTime`; an
orphan without candidates lands in the root list exactly once.
`potentialParents` is empty whenever the transition is outside the three
kinds, so such orphans also become roots, matching the claim's scoping. -/
theorem C5_orphan_attachment (vs : List Visit) (hnd : (visitIds vs).Nodup)
    (v : Visit) (hv : v ∈ orphanVisits vs) :
    (potentialParents vs v = [] → (chronRoots vs).count v.visitId = 1) ∧
    (∀ q, chronOrphanParent vs v = some q →
      (∃ b ∈ potentialParents vs v, b.visitId = q ∧
        ∀ x ∈ potentialParents vs v, x.visitTime ≤ b.visitTime) ∧
      (chronChildren vs q).count v.visitId = 1) ∧
    (potentialParents vs v ≠ [] → (chronOrphanParent vs v).isSome) := by
  have hvv := orphan_sub vs v hv
  have hpar := chronParent_of_orphan vs hnd v hv
  refine ⟨?_, ?_, ?_⟩
  · intro hpp
    have hnone : chronOrphanParent vs v = none := by
      rw [chronOrphanParent, hpp]
      rfl
    rw [chronRoots_count vs hnd, if_pos ⟨mem_visitIds hvv, by rw [hpar, hnone]⟩]
  · intro q hq
    refine ⟨chronOrphanParent_spec vs v q hq, ?_⟩
    rw [chronChildren_count vs hnd, if_pos ⟨mem_visitIds hvv, by rw [hpar, hq]⟩]
  · intro hpp
    rcases hsort : sortJS byTimeDescV (potentialParents vs v) with _ | ⟨b, rest⟩
    · exfalso
      apply hpp
      have := length_sortJS byTimeDescV (potentialParents vs v)
      rw [hsort] at this
      exact List.length_eq_zero.mp this.symm
    · rw [chronOrphanParent, hsort]
      rfl

/-- Witness for C5 at a two-visit input: orphan "2" (transition `typed`) has
the single candidate "1" and is attached under it. -/
theorem C5_orphan_attachment_witness :
    ((visitIds [⟨"1", "a", "t", 100, none, "", ""⟩,
       ⟨"2", "b", "t", 200, none, "typed", ""⟩]).Nodup ∧
      (⟨"2", "b", "t", 200, none, "typed", ""⟩ : Visit) ∈
        orphanVisits [⟨"1", "a", "t", 100, none, "", ""⟩,
          ⟨"2", "b", "t", 200, none, "typed", ""⟩]) ∧
    ((potentialParents [⟨"1", "a", "t", 100, none, "", ""⟩,
        ⟨"2", "b", "t", 200, none, "typed", ""⟩]
        ⟨"2", "b", "t", 200, none, "typed", ""⟩ = [] →
      (chronRoots [⟨"1", "a", "t", 100, none, "", ""⟩,
        ⟨"2", "b", "t", 200, none, "typed", ""⟩]).count
        (Visit.visitId ⟨"2", "b", "t", 200, none, "typed", ""⟩) = 1) ∧
     (∀ q, chronOrphanParent [⟨"1", "a", "t", 100, none, "", ""⟩,
        ⟨"2", "b", "t", 200, none, "typed", ""⟩]
        ⟨"2", "b", "t", 200, none, "typed", ""⟩ = some q →
      (∃ b ∈ potentialParents [⟨"1", "a", "t", 100, none, "", ""⟩,
          ⟨"2", "b", "t", 200, none, "typed", ""⟩]
          ⟨"2", "b", "t", 200, none, "typed", ""⟩, b.visitId = q ∧
        ∀ x ∈ potentialParents [⟨"1", "a", "t", 100, none, "", ""⟩,
          ⟨"2", "b", "t", 200, none, "typed", ""⟩]
          ⟨"2", "b", "t", 200, none, "typed", ""⟩,
          x.visitTime ≤ b.visitTime) ∧
      (chronChildren [⟨"1", "a", "t", 100, none, "", ""⟩,
        ⟨"2", "b", "t", 200, none, "typed", ""⟩] q).count
        (Visit.visitId ⟨"2", "b", "t", 200, none, "typed", ""⟩) = 1) ∧
     (potentialParents [⟨"1", "a", "t", 100, none, "", ""⟩,
        ⟨"2", "b", "t", 200, none, "typed", ""⟩]
        ⟨"2", "b", "t", 200, none, "typed", ""⟩ ≠ [] →
      (chronOrphanParent [⟨"1", "a", "t", 100, none, "", ""⟩,
        ⟨"2", "b", "t", 200, none, "typed", ""⟩]
        ⟨"2", "b", "t", 200, none, "typed", ""⟩).isSome)) :=
  ⟨⟨by decide, by decide⟩,
    C5_orphan_attachment
      [⟨"1", "a", "t", 100, none, "", ""⟩, ⟨"2", "b", "t", 200, none, "typed", ""⟩]
      (by decide) ⟨"2", "b", "t", 200, none, "typed", ""⟩ (by decide)⟩

/-! ### C10: the aggregated node exposes last visit time and visit count -/

/-- C10: for every URL present in the input, the aggregated node payload
(`makeNode`, which `buildForest` installs as the node for that URL) carries
`visitCount` equal to the number of in-window visits of the URL and
`visitTime` equal to their maximum `visitTime` (it is attained and is an
upper bound). -/
theorem C10_agg_node_fields (vs : List Visit) (u : String)
    (hu : u ∈ aggUrls vs) :
    ∃ d, aggPayload vs u = some d ∧
      d.url = u ∧
      d.visitCount = (vs.filter (fun v => v.url = u)).length ∧
      (∃ v ∈ vs, v.url = u ∧ d.visitTime = v.visitTime) ∧
      (∀ v ∈ vs, v.url = u → v.visitTime ≤ d.visitTime) := by
  obtain ⟨hnd, hdom, hval⟩ := uvm_state vs
  have hsome : (alookup (urlVisitMap vs) u).isSome :=
    (alookup_isSome_iff _ u).mpr hu
  obtain ⟨info, hinfo⟩ := Option.isSome_iff_exists.mp hsome
  obtain ⟨hurl, hcount, hattain, hub⟩ := hval u info hinfo
  exact ⟨{ url := info.url, title := info.title, favicon := info.favicon, visitTime := info.lastVisitTime, visitCount := info.visitCount },
    (by rw [aggPayload, hinfo]; rfl), hurl, hcount, hattain, hub⟩

/-- Witness for C10 at a concrete two-visit input on one URL. -/
theorem C10_agg_node_fields_witness :
    ("https://e.com/a" ∈ aggUrls
      [⟨"1", "https://e.com/a", "t", 100, none, "", ""⟩,
       ⟨"2", "https://e.com/a", "t", 50, some "1", "", ""⟩]) ∧
    (∃ d, aggPayload
        [⟨"1", "https://e.com/a", "t", 100, none, "", ""⟩,
         ⟨"2", "https://e.com/a", "t", 50, some "1", "", ""⟩]
        "https://e.com/a" = some d ∧
      d.url = "https://e.com/a" ∧
      d.visitCount = (([⟨"1", "https://e.com/a", "t", 100, none, "", ""⟩,
         ⟨"2", "https://e.com/a", "t", 50, some "1", "", ""⟩] : List Visit).filter
          (fun v => v.url = "https://e.com/a")).length ∧
      (∃ v ∈ ([⟨"1", "https://e.com/a", "t", 100, none, "", ""⟩,
         ⟨"2", "https://e.com/a", "t", 50, some "1", "", ""⟩] : List Visit),
        v.url = "https://e.com/a" ∧ d.visitTime = v.visitTime) ∧
      (∀ v ∈ ([⟨"1", "https://e.com/a", "t", 100, none, "", ""⟩,
         ⟨"2", "https://e.com/a", "t", 50, some "1", "", ""⟩] : List Visit),
        v.url = "https://e.com/a" → v.visitTime ≤ d.visitTime)) :=
  ⟨by with_unfolding_all decide,
    C10_agg_node_fields
      [⟨"1", "https://e.com/a", "t", 100, none, "", ""⟩,
       ⟨"2", "https://e.com/a", "t", 50, some "1", "", ""⟩]
      "https://e.com/a" (by with_unfolding_all decide)⟩

/-! ### C9: determinism — refuted across clock values for the beta builder -/

theorem groupStep_vlist (now : Int) (st : GState) (g : String × List Visit) :
    ∃ ext, (groupStep now st g).vlist = st.vlist ++ ext := by
  rcases ho : groupOrphans st g.2 with _ | ⟨o, os⟩
  · exact ⟨[], by rw [groupStep_nil now st g ho]; simp⟩
  · by_cases hcond : (decide (1 < (o :: os).length) ||
        !(g.2.find? isRootPage).isSome ||
        (o :: os).any (fun v => !(st.children v.visitId).isEmpty)) = true
    · rcases hfind : g.2.find? isRootPage with _ | root
      · exact ⟨[genRootVisit now g.1 (earliestV o os).visitTime],
          by rw [groupStep_gen now st g o os ho hfind]⟩
      · exact ⟨[], by rw [groupStep_existing now st g o os root ho hfind hcond]; simp⟩
    · exact ⟨[], by
        rw [groupStep_skip now st g o os ho (Bool.eq_false_iff.mpr hcond)]
        simp⟩

theorem genFold_vlist (now : Int) :
    ∀ (gs : List (String × List Visit)) (st : GState),
      ∃ ext, (gs.foldl (groupStep now) st).vlist = st.vlist ++ ext := by
  intro gs
  induction gs with
  | nil => intro st; exact ⟨[], by simp⟩
  | cons g gs ih =>
      intro st
      rw [List.foldl_cons]
      obtain ⟨ext', hext'⟩ := ih (groupStep now st g)
      obtain ⟨ext1, hext1⟩ := groupStep_vlist now st g
      exact ⟨ext1 ++ ext', by rw [hext', hext1, List.append_assoc]⟩

/-- The per-domain step reads the clock only when it creates a generated
root, which also grows the value list; a step that leaves the value list
unchanged is clock-independent. -/
theorem groupStep_now_indep (now now' : Int) (st : GState)
    (g : String × List Visit) (h : (groupStep now st g).vlist = st.vlist) :
    groupStep now st g = groupStep now' st g := by
  rcases ho : groupOrphans st g.2 with _ | ⟨o, os⟩
  · rw [groupStep_nil now st g ho, groupStep_nil now' st g ho]
  · by_cases hcond : (decide (1 < (o :: os).length) ||
        !(g.2.find? isRootPage).isSome ||
        (o :: os).any (fun v => !(st.children v.visitId).isEmpty)) = true
    · rcases hfind : g.2.find? isRootPage with _ | root
      · exfalso
        rw [groupStep_gen now st g o os ho hfind] at h
        have hlen := congrArg List.length h
        simp [List.length_append] at hlen
      · rw [groupStep_existing now st g o os root ho hfind hcond,
          groupStep_existing now' st g o os root ho hfind hcond]
    · rw [groupStep_skip now st g o os ho (Bool.eq_false_iff.mpr hcond),
        groupStep_skip now' st g o os ho (Bool.eq_false_iff.mpr hcond)]

theorem genFold_now_indep (now now' : Int) :
    ∀ (gs : List (String × List Visit)) (st : GState),
      (gs.foldl (groupStep now) st).vlist = st.vlist →
      gs.foldl (groupStep now) st = gs.foldl (groupStep now') st := by
  intro gs
  induction gs with
  | nil => intro st _; rfl
  | cons g gs ih =>
      intro st h
      simp only [List.foldl_cons] at h ⊢
      obtain ⟨ext', hext'⟩ := genFold_vlist now gs (groupStep now st g)
      obtain ⟨ext1, hext1⟩ := groupStep_vlist now st g
      have hcomb : st.vlist = (st.vlist ++ ext1) ++ ext' := by
        rw [← hext1]
        exact h.symm.trans hext'
      have hlen := congrArg List.length hcomb
      simp only [List.length_append] at hlen
      have hext1nil : ext1 = [] := List.length_eq_zero.mp (by omega)
      have hv1 : (groupStep now st g).vlist = st.vlist := by
        rw [hext1, hext1nil, List.append_nil]
      have hstep := groupStep_now_indep now now' st g hv1
      rw [← hstep]
      apply ih
      rw [h]
      exact hv1.symm

/-- C9 (amended): each builder is a function of its full inputs — the
direct-link and aggregated builders of the visit data alone, the beta
builder additionally of the tracker state and the `Date.now()` value read at
line 1294.  Two beta runs with different clock values agree whenever the run
generates no root-domain node (the clock is only embedded in generated root
ids); the counterexample shows they can differ otherwise, refuting the claim
that identical visit data alone forces identical forests. -/
theorem C9_determinism_amended (vs : List Visit)
    (scoreF : String → String → TMeta → ℚ) (tr : TrackerState)
    (now now' : Int) (hng : (betaState tr now vs).vlist = vs) :
    buildHistoryTree vs = buildHistoryTree vs ∧
    buildAggregatedTree scoreF vs = buildAggregatedTree scoreF vs ∧
    buildBetaTree tr now vs = buildBetaTree tr now' vs := by
  refine ⟨rfl, rfl, ?_⟩
  have hst : betaState tr now vs = betaState tr now' vs := by
    rw [betaState, betaState, generateRootDomains, generateRootDomains]
    exact genFold_now_indep now now' _ _ hng
  rw [buildBetaTree, buildBetaTree, hst]

/-- C9 counterexample: the same single-visit input, run at clock 0 and at
clock 1000, produces different forests — the generated root's id embeds
`Date.now()`. -/
theorem C9_counterexample :
    buildBetaTree ⟨[], fun _ => none⟩ 0
      [⟨"1", "https://e.com/a", "t", 100, none, "link", ""⟩] ≠
    buildBetaTree ⟨[], fun _ => none⟩ 1000
      [⟨"1", "https://e.com/a", "t", 100, none, "link", ""⟩] := by
  intro he
  have h1 : (buildBetaTree ⟨[], fun _ => none⟩ 0
      [⟨"1", "https://e.com/a", "t", 100, none, "link", ""⟩]).map
      (fun F => F.map (fun t => t.data.visitId)) =
      some ["generated_root_e.com_0"] := by
    with_unfolding_all rfl
  have h2 : (buildBetaTree ⟨[], fun _ => none⟩ 1000
      [⟨"1", "https://e.com/a", "t", 100, none, "link", ""⟩]).map
      (fun F => F.map (fun t => t.data.visitId)) =
      some ["generated_root_e.com_1000"] := by
    with_unfolding_all rfl
  rw [he, h2] at h1
  exact absurd h1 (by decide)

/-- Witness for C9 (amended) at a homepage-only input, which generates no
root-domain node. -/
theorem C9_determinism_amended_witness :
    ((betaState ⟨[], fun _ => none⟩ 0
        [⟨"1", "https://p.com/", "t", 100, none, "", ""⟩]).vlist =
      [⟨"1", "https://p.com/", "t", 100, none, "", ""⟩]) ∧
    (buildHistoryTree [⟨"1", "https://p.com/", "t", 100, none, "", ""⟩] =
      buildHistoryTree [⟨"1", "https://p.com/", "t", 100, none, "", ""⟩] ∧
     buildAggregatedTree (fun _ _ _ => 0)
        [⟨"1", "https://p.com/", "t", 100, none, "", ""⟩] =
      buildAggregatedTree (fun _ _ _ => 0)
        [⟨"1", "https://p.com/", "t", 100, none, "", ""⟩] ∧
     buildBetaTree ⟨[], fun _ => none⟩ 0
        [⟨"1", "https://p.com/", "t", 100, none, "", ""⟩] =
      buildBetaTree ⟨[], fun _ => none⟩ 5
        [⟨"1", "https://p.com/", "t", 100, none, "", ""⟩]) :=
  ⟨by with_unfolding_all decide,
    C9_determinism_amended [⟨"1", "https://p.com/", "t", 100, none, "", ""⟩]
      (fun _ _ _ => 0) ⟨[], fun _ => none⟩ 0 5
      (by with_unfolding_all decide)⟩

/-! ### C7: the detector cascade gates, corrected -/

/-- C7 (amended): the cascade attaches an unprocessed orphan exactly when the
staged best candidate exists with confidence **strictly** above `0.3`; a best
confidence of at most `0.3` (in particular exactly the claimed threshold)
attaches nothing.  Moreover the raw detector confidences are not compared
directly: the new-tab detector only enters the comparison when its own
confidence exceeds `0.6` (line 1108), and the back-navigation detector never
fires at the builder's call site because visits carry no `tabId`. -/
theorem C7_cascade_amended (tr : TrackerState) (vlist : List Visit)
    (st : BState) (o : Visit) (ho : o.visitId ∉ st.processed) :
    (∀ p s, betaBest tr vlist o = (some p, s) → (3:ℚ)/10 < s →
      betaOrphanStep tr vlist st o =
        { children := pushChild st.children p.visitId o.visitId,
          processed := st.processed ++ [o.visitId] }) ∧
    ((betaBest tr vlist o).2 ≤ (3:ℚ)/10 → betaOrphanStep tr vlist st o = st) ∧
    ((betaBest tr vlist o).1 = none → betaOrphanStep tr vlist st o = st) ∧
    (∀ r, findNewTabParent tr o.url o.visitTime none = some r →
      r.confidence ≤ (6:ℚ)/10 → betaStage1 tr vlist o = (none, 0)) ∧
    detectBackNavigation tr o.url o.visitTime none = none := by
  refine ⟨?_, ?_, ?_, ?_, rfl⟩
  · intro p s hb hs
    simp [betaOrphanStep, ho, hb, hs]
  · intro hs
    rcases hb : betaBest tr vlist o with ⟨_ | p, s⟩
    · simp [betaOrphanStep, ho, hb]
    · rw [hb] at hs
      simp only at hs
      have hns : ¬ (3:ℚ)/10 < s := not_lt.mpr hs
      simp [betaOrphanStep, ho, hb, hns]
  · intro hn
    rcases hb : betaBest tr vlist o with ⟨_ | p, s⟩
    · simp [betaOrphanStep, ho, hb]
    · rw [hb] at hn
      simp at hn
  · intro r hr hle
    rw [betaStage1]
    simp only [hr]
    rw [if_neg (not_lt.mpr hle)]

/-- C7 counterexample: the new-tab detector fires with confidence `0.5 ≥ 0.3`
and its candidate parent (visit "1") is present in the map within the
ten-second window, yet the cascade attaches nothing (the stage gate demands
`> 0.6`), and in the finished build visit "1" has no children at all: the
"highest detector confidence ≥ 0.3 wins" rule is refuted. -/
theorem C7_counterexample :
    findNewTabParent
      ⟨[(7, ⟨3, "https://p.com/", "pt", 0⟩)], fun _ => none⟩
      "https://c.com/x" 2500 none =
      some ⟨"https://p.com/", "pt", 3, 1/2, "new_tab_time_based"⟩ ∧
    (3:ℚ)/10 ≤ 1/2 ∧
    findVisitByUrl
      [⟨"1", "https://p.com/", "t", 6000, none, "link", ""⟩,
       ⟨"2", "https://c.com/x", "t", 2500, none, "link", ""⟩]
      "https://p.com/" 2500 10000 =
      some ⟨"1", "https://p.com/", "t", 6000, none, "link", ""⟩ ∧
    betaBest ⟨[(7, ⟨3, "https://p.com/", "pt", 0⟩)], fun _ => none⟩
      [⟨"1", "https://p.com/", "t", 6000, none, "link", ""⟩,
       ⟨"2", "https://c.com/x", "t", 2500, none, "link", ""⟩]
      ⟨"2", "https://c.com/x", "t", 2500, none, "link", ""⟩ = (none, 0) ∧
    (betaState ⟨[(7, ⟨3, "https://p.com/", "pt", 0⟩)], fun _ => none⟩ 0
      [⟨"1", "https://p.com/", "t", 6000, none, "link", ""⟩,
       ⟨"2", "https://c.com/x", "t", 2500, none, "link", ""⟩]).children "1" =
      [] := by
  refine ⟨?_, by norm_num, ?_, ?_, ?_⟩
  · with_unfolding_all rfl
  · with_unfolding_all rfl
  · with_unfolding_all rfl
  · with_unfolding_all rfl

/-- Witness for C7 (amended) at a concrete unprocessed orphan. -/
theorem C7_cascade_amended_witness :
    ((⟨"2", "https://c.com/x", "t", 2500, none, "link", ""⟩ : Visit).visitId ∉
      ([] : List String)) ∧
    ((∀ p s, betaBest ⟨[], fun _ => none⟩ []
        ⟨"2", "https://c.com/x", "t", 2500, none, "link", ""⟩ = (some p, s) →
        (3:ℚ)/10 < s →
      betaOrphanStep ⟨[], fun _ => none⟩ [] ⟨fun _ => [], []⟩
        ⟨"2", "https://c.com/x", "t", 2500, none, "link", ""⟩ =
        { children := pushChild (fun _ => []) p.visitId
            (⟨"2", "https://c.com/x", "t", 2500, none, "link", ""⟩ : Visit).visitId,
          processed := [] ++
            [(⟨"2", "https://c.com/x", "t", 2500, none, "link", ""⟩ : Visit).visitId] }) ∧
     ((betaBest ⟨[], fun _ => none⟩ []
        ⟨"2", "https://c.com/x", "t", 2500, none, "link", ""⟩).2 ≤ (3:ℚ)/10 →
      betaOrphanStep ⟨[], fun _ => none⟩ [] ⟨fun _ => [], []⟩
        ⟨"2", "https://c.com/x", "t", 2500, none, "link", ""⟩ =
        ⟨fun _ => [], []⟩) ∧
     ((betaBest ⟨[], fun _ => none⟩ []
        ⟨"2", "https://c.com/x", "t", 2500, none, "link", ""⟩).1 = none →
      betaOrphanStep ⟨[], fun _ => none⟩ [] ⟨fun _ => [], []⟩
        ⟨"2", "https://c.com/x", "t", 2500, none, "link", ""⟩ =
        ⟨fun _ => [], []⟩) ∧
     (∀ r, findNewTabParent ⟨[], fun _ => none⟩
        (⟨"2", "https://c.com/x", "t", 2500, none, "link", ""⟩ : Visit).url
        (⟨"2", "https://c.com/x", "t", 2500, none, "link", ""⟩ : Visit).visitTime
        none = some r →
      r.confidence ≤ (6:ℚ)/10 →
      betaStage1 ⟨[], fun _ => none⟩ []
        ⟨"2", "https://c.com/x", "t", 2500, none, "link", ""⟩ = (none, 0)) ∧
     detectBackNavigation ⟨[], fun _ => none⟩
        (⟨"2", "https://c.com/x", "t", 2500, none, "link", ""⟩ : Visit).url
        (⟨"2", "https://c.com/x", "t", 2500, none, "link", ""⟩ : Visit).visitTime
        none = none) :=
  ⟨by decide,
    C7_cascade_amended ⟨[], fun _ => none⟩ [] ⟨fun _ => [], []⟩
      ⟨"2", "https://c.com/x", "t", 2500, none, "link", ""⟩ (by decide)⟩

/-! ### C6: sibling ordering in the materialised forests -/

/-- Recursive per-node ordering of a materialised tree: every children list
is pairwise ordered by `pd` on the payloads. -/
inductive OrderedT (pd : NodeData → NodeData → Prop) : TNode → Prop where
  | node (d : NodeData) (cs : List TNode)
      (hs : cs.Pairwise (fun a b => pd a.data b.data))
      (hc : ∀ c ∈ cs, OrderedT pd c) : OrderedT pd (.node d cs)

/-- Newest-first on node payloads (non-strict, ties keep insertion order). -/
def timePd (da db : NodeData) : Prop := db.visitTime ≤ da.visitTime

/-- Aggregated sibling order on node payloads: visit count descending, then
last-visit time descending. -/
def aggPd (da db : NodeData) : Prop :=
  db.visitCount < da.visitCount ∨
    (db.visitCount = da.visitCount ∧ db.visitTime ≤ da.visitTime)

theorem forall₂_mem_right {R : α → β → Prop} :
    ∀ {l : List α} {m : List β}, List.Forall₂ R l m →
      ∀ {y}, y ∈ m → ∃ b ∈ l, R b y := by
  intro l m hf
  induction hf with
  | nil => intro y hy; cases hy
  | cons hr hf ih =>
      intro y hy
      rcases List.mem_cons.mp hy with rfl | hy
      · exact ⟨_, by simp, hr⟩
      · obtain ⟨b, hb, hrb⟩ := ih hy
        exact ⟨b, by simp [hb], hrb⟩

theorem pairwise_of_forall₂ {R : α → β → Prop} {P : α → α → Prop}
    {Q : β → β → Prop} :
    ∀ {l : List α} {m : List β}, List.Forall₂ R l m → l.Pairwise P →
      (∀ a b x y, R a x → R b y → P a b → Q x y) → m.Pairwise Q := by
  intro l m hf
  induction hf with
  | nil => intro _ _; exact List.Pairwise.nil
  | cons hr hf ih =>
      intro hp himp
      rcases List.pairwise_cons.mp hp with ⟨ha, hl⟩
      refine List.pairwise_cons.mpr ⟨?_, ih hl himp⟩
      intro y hy
      obtain ⟨b, hb, hrb⟩ := forall₂_mem_right hf hy
      exact himp _ b _ y hr hrb (ha b hb)

theorem buildTree_data (payload : String → Option NodeData)
    (children : String → List String) :
    ∀ (fuel : Nat) (k : String) (t : TNode),
      buildTree payload children fuel k = some t → payload k = some t.data := by
  intro fuel
  cases fuel with
  | zero => intro k t h; cases h
  | succ f =>
      intro k t h
      rcases hp : payload k with _ | d
      · simp only [buildTree, hp] at h
        exact Option.noConfusion h
      · simp only [buildTree, hp] at h
        rw [Option.map_eq_some'] at h
        obtain ⟨cs, hcs, rfl⟩ := h
        rfl

theorem buildTree_ordered (payload : String → Option NodeData)
    (children : String → List String) (prec : String → String → Bool)
    (pd : NodeData → NodeData → Prop)
    (hsorted : ∀ k, SortedJS prec (children k))
    (hcompat : ∀ a b da db, payload a = some da → payload b = some db →
      ¬ prec b a = true → pd da db) :
    ∀ (fuel : Nat) (k : String) (t : TNode),
      buildTree payload children fuel k = some t → OrderedT pd t := by
  intro fuel
  induction fuel with
  | zero => intro k t h; cases h
  | succ f ih =>
      intro k t h
      rcases hp : payload k with _ | d
      · simp only [buildTree, hp] at h
        exact Option.noConfusion h
      · simp only [buildTree, hp] at h
        rw [Option.map_eq_some'] at h
        obtain ⟨cs, hcs, rfl⟩ := h
        have hfa : List.Forall₂
            (fun c u => buildTree payload children f c = some u)
            (children k) cs :=
          map_eq_map_some_forall ((collectSome_eq_some_iff _ _).mp hcs)
        refine OrderedT.node d cs ?_ ?_
        · refine pairwise_of_forall₂ hfa (hsorted k) ?_
          intro a b x y hax hby hab
          exact hcompat a b x.data y.data
            (buildTree_data payload children f a x hax)
            (buildTree_data payload children f b y hby) hab
        · intro c hc
          obtain ⟨b, hb, hrb⟩ := forall₂_mem_right hfa hc
          exact ih b c hrb

theorem buildForest_ordered (payload : String → Option NodeData)
    (children : String → List String) (prec : String → String → Bool)
    (pd : NodeData → NodeData → Prop)
    (hsorted : ∀ k, SortedJS prec (children k))
    (hcompat : ∀ a b da db, payload a = some da → payload b = some db →
      ¬ prec b a = true → pd da db)
    (fuel : Nat) (roots : List String) (F : List TNode)
    (hF : buildForest payload children fuel roots = some F) :
    ∀ t ∈ F, OrderedT pd t := by
  intro t ht
  have hfa : List.Forall₂
      (fun r u => buildTree payload children fuel r = some u) roots F :=
    map_eq_map_some_forall ((collectSome_eq_some_iff _ _).mp hF)
  obtain ⟨r, hr, hrt⟩ := forall₂_mem_right hfa ht
  exact buildTree_ordered payload children prec pd hsorted hcompat fuel r t hrt

theorem recSorted_orderedT : ∀ t, RecSorted t → OrderedT timePd t := by
  refine TNode.inducn ?_
  intro d cs ih hrs
  refine OrderedT.node d cs ?_ (fun c hc => ih c hc (hrs.child c hc))
  have hs := hrs.sorted_children
  refine List.Pairwise.imp ?_ hs
  intro a b hab
  simp only [nodeTimeDesc, decide_eq_true_eq] at hab
  rw [timePd]
  omega

/-- Membership-restricted variant of `insJS_pairwise`, for comparators whose
laws only hold on a predicate `P` closed over the inserted elements. -/
theorem insJS_pairwise_mem (prec : α → α → Bool) (P : α → Prop)
    (hneg : ∀ a b c, P a → P b → P c →
      ¬ prec b a = true → ¬ prec c b = true → ¬ prec c a = true)
    (hasymm : ∀ a b, P a → P b → prec a b = true → ¬ prec b a = true)
    (x : α) (l : List α) (hx : P x) (hl : ∀ y ∈ l, P y)
    (hsort : SortedJS prec l) :
    SortedJS prec (insJS prec x l) := by
  induction l with
  | nil => simp [insJS, SortedJS]
  | cons y ys ih =>
      rcases List.pairwise_cons.mp hsort with ⟨hy, hys⟩
      by_cases h : prec y x = true
      · simp only [insJS, h, if_pos]
        refine List.pairwise_cons.mpr ⟨?_, ih (fun z hz => hl z (by simp [hz])) hys⟩
        intro z hz
        rcases List.mem_cons.mp ((insJS_perm prec x ys).mem_iff.mp hz) with hz | hz
        · rw [hz]
          exact hasymm y x (hl y (by simp)) hx h
        · exact hy z hz
      · simp only [insJS, h, if_neg]
        refine List.pairwise_cons.mpr ⟨?_, hsort⟩
        intro z hz
        rcases List.mem_cons.mp hz with hz | hz
        · subst hz; exact h
        · exact hneg x y z hx (hl y (by simp)) (hl z (by simp [hz])) h (hy z hz)

theorem sortJS_pairwise_mem (prec : α → α → Bool) (P : α → Prop)
    (hneg : ∀ a b c, P a → P b → P c →
      ¬ prec b a = true → ¬ prec c b = true → ¬ prec c a = true)
    (hasymm : ∀ a b, P a → P b → prec a b = true → ¬ prec b a = true) :
    ∀ (l : List α), (∀ y ∈ l, P y) → SortedJS prec (sortJS prec l) := by
  intro l
  induction l with
  | nil => intro _; simp [sortJS, SortedJS]
  | cons x xs ih =>
      intro hl
      refine insJS_pairwise_mem prec P hneg hasymm x (sortJS prec xs)
        (hl x (by simp)) ?_ (ih (fun y hy => hl y (by simp [hy])))
      intro y hy
      exact hl y (by simp [(mem_sortJS prec xs y).mp hy])

/-- C6 (amended): every sibling list of the direct-link and beta outputs is
sorted newest-first (non-strict, ties by insertion order), and every sibling
list of the aggregated output is sorted by visit count descending then
last-visit time descending — **not** by transition weight then recency as the
claim states for aggregated mode (the counterexample exhibits an input with
no transition data at all whose aggregated siblings are out of recency
order). -/
theorem C6_sibling_order_amended (vs : List Visit)
    (scoreF : String → String → TMeta → ℚ) (tr : TrackerState) (now : Int) :
    (∀ F, buildHistoryTree vs = some F → ∀ t ∈ F, OrderedT timePd t) ∧
    (∀ F, buildAggregatedTree scoreF vs = some F → ∀ t ∈ F, OrderedT aggPd t) ∧
    (∀ F, buildBetaTree tr now vs = some F → ∀ t ∈ F, OrderedT timePd t) := by
  refine ⟨?_, ?_, ?_⟩
  · intro F hF t ht
    rw [buildHistoryTree] at hF
    rcases hpre : buildHistoryForestPre vs with _ | F₀
    · rw [hpre] at hF
      cases hF
    · rw [hpre] at hF
      injection hF with hF
      rw [← hF] at ht
      rw [removeDuplicateNodes] at ht
      obtain ⟨t₀, ht₀, rfl⟩ := List.mem_map.mp ht
      exact recSorted_orderedT _ (processNode_recSorted t₀)
  · intro F hF t ht
    refine buildForest_ordered (aggPayload vs)
      (aggChildren vs (aggParentMap scoreF vs))
      (aggChildOrd (urlVisitMap vs)) aggPd ?_ ?_ _ _ F hF t ht
    · intro k
      rw [aggChildren]
      refine sortJS_pairwise_mem (aggChildOrd (urlVisitMap vs))
        (fun u => (alookup (urlVisitMap vs) u).isSome) ?_ ?_ _ ?_
      · intro a b c ha hb hc h1 h2
        obtain ⟨A, hA⟩ := Option.isSome_iff_exists.mp ha
        obtain ⟨B, hB⟩ := Option.isSome_iff_exists.mp hb
        obtain ⟨C, hC⟩ := Option.isSome_iff_exists.mp hc
        simp only [aggChildOrd, hA, hB, hC] at h1 h2 ⊢
        split_ifs at h1 h2 ⊢ <;> simp_all <;> omega
      · intro a b ha hb h1
        obtain ⟨A, hA⟩ := Option.isSome_iff_exists.mp ha
        obtain ⟨B, hB⟩ := Option.isSome_iff_exists.mp hb
        simp only [aggChildOrd, hA, hB] at h1 ⊢
        split_ifs at h1 ⊢ <;> simp_all <;> omega
      · intro u hu
        rw [aggChildrenRaw] at hu
        split at hu
        · cases hu
        · rw [alookup_isSome_iff]
          exact List.mem_of_mem_filter hu
    · intro a b da db hda hdb hab
      rw [aggPayload, Option.map_eq_some'] at hda hdb
      obtain ⟨A, hA, rfl⟩ := hda
      obtain ⟨B, hB, rfl⟩ := hdb
      simp only [aggChildOrd, hA, hB] at hab
      rw [aggPd]
      simp only
      split_ifs at hab <;> simp_all <;> omega
  · intro F hF t ht
    refine buildForest_ordered (betaPayload (betaState tr now vs))
      (betaChildren (betaState tr now vs))
      (idTimeDesc (betaState tr now vs).vlist) timePd ?_ ?_ _ _ F hF t ht
    · intro k
      exact sortJS_pairwise (idTimeDesc (betaState tr now vs).vlist)
        (by
          intro a b c h1 h2
          simp only [idTimeDesc, decide_eq_true_eq] at h1 h2 ⊢
          omega)
        (by
          intro a b h1
          simp only [idTimeDesc, decide_eq_true_eq] at h1 ⊢
          omega) _
    · intro a b da db hda hdb hab
      rw [betaPayload, Option.map_eq_some'] at hda hdb
      obtain ⟨va, hva, rfl⟩ := hda
      obtain ⟨vb, hvb, rfl⟩ := hdb
      simp only [idTimeDesc, decide_eq_true_eq,
        timeOf_lookup hva, timeOf_lookup hvb] at hab
      rw [timePd]
      simp only [Visit.toData]
      omega

/-- C6 counterexample (aggregated mode): with no transition data at all (all
referrers absent, so every reading of "transition weight" ties), the
aggregated siblings of `https://h.com/p` come out `[/p/a, /p/b]` by visit
count, although `/p/b` (last visit 100) is more recent than `/p/a` (last
visit 20) — not "transition weight then recency". -/
theorem C6_counterexample :
    (∀ v ∈ [(⟨"1", "https://h.com/p/a", "t", 10, none, "link", ""⟩ : Visit),
       ⟨"2", "https://h.com/p/a", "t", 20, none, "link", ""⟩,
       ⟨"3", "https://h.com/p/b", "t", 100, none, "link", ""⟩,
       ⟨"4", "https://h.com/p", "t", 50, none, "link", ""⟩],
      v.referringVisitId = none) ∧
    aggChildren
      [⟨"1", "https://h.com/p/a", "t", 10, none, "link", ""⟩,
       ⟨"2", "https://h.com/p/a", "t", 20, none, "link", ""⟩,
       ⟨"3", "https://h.com/p/b", "t", 100, none, "link", ""⟩,
       ⟨"4", "https://h.com/p", "t", 50, none, "link", ""⟩]
      (aggParentMap (fun _ _ _ => 0)
        [⟨"1", "https://h.com/p/a", "t", 10, none, "link", ""⟩,
         ⟨"2", "https://h.com/p/a", "t", 20, none, "link", ""⟩,
         ⟨"3", "https://h.com/p/b", "t", 100, none, "link", ""⟩,
         ⟨"4", "https://h.com/p", "t", 50, none, "link", ""⟩])
      "https://h.com/p" = ["https://h.com/p/a", "https://h.com/p/b"] ∧
    (aggPayload
      [⟨"1", "https://h.com/p/a", "t", 10, none, "link", ""⟩,
       ⟨"2", "https://h.com/p/a", "t", 20, none, "link", ""⟩,
       ⟨"3", "https://h.com/p/b", "t", 100, none, "link", ""⟩,
       ⟨"4", "https://h.com/p", "t", 50, none, "link", ""⟩]
      "https://h.com/p/a").map (fun d => d.visitTime) = some 20 ∧
    (aggPayload
      [⟨"1", "https://h.com/p/a", "t", 10, none, "link", ""⟩,
       ⟨"2", "https://h.com/p/a", "t", 20, none, "link", ""⟩,
       ⟨"3", "https://h.com/p/b", "t", 100, none, "link", ""⟩,
       ⟨"4", "https://h.com/p", "t", 50, none, "link", ""⟩]
      "https://h.com/p/b").map (fun d => d.visitTime) = some 100 := by
  refine ⟨by decide, ?_, ?_, ?_⟩
  · with_unfolding_all rfl
  · with_unfolding_all rfl
  · with_unfolding_all rfl

/-- Witness for C1 at a concrete one-visit input. -/
theorem C1_all_builders_acyclic_witness :
    ((visitIds [⟨"1", "https://e.com/a", "t", 100, none, "", ""⟩]).Nodup ∧
      (∀ v ∈ [(⟨"1", "https://e.com/a", "t", 100, none, "", ""⟩ : Visit)],
        v.visitId.data.take 15 ≠ ("generated_root_" : String).data)) ∧
    ((buildHistoryTree [⟨"1", "https://e.com/a", "t", 100, none, "", ""⟩]).isSome ∧
      (buildAggregatedTree (fun _ _ _ => 0)
        [⟨"1", "https://e.com/a", "t", 100, none, "", ""⟩]).isSome ∧
      (buildBetaTree ⟨[], fun _ => none⟩ 0
        [⟨"1", "https://e.com/a", "t", 100, none, "", ""⟩]).isSome) :=
  ⟨⟨by decide, by decide⟩,
    C1_all_builders_acyclic [⟨"1", "https://e.com/a", "t", 100, none, "", ""⟩]
      (fun _ _ _ => 0) ⟨[], fun _ => none⟩ 0 (by decide) (by decide)⟩

end CHT
